import Mathlib

/-!
# go-stockutil, package stringutil: value conversion and byte-quantity parsing

A shallow embedding of `stringutil.go`.  Go strings are byte sequences, so a
string is a list of byte values; the standard-library routines the package
calls (`strconv`, `strings`, `math`) are modelled next to it, and the services
that are not modelled (Unicode tables, `time.Parse`, the clock, `fmt` float
rendering) are fields of an environment record.
-/

namespace Stringutil

/-! ## Go strings -/

/-- A Go string: its bytes, in order. -/
abbrev GoString := List Nat

/-- UTF-8 encoding of one code point, as Go's `string(rune)` conversion produces it. -/
def utf8EncodeRune (r : Nat) : GoString :=
  if r < 0x80 then [r]
  else if r < 0x800 then [0xC0 + r / 64, 0x80 + r % 64]
  else if r < 0x10000 then [0xE0 + r / 4096, 0x80 + r / 64 % 64, 0x80 + r % 64]
  else [0xF0 + r / 262144, 0x80 + r / 4096 % 64, 0x80 + r / 64 % 64, 0x80 + r % 64]

/-- The bytes of a string literal. -/
def bytes (s : String) : GoString :=
  s.toList.flatMap fun c => utf8EncodeRune c.toNat

/-- Go `strings.HasSuffix`. -/
def HasSuffix (s suffix : GoString) : Bool :=
  suffix.length ≤ s.length && s.drop (s.length - suffix.length) == suffix

/-- Go index expression `s[i]`; `none` stands for the run-time panic
"index out of range". The index is an `Int` because `len(s)-1` may be negative. -/
def index (s : GoString) (i : Int) : Option Nat :=
  if 0 ≤ i then s.get? i.toNat else none

/-- Go slice expression `s[0:n]` for `0 ≤ n ≤ len(s)`; `none` stands for the
run-time panic "slice bounds out of range". -/
def slice0 (s : GoString) (n : Int) : Option GoString :=
  if 0 ≤ n ∧ n ≤ s.length then some (s.take n.toNat) else none

/-- ASCII decimal digit. -/
def isDigit (c : Nat) : Bool := 48 ≤ c && c ≤ 57

/-- Go `strconv.lower`: `c | ('x' - 'X')`. -/
def lower (c : Nat) : Nat := c ||| 0x20

/-! ## strconv: integers -/

/-- The two kinds of `strconv.NumError`. -/
inductive NumErrKind
  | ErrSyntax
  | ErrRange
  deriving DecidableEq, Repr

/-- The digit loop of `strconv.ParseUint(s, 10, 64)`: `cutoff` is the least
`n` with `n * 10 > maxVal`. The loop returns at the first offending byte. -/
def parseUintLoop (cutoff maxVal : Nat) : GoString → Nat → Except NumErrKind Nat
  | [], n => .ok n
  | c :: cs, n =>
    if isDigit c then
      if cutoff ≤ n then .error .ErrRange
      else
        let n1 := n * 10 + (c - 48)
        if maxVal < n1 then .error .ErrRange
        else parseUintLoop cutoff maxVal cs n1
    else .error .ErrSyntax

/-- Go `strconv.ParseUint(s, 10, 64)`: the value and the error kind, if any
(`0` with a syntax error, the largest value with a range error). -/
def ParseUint (s : GoString) : Nat × Option NumErrKind :=
  if s = [] then (0, some .ErrSyntax)
  else
    match parseUintLoop ((2 ^ 64 - 1) / 10 + 1) (2 ^ 64 - 1) s 0 with
    | .ok n => (n, none)
    | .error .ErrSyntax => (0, some .ErrSyntax)
    | .error .ErrRange => (2 ^ 64 - 1, some .ErrRange)

/-- Go `strconv.ParseInt(s, 10, 64)`: optional sign, then `ParseUint`, then
the signed range check. -/
def ParseInt (s : GoString) : Int × Option NumErrKind :=
  match s with
  | [] => (0, some .ErrSyntax)
  | c :: cs =>
    let neg := c == 45
    let body := if c = 43 ∨ c = 45 then cs else c :: cs
    match ParseUint body with
    | (_, some .ErrSyntax) => (0, some .ErrSyntax)
    | (un, _) =>
      if !neg && 2 ^ 63 ≤ un then (2 ^ 63 - 1, some .ErrRange)
      else if neg && 2 ^ 63 < un then (-(2 ^ 63), some .ErrRange)
      else (if neg then -(un : Int) else (un : Int), none)

/-- Go `strconv.Atoi` on a platform whose `int` is 64 bits wide. -/
def Atoi (s : GoString) : Int × Option NumErrKind := ParseInt s

/-- Digits of `n`, most significant first, with `fuel` bounding the length. -/
def formatDigits : Nat → Nat → GoString → GoString
  | 0, _, acc => acc
  | fuel + 1, n, acc =>
    if n < 10 then (48 + n) :: acc
    else formatDigits fuel (n / 10) ((48 + n % 10) :: acc)

/-- Go `strconv.FormatUint(n, 10)`. -/
def FormatUint (n : Nat) : GoString := formatDigits (n + 1) n []

/-- Go `strconv.FormatInt(i, 10)`. -/
def FormatInt (i : Int) : GoString :=
  if i < 0 then 45 :: FormatUint i.natAbs else FormatUint i.natAbs

/-! ## float64 -/

/-- An IEEE-754 binary64 value. `finite neg m e` is `(-1)^neg * m * 2^e`; the
values the arithmetic produces satisfy `F64.WF`. -/
inductive F64
  | finite (neg : Bool) (m : Nat) (e : Int)
  | inf (neg : Bool)
  | nan
  deriving DecidableEq, Repr

/-- The canonical finite representations: 53-bit mantissa, exponent range of
binary64, subnormals and zero at the least exponent. -/
def F64.WF : F64 → Prop
  | .finite _ m e => m < 2 ^ 53 ∧ -1074 ≤ e ∧ e ≤ 971 ∧ (m < 2 ^ 52 → e = -1074)
  | _ => True

/-- Quotient `n / d` rounded to the nearest integer, ties to even. -/
def divRoundEven (n d : Nat) : Nat :=
  let m := n / d
  let r := n % d
  if 2 * r < d then m
  else if 2 * r = d then (if m % 2 = 0 then m else m + 1)
  else m + 1

/-- Number of binary digits of `n`, with `fuel` bounding the count. -/
def bitLen : Nat → Nat → Nat
  | 0, _ => 0
  | fuel + 1, n => if n = 0 then 0 else bitLen fuel (n / 2) + 1

/-- Floor of the binary logarithm (`0` at `0`). -/
def ilog2 (n : Nat) : Nat := bitLen n n - 1

/-- The binary exponent at which `p / q` has a 53-bit mantissa, not below the
subnormal exponent. -/
def binExp (p q : Nat) : Int :=
  let lp := ilog2 p
  let lq := ilog2 q
  let e : Int := if p * 2 ^ lq < q * 2 ^ lp then (lp : Int) - lq - 53 else (lp : Int) - lq - 52
  max e (-1074)

/-- The binary64 nearest to `(-1)^neg * p / q` (round to nearest, ties to
even), and whether it overflowed to infinity. `q` is positive. -/
def roundRat (neg : Bool) (p q : Nat) : F64 × Bool :=
  if p = 0 then (.finite neg 0 (-1074), false)
  else
    let e := binExp p q
    let m := if 0 ≤ e then divRoundEven p (q * 2 ^ e.toNat) else divRoundEven (p * 2 ^ (-e).toNat) q
    let (m, e) := if 2 ^ 53 ≤ m then (2 ^ 52, e + 1) else (m, e)
    if 971 < e then (.inf neg, true) else (.finite neg m e, false)

/-- Correctly rounded `(-1)^neg * m * 2^e`. -/
def roundDyadic (neg : Bool) (m : Nat) (e : Int) : F64 :=
  if 0 ≤ e then (roundRat neg (m * 2 ^ e.toNat) 1).1 else (roundRat neg m (2 ^ (-e).toNat)).1

/-- Go float64 multiplication `a * b`. -/
def F64.mul : F64 → F64 → F64
  | .nan, _ => .nan
  | _, .nan => .nan
  | .inf n1, .inf n2 => .inf (n1 != n2)
  | .inf n1, .finite n2 m _ => if m = 0 then .nan else .inf (n1 != n2)
  | .finite n1 m _, .inf n2 => if m = 0 then .nan else .inf (n1 != n2)
  | .finite n1 m1 e1, .finite n2 m2 e2 => roundDyadic (n1 != n2) (m1 * m2) (e1 + e2)

/-- Go `float64(i)` for an integer `i`. -/
def F64.ofInt (i : Int) : F64 := (roundRat (decide (i < 0)) i.natAbs 1).1

/-- Go `math.Pow(1024, float64(k))` for a prefix index `k`: the power of two
`2^(10k)`, which binary64 holds exactly. -/
def pow1024 (k : Nat) : F64 := (roundRat false (1024 ^ k) 1).1

/-- Go float64 division `a / b`. -/
def F64.div : F64 → F64 → F64
  | .nan, _ => .nan
  | _, .nan => .nan
  | .inf _, .inf _ => .nan
  | .inf n1, .finite n2 _ _ => .inf (n1 != n2)
  | .finite n1 _ _, .inf n2 => .finite (n1 != n2) 0 (-1074)
  | .finite n1 m1 e1, .finite n2 m2 e2 =>
    if m2 = 0 then (if m1 = 0 then .nan else .inf (n1 != n2))
    else if 0 ≤ e1 - e2 then (roundRat (n1 != n2) (m1 * 2 ^ (e1 - e2).toNat) m2).1
    else (roundRat (n1 != n2) m1 (m2 * 2 ^ (e2 - e1).toNat)).1

/-- The finite value `(-1)^neg * m * 2^e` as an integer multiple of `2^k`,
for `k` at most `e`. -/
def F64.scaled (neg : Bool) (m : Nat) (e k : Int) : Int :=
  (if neg then -1 else 1) * ((m * 2 ^ (e - k).toNat : Nat) : Int)

/-- Go float64 comparison `a < b`. -/
def F64.lt : F64 → F64 → Bool
  | .nan, _ => false
  | _, .nan => false
  | .inf n1, .inf n2 => n1 && !n2
  | .inf n1, .finite _ _ _ => n1
  | .finite _ _ _, .inf n2 => !n2
  | .finite n1 m1 e1, .finite n2 m2 e2 =>
    decide (F64.scaled n1 m1 e1 (min e1 e2) < F64.scaled n2 m2 e2 (min e1 e2))

/-- Go float64 comparison `a <= b`. -/
def F64.le : F64 → F64 → Bool
  | .nan, _ => false
  | _, .nan => false
  | .inf n1, .inf n2 => n1 || !n2
  | .inf n1, .finite _ _ _ => n1
  | .finite _ _ _, .inf n2 => !n2
  | .finite n1 m1 e1, .finite n2 m2 e2 =>
    decide (F64.scaled n1 m1 e1 (min e1 e2) ≤ F64.scaled n2 m2 e2 (min e1 e2))

/-- The float64 constant 1024. -/
def f1024 : F64 := F64.ofInt 1024

/-- The float64 constant 1. -/
def f1 : F64 := F64.ofInt 1

/-! ## strconv: floats -/

/-- State of the mantissa loop of `strconv.readFloat`. The mantissa is kept
exactly: Go keeps 19 digits and a sticky flag and falls back to an exact
conversion, which yields the same correctly rounded result. -/
structure MantState where
  sawdot : Bool
  sawdigits : Bool
  underscores : Bool
  /-- All mantissa digits read so far, as a number in the base. -/
  mant : Nat
  /-- How many of them came after the point. -/
  frac : Nat
  deriving DecidableEq, Repr

/-- The mantissa loop of `readFloat`: underscores, one point, digits (and
hexadecimal letters in base 16); returns the unread rest. -/
def scanMant (hex : Bool) : GoString → MantState → MantState × GoString
  | [], st => (st, [])
  | c :: cs, st =>
    if c = 95 then scanMant hex cs { st with underscores := true }
    else if c = 46 then
      if st.sawdot then (st, c :: cs) else scanMant hex cs { st with sawdot := true }
    else if isDigit c then
      scanMant hex cs { st with
        sawdigits := true
        mant := st.mant * (if hex then 16 else 10) + (c - 48)
        frac := if st.sawdot then st.frac + 1 else st.frac }
    else if hex && (97 ≤ lower c && lower c ≤ 102) then
      scanMant hex cs { st with
        sawdigits := true
        mant := st.mant * 16 + (lower c - 97 + 10)
        frac := if st.sawdot then st.frac + 1 else st.frac }
    else (st, c :: cs)

/-- The exponent digit loop of `readFloat`: the exponent saturates once it
has reached 10000. Returns the exponent, the underscore flag and the rest. -/
def scanExp : GoString → Nat → Bool → Nat × Bool × GoString
  | [], e, u => (e, u, [])
  | c :: cs, e, u =>
    if isDigit c then scanExp cs (if e < 10000 then e * 10 + (c - 48) else e) u
    else if c = 95 then scanExp cs e true
    else (e, u, c :: cs)

/-- The scan of `strconv.underscoreOK` after sign and base prefix; `saw` is
94 at the start, 48 after a digit or base prefix, 95 after an underscore and
33 after anything else. -/
def underscoreLoop (hex : Bool) : GoString → Nat → Bool
  | [], saw => saw != 95
  | c :: cs, saw =>
    if isDigit c || (hex && (97 ≤ lower c && lower c ≤ 102)) then underscoreLoop hex cs 48
    else if c = 95 then (if saw != 48 then false else underscoreLoop hex cs 95)
    else if saw = 95 then false
    else underscoreLoop hex cs 33

/-- Go `strconv.underscoreOK`: underscores only between digits or between a
base prefix and a digit. -/
def underscoreOK (s : GoString) : Bool :=
  let s := match s with
    | 45 :: t => t
    | 43 :: t => t
    | _ => s
  match s with
  | 48 :: x :: t =>
    if lower x = 98 ∨ lower x = 111 ∨ lower x = 120 then underscoreLoop (lower x == 120) t 48
    else underscoreLoop false s 94
  | _ => underscoreLoop false s 94

/-- What `readFloat` recognised: sign, base, exact mantissa, the exponent of
the base factor (10, or 2 for hexadecimal) and the unread rest. -/
structure FloatLit where
  neg : Bool
  hex : Bool
  mant : Nat
  exp : Int
  rest : GoString
  deriving DecidableEq, Repr

/-- The optional sign of `readFloat`: whether it is a minus, and the rest. -/
def readSign (s : GoString) : Bool × GoString :=
  match s with
  | 43 :: t => (false, t)
  | 45 :: t => (true, t)
  | _ => (false, s)

/-- The base prefix of `readFloat`: a zero and a letter x with at least one
more byte behind them select base 16. -/
def readBase (s : GoString) : Bool × GoString :=
  match s with
  | 48 :: x :: c :: t => if lower x = 120 then (true, c :: t) else (false, s)
  | _ => (false, s)

/-- The end of `readFloat`, from the optional exponent on: `s` is the whole
input, `st` the state after the mantissa loop and `s3` the unread rest. -/
def readExponent (s : GoString) (neg hex : Bool) (st : MantState) (s3 : GoString) :
    Option FloatLit :=
  let scale : Int := if hex then 4 * (st.frac : Int) else (st.frac : Int)
  let done (e : Int) (us : Bool) (rest : GoString) : Option FloatLit :=
    if us && !underscoreOK (s.take (s.length - rest.length)) then none
    else some ⟨neg, hex, st.mant, e - scale, rest⟩
  match s3 with
  | c :: t =>
    if lower c = (if hex then 112 else 101) then
      let (esign, t1) := match t with
        | 43 :: u => ((1 : Int), u)
        | 45 :: u => ((-1 : Int), u)
        | _ => ((1 : Int), t)
      match t1 with
      | d :: _ =>
        if isDigit d then
          match scanExp t1 0 st.underscores with
          | (e, us, rest) => done (esign * (e : Int)) us rest
        else none
      | [] => none
    else if hex then none
    else done 0 st.underscores s3
  | [] => if hex then none else done 0 st.underscores s3

/-- Go `strconv.readFloat`; `none` when it reports `ok = false`. -/
def readFloat (s : GoString) : Option FloatLit :=
  let (neg, s1) := readSign s
  let (hex, s2) := readBase s1
  let (st, s3) := scanMant hex s2 ⟨false, false, false, 0, 0⟩
  if !st.sawdigits then none
  else readExponent s neg hex st s3

/-- Go `strconv.commonPrefixLenIgnoreCase`; the second string is lower-case. -/
def commonPrefixLenIgnoreCase : GoString → GoString → Nat
  | c :: cs, p :: ps =>
    if (if 65 ≤ c ∧ c ≤ 90 then c + 32 else c) = p then commonPrefixLenIgnoreCase cs ps + 1 else 0
  | _, _ => 0

/-- Go `strconv.special`: infinities and NaN, with the number of bytes used. -/
def special (s : GoString) : Option (F64 × Nat) :=
  let inf (neg : Bool) (nsign : Nat) (t : GoString) : Option (F64 × Nat) :=
    let n := commonPrefixLenIgnoreCase t (bytes "infinity")
    let n := if 3 < n ∧ n < 8 then 3 else n
    if n = 3 ∨ n = 8 then some (.inf neg, nsign + n) else none
  match s with
  | [] => none
  | c :: t =>
    if c = 43 then inf false 1 t
    else if c = 45 then inf true 1 t
    else if c = 105 ∨ c = 73 then inf false 0 s
    else if c = 110 ∨ c = 78 then
      if commonPrefixLenIgnoreCase s (bytes "nan") = 3 then some (.nan, 3) else none
    else none

/-- The binary64 nearest to the literal's exact value, and the overflow flag. -/
def FloatLit.value (l : FloatLit) : F64 × Bool :=
  let b : Nat := if l.hex then 2 else 10
  if 0 ≤ l.exp then roundRat l.neg (l.mant * b ^ l.exp.toNat) 1
  else roundRat l.neg l.mant (b ^ (-l.exp).toNat)

/-- Go `strconv.ParseFloat(s, 64)`: the value and the error kind, if any
(`0` with a syntax error, an infinity with a range error). The whole string
must be used. -/
def ParseFloat (s : GoString) : F64 × Option NumErrKind :=
  match special s with
  | some (v, n) => if n = s.length then (v, none) else (.finite false 0 (-1074), some .ErrSyntax)
  | none =>
    match readFloat s with
    | none => (.finite false 0 (-1074), some .ErrSyntax)
    | some l =>
      if l.rest ≠ [] then (.finite false 0 (-1074), some .ErrSyntax)
      else if l.value.2 then (l.value.1, some .ErrRange)
      else (l.value.1, none)

/-! ## strconv: formatting floats -/

/-- The digits of `n`, with leading zeros, to the width `w`. -/
def padDigits : Nat → Nat → GoString
  | 0, _ => []
  | w + 1, n => padDigits w (n / 10) ++ [48 + n % 10]

/-- Whether the decimal `c * 10^up / 10^down` parses to the positive float64
`x`: the test that a digit string identifies `x`. -/
def decRounds (x : F64) (c up down : Nat) : Bool :=
  roundRat false (c * 10 ^ up) (10 ^ down) == (x, false)

/-- The search of the shortest formatting for `x = P / Q`, positive: at each
decimal position, from `off` places before the point on, the two decimals
next to `x`; the first position where one of them identifies `x` gives the
digits, the nearer one if both do, the even one on a tie. `exact` is the
exact expansion of `x`, where the search ends at the latest. Go finds the
same digits with the Ryu algorithm; this is what that algorithm is specified
to return: the fewest digits that `ParseFloat` reads back as `x`, nearest to
`x`. -/
def shortestLoop (x : F64) (P Q off : Nat) (exact : Nat × Nat × Nat) :
    Nat → Nat → Nat × Nat × Nat
  | 0, _ => exact
  | fuel + 1, j =>
    let up := off - j
    let down := j - off
    let lo := (P * 10 ^ down) / (Q * 10 ^ up)
    let r := (P * 10 ^ down) % (Q * 10 ^ up)
    let okLo := decRounds x lo up down
    let okHi := decRounds x (lo + 1) up down
    if okLo && okHi then
      if 2 * r < Q * 10 ^ up ∨ (2 * r = Q * 10 ^ up ∧ lo % 2 = 0) then (lo, up, down)
      else (lo + 1, up, down)
    else if okLo then (lo, up, down)
    else if okHi then (lo + 1, up, down)
    else shortestLoop x P Q off exact fuel (j + 1)

/-- The shortest decimal that identifies the positive finite float64
`m * 2^e`, as `(c, up, down)` for `c * 10^up / 10^down`. -/
def shortestDecimal (m : Nat) (e : Int) : Nat × Nat × Nat :=
  let P := m * 2 ^ e.toNat
  let Q := 2 ^ (-e).toNat
  let off := if P / Q = 0 then 0 else (FormatUint (P / Q)).length
  let exact := if 0 ≤ e then (P, 0, 0) else (m * 5 ^ (-e).toNat, 0, (-e).toNat)
  shortestLoop (.finite false m e) P Q off exact ((-e).toNat + off + 1) 0

/-- Go `%f` with the digits of the shortest decimal and no digit more: the
integer part, and the fraction if there is one. -/
def fmtF (c up down : Nat) : GoString :=
  if down = 0 then FormatUint (c * 10 ^ up)
  else FormatUint (c * 10 ^ up / 10 ^ down) ++ 46 :: padDigits down (c * 10 ^ up % 10 ^ down)

/-- A digit string without its trailing zeros. -/
def stripZeros (ds : GoString) : GoString :=
  (ds.reverse.dropWhile (· == 48)).reverse

/-- Go `%e` with the digits of the shortest decimal: one digit, the others
after a point, and the exponent with a sign and at least two digits. -/
def fmtE (c up down : Nat) : GoString :=
  let all := FormatUint c
  let ds := stripZeros all
  let e10 : Int := (all.length : Int) - 1 + up - down
  let mant := match ds with
    | [] => [48]
    | [d] => [d]
    | d :: rest => d :: 46 :: rest
  let ex := FormatUint e10.natAbs
  mant ++ 101 :: (if e10 < 0 then 45 else 43) :: (if e10.natAbs < 10 then 48 :: ex else ex)

/-- Go `strconv.FormatFloat(x, 'g', -1, 64)`, which is what `fmt` writes for
the verb g: the shortest digits that identify `x`, in the form of `%e` when
the decimal exponent is below -4 or at least 6 (the value is below `10^-4`
or at least `10^6`), in the form of `%f` otherwise. -/
def FormatFloatG : F64 → GoString
  | .nan => bytes "NaN"
  | .inf neg => if neg then bytes "-Inf" else bytes "+Inf"
  | .finite neg m e =>
    let sign : GoString := if neg then [45] else []
    if m = 0 then sign ++ [48]
    else
      let (c, up, down) := shortestDecimal m e
      if 10 ^ 6 * 10 ^ down ≤ c * 10 ^ up ∨ c * 10 ^ up * 10 ^ 4 < 10 ^ down then
        sign ++ fmtE c up down
      else sign ++ fmtF c up down

/-! ## Errors, results, environment -/

/-- The `strconv` function a `NumError` names. -/
inductive NumFunc
  | Atoi
  | ParseInt
  | ParseFloat
  deriving DecidableEq, Repr

/-- Error values the package returns, each with the text it carries. -/
inductive Err
  /-- A `*strconv.NumError`: function, offending input, kind. -/
  | num (fn : NumFunc) (input : GoString) (kind : NumErrKind)
  /-- "Unrecognized SI unit '%s'". -/
  | unrecognizedUnit (input : GoString)
  /-- "Unrecognized input string '%s'". -/
  | unrecognizedInput (input : GoString)
  /-- "Cannot convert '%s' into a boolean value". -/
  | notBoolean (input : GoString)
  /-- "Cannot convert '%s' into a date/time value". -/
  | notTime (input : GoString)
  /-- "Unable to convert type '%T' to string". -/
  | notStringable (typeName : GoString)
  deriving DecidableEq, Repr

/-- The string an error message quotes. -/
def Err.names : Err → GoString
  | .num _ s _ => s
  | .unrecognizedUnit s => s
  | .unrecognizedInput s => s
  | .notBoolean s => s
  | .notTime s => s
  | .notStringable s => s

/-- Run-time panics of the Go runtime. -/
inductive Panic
  | indexOutOfRange
  | sliceOutOfRange
  | nilDereference
  deriving DecidableEq, Repr

/-- What a call of a Go function `f(...) (T, error)` does: it returns its
pair, the error being `none` for `nil`, or it panics. -/
inductive Res (α : Type)
  | ret (v : α) (err : Option Err)
  | panic (p : Panic)
  deriving DecidableEq, Repr

/-- A `time.Time`, as its date and clock reading in UTC. -/
structure Time where
  year : Int
  month : Nat
  day : Nat
  hour : Nat
  minute : Nat
  second : Nat
  deriving DecidableEq, Repr

/-- The zero value `time.Time{}`: January 1 of the year 1, 00:00:00 UTC. -/
def Time.zero : Time := ⟨1, 1, 1, 0, 0, 0⟩

/-- An operand of `fmt.Sprintf`, of one of the types the package passes. -/
inductive FmtArg
  | float (x : F64)
  | string (s : GoString)
  | int (n : Int)
  deriving DecidableEq, Repr

/-- The services of the Go runtime and library that are not modelled here. -/
structure Env where
  /-- Go `strings.ToLower` on a string holding a byte outside ASCII. -/
  toLowerUnicode : GoString → GoString
  /-- Go `strings.TrimSpace` on a string holding a byte outside ASCII. -/
  trimSpaceUnicode : GoString → GoString
  /-- Go `time.Parse(layout, value)`; `none` when it returns an error. -/
  timeParse : GoString → GoString → Option Time
  /-- Go `time.Now()`: the reading of the clock at the call. -/
  now : Time
  /-- Go `strconv.FormatFloat` with format f and precision -1, at the given bit size. -/
  formatFloat : F64 → Nat → GoString
  /-- Go `fmt.Sprintf` with the verb v on a `time.Time`. -/
  formatTime : Time → GoString
  /-- Go `fmt.Sprintf(format, operands...)`. -/
  sprintf : GoString → List FmtArg → GoString
  /-- Go `unicode.IsUpper` on a code point outside ASCII. -/
  isUpperUnicode : Nat → Bool
  /-- Go `unicode.IsLower` on a code point outside ASCII. -/
  isLowerUnicode : Nat → Bool
  /-- Go `unicode.ToLower` on a code point outside ASCII. -/
  toLowerRuneUnicode : Nat → Nat
  /-- Go `unicode.IsLetter` on a code point outside ASCII. -/
  isLetterUnicode : Nat → Bool
  /-- Go `unicode.IsDigit` on a code point outside ASCII. -/
  isDigitUnicode : Nat → Bool
  /-- Go `unicode.IsSpace` on a code point outside ASCII. -/
  isSpaceUnicode : Nat → Bool

/-- Go `strings.ToLower`: ASCII letters directly, other strings through the
Unicode tables. -/
def ToLower (env : Env) (s : GoString) : GoString :=
  if s.all (fun c => decide (c < 128)) then s.map (fun c => if 65 ≤ c ∧ c ≤ 90 then c + 32 else c)
  else env.toLowerUnicode s

/-- The ASCII white space of Go `strings.TrimSpace`. -/
def asciiSpace (c : Nat) : Bool :=
  c == 9 || c == 10 || c == 11 || c == 12 || c == 13 || c == 32

/-- Go `strings.TrimSpace`. -/
def TrimSpace (env : Env) (s : GoString) : GoString :=
  if s.all (fun c => decide (c < 128)) then
    ((s.dropWhile asciiSpace).reverse.dropWhile asciiSpace).reverse
  else env.trimSpaceUnicode s

/-- Go `utf8.DecodeRuneInString`: the first code point of `s` and its width;
a byte that starts no valid encoding decodes to U+FFFD with width 1. -/
def decodeRune (s : GoString) : Nat × Nat :=
  let cont (c : Nat) : Bool := 0x80 ≤ c && c ≤ 0xBF
  match s with
  | [] => (0xFFFD, 0)
  | b0 :: t =>
    if b0 < 0x80 then (b0, 1)
    else if 0xC2 ≤ b0 ∧ b0 ≤ 0xDF then
      match t with
      | b1 :: _ => if cont b1 then ((b0 - 0xC0) * 64 + (b1 - 0x80), 2) else (0xFFFD, 1)
      | _ => (0xFFFD, 1)
    else if 0xE0 ≤ b0 ∧ b0 ≤ 0xEF then
      match t with
      | b1 :: b2 :: _ =>
        let lo := if b0 = 0xE0 then 0xA0 else 0x80
        let hi := if b0 = 0xED then 0x9F else 0xBF
        if lo ≤ b1 ∧ b1 ≤ hi ∧ cont b2 then
          ((b0 - 0xE0) * 4096 + (b1 - 0x80) * 64 + (b2 - 0x80), 3)
        else (0xFFFD, 1)
      | _ => (0xFFFD, 1)
    else if 0xF0 ≤ b0 ∧ b0 ≤ 0xF4 then
      match t with
      | b1 :: b2 :: b3 :: _ =>
        let lo := if b0 = 0xF0 then 0x90 else 0x80
        let hi := if b0 = 0xF4 then 0x8F else 0xBF
        if lo ≤ b1 ∧ b1 ≤ hi ∧ cont b2 ∧ cont b3 then
          ((b0 - 0xF0) * 262144 + (b1 - 0x80) * 4096 + (b2 - 0x80) * 64 + (b3 - 0x80), 4)
        else (0xFFFD, 1)
      | _ => (0xFFFD, 1)
    else (0xFFFD, 1)

/-- Go `strings.Map(f, s)` for a mapping that drops no code point: each code
point of `s` is replaced by the encoding of its image; `fuel` bounds the
number of code points. -/
def mapRunes (f : Nat → Nat) : Nat → GoString → GoString
  | 0, _ => []
  | fuel + 1, s =>
    match s with
    | [] => []
    | _ :: _ =>
      let (r, w) := decodeRune s
      utf8EncodeRune (f r) ++ mapRunes f fuel (s.drop w)

/-- Go `strings.Map`. -/
def Map (f : Nat → Nat) (s : GoString) : GoString := mapRunes f s.length s

/-! ## stringutil.go -/

/-- Source `type SiPrefix int`. -/
abbrev SiPrefix := Int

/-- Source constant `None`. -/
def SiPrefix.None : SiPrefix := 0
/-- Source constant `Kilo`. -/
def SiPrefix.Kilo : SiPrefix := 1
/-- Source constant `Mega`. -/
def SiPrefix.Mega : SiPrefix := 2
/-- Source constant `Giga`. -/
def SiPrefix.Giga : SiPrefix := 3
/-- Source constant `Tera`. -/
def SiPrefix.Tera : SiPrefix := 4
/-- Source constant `Peta`. -/
def SiPrefix.Peta : SiPrefix := 5
/-- Source constant `Exa`. -/
def SiPrefix.Exa : SiPrefix := 6
/-- Source constant `Zetta`. -/
def SiPrefix.Zetta : SiPrefix := 7
/-- Source constant `Yotta`. -/
def SiPrefix.Yotta : SiPrefix := 8

/-- Source `func (self SiPrefix) String() string`. -/
def SiPrefix.String (self : SiPrefix) : GoString :=
  if self = SiPrefix.Kilo then bytes "K"
  else if self = SiPrefix.Mega then bytes "M"
  else if self = SiPrefix.Giga then bytes "G"
  else if self = SiPrefix.Tera then bytes "T"
  else if self = SiPrefix.Peta then bytes "P"
  else if self = SiPrefix.Exa then bytes "E"
  else if self = SiPrefix.Zetta then bytes "Z"
  else if self = SiPrefix.Yotta then bytes "Y"
  else []

/-- Source `type ConvertType int`. -/
inductive ConvertType
  | Invalid
  | String
  | Boolean
  | Float
  | Integer
  | Time
  deriving DecidableEq, Repr

/-- Source `DateConvertFormats`, with the layout constants of package time
written out. -/
def DateConvertFormats : List GoString :=
  [ bytes "2006-01-02 15:04:05",
    bytes "2006-01-02 15:04:05 -0700 MST",
    bytes "2006-01-02T15:04:05Z07:00",
    bytes "2006-01-02T15:04:05.999999999Z07:00",
    bytes "Mon Jan _2 15:04:05 2006",
    bytes "Mon Jan _2 15:04:05 MST 2006",
    bytes "Mon Jan 02 15:04:05 -0700 2006",
    bytes "02 Jan 06 15:04 MST",
    bytes "02 Jan 06 15:04 -0700",
    bytes "Mon, 02 Jan 2006 15:04:05 MST",
    bytes "Mon, 02 Jan 2006 15:04:05 -0700",
    bytes "3:04PM" ]

/-- Source `IsInteger`. -/
def IsInteger (s : GoString) : Bool := (Atoi s).2.isNone

/-- Source `IsFloat`. -/
def IsFloat (s : GoString) : Bool := (ParseFloat s).2.isNone

/-- Source `IsBooleanTrue`. -/
def IsBooleanTrue (env : Env) (s : GoString) : Bool :=
  let s := ToLower env s
  s = bytes "true" ∨ s = bytes "yes" ∨ s = bytes "on"

/-- Source `IsBooleanFalse`. -/
def IsBooleanFalse (env : Env) (s : GoString) : Bool :=
  let s := ToLower env s
  s = bytes "false" ∨ s = bytes "no" ∨ s = bytes "off"

/-- Source `IsBoolean`. -/
def IsBoolean (env : Env) (s : GoString) : Bool :=
  let s := ToLower env s
  IsBooleanTrue env s || IsBooleanFalse env s

/-- Source `GetSiPrefix`. -/
def GetSiPrefix (input : GoString) : SiPrefix × Option Err :=
  if input = [] ∨ input = bytes "b" ∨ input = bytes "B" then (SiPrefix.None, none)
  else if input = bytes "k" ∨ input = bytes "K" then (SiPrefix.Kilo, none)
  else if input = bytes "m" ∨ input = bytes "M" then (SiPrefix.Mega, none)
  else if input = bytes "g" ∨ input = bytes "G" then (SiPrefix.Giga, none)
  else if input = bytes "t" ∨ input = bytes "T" then (SiPrefix.Tera, none)
  else if input = bytes "p" ∨ input = bytes "P" then (SiPrefix.Peta, none)
  else if input = bytes "e" ∨ input = bytes "E" then (SiPrefix.Exa, none)
  else if input = bytes "z" ∨ input = bytes "Z" then (SiPrefix.Zetta, none)
  else if input = bytes "y" ∨ input = bytes "Y" then (SiPrefix.Yotta, none)
  else (SiPrefix.None, some (.unrecognizedUnit input))

/-- The first statement of source `ToBytes`: the input after the optional
removal of a byte-unit suffix; `none` when an index or slice expression
panics. The index reads are guarded by the length test as in the source. -/
def stripByteSuffix (input : GoString) : Option GoString :=
  if HasSuffix input (bytes "ib") || HasSuffix input (bytes "iB") then
    slice0 input ((input.length : Int) - 2)
  else if 2 < input.length then
    match index input ((input.length : Int) - 3) with
    | none => none
    | some c3 =>
      if IsInteger (utf8EncodeRune c3) then
        match index input ((input.length : Int) - 1) with
        | none => none
        | some c1 =>
          if c1 = 98 ∨ c1 = 66 then slice0 input ((input.length : Int) - 1)
          else some input
      else some input
  else some input

/-- The second statement of source `ToBytes`, on the stripped input. -/
def scaleBytes (input : GoString) : Res F64 :=
  match index input ((input.length : Int) - 1) with
  | none => .panic .indexOutOfRange
  | some c =>
    match GetSiPrefix (utf8EncodeRune c) with
    | (pfx, none) =>
      match slice0 input ((input.length : Int) - 1) with
      | none => .panic .sliceOutOfRange
      | some numeral =>
        match ParseFloat numeral with
        | (v, none) => .ret (F64.mul v (pow1024 pfx.toNat)) none
        | (_, some k) => .ret (.finite false 0 (-1074)) (some (.num .ParseFloat numeral k))
    | (_, some _) =>
      match ParseFloat input with
      | (v, none) => .ret v none
      | (_, some _) => .ret (.finite false 0 (-1074)) (some (.unrecognizedInput input))

/-- Source `ToBytes`. -/
def ToBytes (input : GoString) : Res F64 :=
  match stripByteSuffix input with
  | none => .panic .indexOutOfRange
  | some input => scaleBytes input

/-- A Go value passed as `interface{}`: the kinds source `ToString` tells
apart. A struct carries its rendering under the verb v of `fmt`; `other`
carries the name of any other dynamic type. -/
inductive Value
  | int (v : Int)
  | int8 (v : Int)
  | int16 (v : Int)
  | int32 (v : Int)
  | int64 (v : Int)
  | uint (v : Nat)
  | uint8 (v : Nat)
  | uint16 (v : Nat)
  | uint32 (v : Nat)
  | uint64 (v : Nat)
  | float32 (v : F64)
  | float64 (v : F64)
  | bool (b : Bool)
  | string (s : GoString)
  | time (t : Time)
  | struct (rendered : GoString)
  | other (typeName : GoString)
  | nil
  deriving DecidableEq, Repr

/-- Source `ToString`. On a nil interface `reflect.TypeOf(in)` is nil and the
call of `Kind` panics. In the struct case the source compares the method
value with `reflect.Zero` of the type `reflect.Value`, which it never equals,
so every struct is rendered with the verb v. -/
def ToString (env : Env) (v : Value) : Res GoString :=
  match v with
  | .int v => .ret (FormatInt v) none
  | .int8 v => .ret (FormatInt v) none
  | .int16 v => .ret (FormatInt v) none
  | .int32 v => .ret (FormatInt v) none
  | .int64 v => .ret (FormatInt v) none
  | .uint v => .ret (FormatUint v) none
  | .uint8 v => .ret (FormatUint v) none
  | .uint16 v => .ret (FormatUint v) none
  | .uint32 v => .ret (FormatUint v) none
  | .uint64 v => .ret (FormatUint v) none
  | .float32 v => .ret (env.formatFloat v 32) none
  | .float64 v => .ret (env.formatFloat v 64) none
  | .bool b => .ret (if b then bytes "true" else bytes "false") none
  | .string s => .ret s none
  | .time t => .ret (env.formatTime t) none
  | .struct rendered => .ret rendered none
  | .other typeName => .ret [] (some (.notStringable typeName))
  | .nil => .panic .nilDereference

/-- The mapping of the time case of source `ConvertTo`: date punctuation
becomes the digit zero. -/
def zeroPunct (r : Nat) : Nat :=
  if r = 45 ∨ r = 58 ∨ r = 32 ∨ r = 84 ∨ r = 90 then 48 else r

/-- The layout loop of the time case of source `ConvertTo`. -/
def parseLayouts (env : Env) (value : GoString) : List GoString → Option Time
  | [] => none
  | format :: rest =>
    match env.timeParse format value with
    | some tm => some tm
    | none => parseLayouts env value rest

/-- Source `ConvertTo`, after `ToString` has rendered the input as `s`. -/
def convertString (env : Env) (toType : ConvertType) (s : GoString) : Res Value :=
  match toType with
  | .Float =>
    match ParseFloat s with
    | (v, none) => .ret (.float64 v) none
    | (v, some k) => .ret (.float64 v) (some (.num .ParseFloat s k))
  | .Integer =>
    match ParseInt s with
    | (v, none) => .ret (.int64 v) none
    | (v, some k) => .ret (.int64 v) (some (.num .ParseInt s k))
  | .Boolean =>
    if IsBooleanTrue env s then .ret (.bool true) none
    else if IsBooleanFalse env s then .ret (.bool false) none
    else .ret .nil (some (.notBoolean s))
  | .Time =>
    if s = bytes "now" then .ret (.time env.now) none
    else
      let tmS := Map zeroPunct s
      if ParseInt tmS = (0, none) then .ret (.time Time.zero) none
      else
        match parseLayouts env (TrimSpace env s) DateConvertFormats with
        | some tm => .ret (.time tm) none
        | none => .ret .nil (some (.notTime s))
  | _ => .ret (.string s) none

/-- Source `ConvertTo`. -/
def ConvertTo (env : Env) (toType : ConvertType) (inI : Value) : Res Value :=
  match ToString env inI with
  | .ret s none => convertString env toType s
  | .ret _ (some err) => .ret .nil (some err)
  | .panic p => .panic p

/-- Source `ConvertToInteger`. -/
def ConvertToInteger (env : Env) (v : Value) : Res Int :=
  match ConvertTo env .Integer v with
  | .ret (.int64 n) none => .ret n none
  | .ret _ none => .panic .nilDereference
  | .ret _ (some err) => .ret 0 (some err)
  | .panic p => .panic p

/-- Source `ConvertToFloat`. -/
def ConvertToFloat (env : Env) (v : Value) : Res F64 :=
  match ConvertTo env .Float v with
  | .ret (.float64 x) none => .ret x none
  | .ret _ none => .panic .nilDereference
  | .ret _ (some err) => .ret (.finite false 0 (-1074)) (some err)
  | .panic p => .panic p

/-- Source `ConvertToString`. -/
def ConvertToString (env : Env) (v : Value) : Res GoString :=
  match ConvertTo env .String v with
  | .ret (.string s) none => .ret s none
  | .ret _ none => .panic .nilDereference
  | .ret _ (some err) => .ret [] (some err)
  | .panic p => .panic p

/-- Source `ConvertToBool`. -/
def ConvertToBool (env : Env) (v : Value) : Res Bool :=
  match ConvertTo env .Boolean v with
  | .ret (.bool b) none => .ret b none
  | .ret _ none => .panic .nilDereference
  | .ret _ (some err) => .ret false (some err)
  | .panic p => .panic p

/-- Source `ConvertToTime`. -/
def ConvertToTime (env : Env) (v : Value) : Res Time :=
  match v with
  | .time t => .ret t none
  | _ =>
    match ConvertTo env .Time v with
    | .ret (.time t) none => .ret t none
    | .ret _ none => .panic .nilDereference
    | .ret _ (some err) => .ret Time.zero (some err)
    | .panic p => .panic p

/-- The loop of source `Autotype` over the candidate types still to try;
`none` when a call panics. -/
def autotypeLoop (env : Env) (v : Value) : List ConvertType → Option Value
  | [] => some v
  | ctype :: rest =>
    match ConvertTo env ctype v with
    | .ret value none => some value
    | .ret _ (some _) => autotypeLoop env v rest
    | .panic _ => none

/-- Source `Autotype`; `none` when it panics. -/
def Autotype (env : Env) (v : Value) : Option Value :=
  autotypeLoop env v [.Boolean, .Time, .Integer, .Float, .String]

/-- The loop of source `ToByteString`, `for i := 0; i < 9; i++`, with `k`
iterations left from index `i`: the first index at which the byte count
divided by `1024^i` is below 1024, with that quotient; `none` when the loop
runs out. -/
def prefixLoop (x : F64) : Nat → Nat → Option (Nat × F64)
  | 0, _ => none
  | k + 1, i =>
    if F64.lt (F64.div x (pow1024 i)) f1024 then some (i, F64.div x (pow1024 i))
    else prefixLoop x k (i + 1)

/-- Source `ToByteString`; `formatString` holds the variadic arguments. -/
def ToByteString (env : Env) (v : Value) (formatString : List GoString) : Res GoString :=
  match ConvertToInteger env v with
  | .ret asBytes none =>
    match prefixLoop (F64.ofInt asBytes) 9 0 with
    | some (i, converted) =>
      let f := match formatString with
        | f0 :: _ => f0
        | [] => bytes "%g"
      .ret (env.sprintf (f ++ bytes "%sB")
        [.float converted, .string (SiPrefix.String (i : Int))]) none
    | none => .ret (env.sprintf (bytes "%fB") [.int asBytes]) none
  | .ret _ (some err) => .ret [] (some err)
  | .panic p => .panic p

/-- Go `unicode.IsUpper`. -/
def IsUpper (env : Env) (r : Nat) : Bool :=
  if r < 128 then 65 ≤ r && r ≤ 90 else env.isUpperUnicode r

/-- Go `unicode.IsLower`. -/
def IsLower (env : Env) (r : Nat) : Bool :=
  if r < 128 then 97 ≤ r && r ≤ 122 else env.isLowerUnicode r

/-- Go `unicode.ToLower` on a code point. -/
def ToLowerRune (env : Env) (r : Nat) : Nat :=
  if r < 128 then (if 65 ≤ r ∧ r ≤ 90 then r + 32 else r) else env.toLowerRuneUnicode r

/-- Source `IsSeparator`; a rune is a signed 32-bit integer. -/
def IsSeparator (env : Env) (r : Int) : Bool :=
  if r ≤ 0x7F then
    if 48 ≤ r ∧ r ≤ 57 then false
    else if 97 ≤ r ∧ r ≤ 122 then false
    else if 65 ≤ r ∧ r ≤ 90 then false
    else true
  else if env.isLetterUnicode r.toNat || env.isDigitUnicode r.toNat then false
  else env.isSpaceUnicode r.toNat

/-- The class of source `rxSpace`: the white space of the regular expression
syntax (tab, line feed, form feed, carriage return, space) and the hyphen. -/
def rxSpaceClass (c : Nat) : Bool :=
  c == 9 || c == 10 || c == 12 || c == 13 || c == 32 || c == 45

/-- Source `rxSpace.ReplaceAllString(in, "_")`: each maximal run of bytes
of the class becomes one underscore; `inRun` tells that the byte before
belonged to a run. -/
def replaceSpaceRuns (inRun : Bool) : GoString → GoString
  | [] => []
  | c :: cs =>
    if rxSpaceClass c then
      if inRun then replaceSpaceRuns true cs else 95 :: replaceSpaceRuns true cs
    else c :: replaceSpaceRuns false cs

/-- Go conversion of a string to its code points; `fuel` bounds their number. -/
def toRunes : Nat → GoString → List Nat
  | 0, _ => []
  | fuel + 1, s =>
    match s with
    | [] => []
    | _ :: _ =>
      let (r, w) := decodeRune s
      r :: toRunes fuel (s.drop w)

/-- The loop of source `Underscore` over the code points still to visit;
`prev` is the code point before them in `runes`, absent at index 0. -/
def underscoreRunes (env : Env) (prev : Option Nat) : List Nat → List Nat
  | [] => []
  | r :: rest =>
    let sepPrev := match prev with
      | some p => IsLower env p
      | none => false
    let sepNext := match rest with
      | n :: _ => IsLower env n
      | [] => false
    let notFirst := match prev with
      | some p => p != 95
      | none => false
    if IsUpper env r then
      if notFirst && (sepPrev || sepNext) then
        95 :: ToLowerRune env r :: underscoreRunes env (some r) rest
      else ToLowerRune env r :: underscoreRunes env (some r) rest
    else r :: underscoreRunes env (some r) rest

/-- Source `Underscore`. -/
def Underscore (env : Env) (s : GoString) : GoString :=
  let s := replaceSpaceRuns false s
  let runes := toRunes s.length s
  (underscoreRunes env none runes).flatMap utf8EncodeRune

/-! ## Vocabulary of the statements -/

/-- One or more digits, optionally followed by a point and one or more digits. -/
def unsignedNumeral (s : GoString) : Bool :=
  let ip := s.takeWhile isDigit
  let rest := s.dropWhile isDigit
  !ip.isEmpty && (rest.isEmpty ||
    (rest.head? == some 46 && !rest.tail.isEmpty && rest.tail.all isDigit))

/-- A decimal numeral: optional leading minus sign, then an unsigned numeral. -/
def decimalNumeral (d : GoString) : Bool :=
  match d with
  | 45 :: t => unsignedNumeral t
  | _ => unsignedNumeral d

/-- The prefix letter of index `i + 1`, in lower or upper case. -/
def prefixLetter (i : Fin 8) (upper : Bool) : Nat :=
  (if upper then bytes "KMGTPEZY" else bytes "kmgtpezy").getD i.val 0

/-- The suffix augmentations of a size string. -/
def byteSuffixes : List GoString := [[], bytes "b", bytes "B", bytes "ib", bytes "iB"]

/-- ASCII letter. -/
def isLetter (c : Nat) : Bool := (65 ≤ c && c ≤ 90) || (97 ≤ c && c ≤ 122)

/-- A numeral of 310 digits: ten to the power 309. -/
def hugeNumeral : GoString := 49 :: List.replicate 309 48

/-- The number twelve as a float64. -/
def twelve : F64 := .finite false (3 * 2 ^ 51) (-49)

/-- The letters `GetSiPrefix` recognises. -/
def unitLetters : GoString := bytes "bkmgtpezyBKMGTPEZY"

/-- The literals `IsBooleanTrue` accepts. -/
def trueLiterals : List GoString := [bytes "true", bytes "yes", bytes "on"]

/-- The literals `IsBooleanFalse` accepts. -/
def falseLiterals : List GoString := [bytes "false", bytes "no", bytes "off"]

/-- The instant at which the example environment reads its clock. -/
def sampleNow : Time := ⟨2026, 11, 4, 12, 0, 0⟩

/-- Two decimal digits as a number, for the example layout parser. -/
def twoDigits (a b : Nat) : Option Nat :=
  if isDigit a && isDigit b then some ((a - 48) * 10 + (b - 48)) else none

/-- Days of a month in the Gregorian calendar. -/
def daysIn (year month : Nat) : Nat :=
  if month = 2 then
    if year % 4 = 0 ∧ (year % 100 ≠ 0 ∨ year % 400 = 0) then 29 else 28
  else if month = 4 ∨ month = 6 ∨ month = 9 ∨ month = 11 then 30
  else 31

/-- An example `time.Parse`: it knows the first layout of `DateConvertFormats`
only, without fractional seconds, and reads year, month, day, hour, minute
and second off the value. -/
def sampleTimeParse (layout value : GoString) : Option Time :=
  if layout = bytes "2006-01-02 15:04:05" then
    match value with
    | [y1, y2, y3, y4, 45, m1, m2, 45, d1, d2, 32, h1, h2, 58, n1, n2, 58, s1, s2] =>
      match twoDigits y1 y2, twoDigits y3 y4, twoDigits m1 m2, twoDigits d1 d2,
          twoDigits h1 h2, twoDigits n1 n2, twoDigits s1 s2 with
      | some ya, some yb, some mo, some d, some h, some mi, some sec =>
        if 1 ≤ mo ∧ mo ≤ 12 ∧ 1 ≤ d ∧ d ≤ daysIn (ya * 100 + yb) mo ∧ h < 24 ∧ mi < 60 ∧
            sec < 60 then
          some ⟨((ya * 100 + yb : Nat) : Int), mo, d, h, mi, sec⟩
        else none
      | _, _, _, _, _, _, _ => none
    | _ => none
  else none

/-- An example `fmt.Sprintf`: it knows the verbs g, which it writes as
`FormatFloatG`, and s, without flags, and copies every other byte of the
format. -/
def sampleSprintf : GoString → List FmtArg → GoString
  | 37 :: 103 :: rest, .float x :: args => FormatFloatG x ++ sampleSprintf rest args
  | 37 :: 115 :: rest, .string s :: args => s ++ sampleSprintf rest args
  | c :: rest, args => c :: sampleSprintf rest args
  | [], _ => []

/-- An environment for evaluating examples. -/
def sampleEnv : Env where
  toLowerUnicode := fun s => s
  trimSpaceUnicode := fun s => s
  timeParse := sampleTimeParse
  now := sampleNow
  formatFloat := fun _ _ => bytes "0"
  formatTime := fun _ => bytes "0001-01-01 00:00:00 +0000 UTC"
  sprintf := sampleSprintf
  isUpperUnicode := fun _ => false
  isLowerUnicode := fun _ => false
  toLowerRuneUnicode := fun r => r
  isLetterUnicode := fun _ => false
  isDigitUnicode := fun _ => false
  isSpaceUnicode := fun _ => false

/-- What is assumed of `time.Parse` where a statement needs it: each layout
of `DateConvertFormats` holds a colon, which a value must match to parse. -/
def LayoutsNeedColon (env : Env) : Prop :=
  ∀ layout ∈ DateConvertFormats, ∀ value t, env.timeParse layout value = some t → 58 ∈ value

/-- The bytes of an all-zero date skeleton. -/
def skeletonBytes : GoString := bytes "0-: TZ"

/-- The table the specification gives for `GetSiPrefix`: the unit strings and
their prefixes. -/
def siPrefixTable : List (GoString × SiPrefix) :=
  [ ([], SiPrefix.None), (bytes "b", SiPrefix.None), (bytes "B", SiPrefix.None),
    (bytes "k", SiPrefix.Kilo), (bytes "K", SiPrefix.Kilo),
    (bytes "m", SiPrefix.Mega), (bytes "M", SiPrefix.Mega),
    (bytes "g", SiPrefix.Giga), (bytes "G", SiPrefix.Giga),
    (bytes "t", SiPrefix.Tera), (bytes "T", SiPrefix.Tera),
    (bytes "p", SiPrefix.Peta), (bytes "P", SiPrefix.Peta),
    (bytes "e", SiPrefix.Exa), (bytes "E", SiPrefix.Exa),
    (bytes "z", SiPrefix.Zetta), (bytes "Z", SiPrefix.Zetta),
    (bytes "y", SiPrefix.Yotta), (bytes "Y", SiPrefix.Yotta) ]

/-- The environment at another instant: only the clock reads differently. -/
def Env.atInstant (env : Env) (t : Time) : Env := { env with now := t }

/-- The prefix index `ToByteString` chooses for the byte count `n`; 9 when
its loop runs out. -/
def chosenIndex (n : Int) : Nat :=
  match prefixLoop (F64.ofInt n) 9 0 with
  | some (i, _) => i
  | none => 9

/-- The mantissa `ToByteString` renders for the byte count `n`: the float64
quotient of `n` by `1024^i` at the chosen index `i`. -/
def chosenMantissa (n : Int) : F64 :=
  F64.div (F64.ofInt n) (pow1024 (chosenIndex n))

/-- The numeric format `ToByteString` uses: its first variadic argument, or
the verb g. -/
def numericFormat (formatString : List GoString) : GoString :=
  formatString.head?.getD (bytes "%g")

/-- Whether the float64 `x` is the integer `n`, with no rounding. -/
def F64.exactly (x : F64) (n : Int) : Bool :=
  match x with
  | .finite neg m e =>
    if 0 ≤ e then F64.scaled neg m e 0 == n
    else F64.scaled neg m e e == n * 2 ^ (-e).toNat
  | _ => false

/-- What is assumed of `fmt.Sprintf` where a statement needs it: under the
format of `ToByteString` without a format argument it writes the float as
`strconv.FormatFloat(x, 'g', -1, 64)`, then the string, then the letter B. -/
def SprintfDefault (env : Env) : Prop :=
  ∀ (x : F64) (s : GoString),
    env.sprintf (bytes "%g%sB") [.float x, .string s] = FormatFloatG x ++ s ++ bytes "B"

/-- Modelled from the spec: the lower-case form of an ASCII byte. -/
def asciiLower (c : Nat) : Nat := if 65 ≤ c ∧ c ≤ 90 then c + 32 else c

/-- Modelled from the spec: what a snake-case conversion writes for the byte
at index `i` of an ASCII string without spaces and hyphens. An upper-case
letter is written in lower case, after an underscore when it is not the
first byte, does not follow an underscore, and the byte before it or the
byte after it is a lower-case letter; any other byte is written as it is. -/
def snakeAt (s : GoString) (i : Nat) : GoString :=
  match s[i]? with
  | none => []
  | some r =>
    if 65 ≤ r ∧ r ≤ 90 then
      let before : Option Nat := if i = 0 then none else s[i - 1]?
      let after : Option Nat := s[i + 1]?
      let isLow : Option Nat → Bool := fun o =>
        match o with
        | some c => 97 ≤ c && c ≤ 122
        | none => false
      if before ≠ none ∧ before ≠ some 95 ∧ (isLow before = true ∨ isLow after = true) then
        [95, r + 32]
      else [r + 32]
    else [r]

/-! ## Facts about strings -/

theorem index_natCast (s : GoString) (n : Nat) : index s (n : Int) = s.get? n := by
  simp [index]

theorem index_last (s : GoString) (c : Nat) :
    index (s ++ [c]) (((s ++ [c]).length : Int) - 1) = some c := by
  have h : (((s ++ [c]).length : Int) - 1) = (s.length : Int) := by simp
  rw [h, index_natCast]
  simp

theorem slice0_last (s : GoString) (c : Nat) :
    slice0 (s ++ [c]) (((s ++ [c]).length : Int) - 1) = some s := by
  have h : (((s ++ [c]).length : Int) - 1) = (s.length : Int) := by simp
  rw [h]
  simp [slice0]

theorem slice0_last2 (s : GoString) (x y : Nat) :
    slice0 (s ++ [x, y]) (((s ++ [x, y]).length : Int) - 2) = some s := by
  have h : (((s ++ [x, y]).length : Int) - 2) = (s.length : Int) := by
    simp
  rw [h]
  simp [slice0]

theorem index_third (s : GoString) (x y z : Nat) :
    index (s ++ [x, y, z]) (((s ++ [x, y, z]).length : Int) - 3) = some x := by
  have h : (((s ++ [x, y, z]).length : Int) - 3) = (s.length : Int) := by
    simp
  rw [h, index_natCast, List.get?_eq_getElem?, List.getElem?_append_right (le_refl _)]
  simp

theorem HasSuffix_two (s : GoString) (x y a b : Nat) :
    HasSuffix (s ++ [x, y]) [a, b] = (x == a && y == b) := by
  simp [HasSuffix]

theorem HasSuffix_short (s : GoString) (a b : Nat) (h : s.length < 2) :
    HasSuffix s [a, b] = false := by
  simp [HasSuffix]
  intro h2
  omega

/-- Every string is empty, a single byte, or ends in two bytes. -/
theorem snoc_cases (s : GoString) :
    s = [] ∨ (∃ c, s = [c]) ∨ ∃ t x y, s = t ++ [x, y] := by
  rcases List.eq_nil_or_concat s with h | ⟨t, y, h⟩
  · exact Or.inl h
  · rcases List.eq_nil_or_concat t with h2 | ⟨u, x, h2⟩
    · right; left; exact ⟨y, by simp [h, h2]⟩
    · right; right; exact ⟨u, x, y, by simp [h, h2]⟩

/-! ## Facts about `ToBytes` -/

theorem bytes_ib : bytes "ib" = [105, 98] := by decide

theorem bytes_iB : bytes "iB" = [105, 66] := by decide

theorem utf8EncodeRune_ascii (c : Nat) (h : c < 128) : utf8EncodeRune c = [c] := by
  simp [utf8EncodeRune, h]

/-- A single digit is an integer for `IsInteger`. -/
theorem IsInteger_digit (c : Nat) (h : isDigit c = true) :
    IsInteger (utf8EncodeRune c) = true := by
  simp only [isDigit, Bool.and_eq_true, decide_eq_true_eq] at h
  obtain ⟨h1, h2⟩ := h
  interval_cases c <;> decide

/-- A binary-unit suffix is removed whole. -/
theorem strip_ib (s : GoString) (b : Nat) (hb : b = 98 ∨ b = 66) :
    stripByteSuffix (s ++ [105, b]) = some s := by
  unfold stripByteSuffix
  rw [bytes_ib, bytes_iB, HasSuffix_two, HasSuffix_two, slice0_last2]
  rcases hb with rfl | rfl <;> simp

/-- A string that does not end in a letter b is left alone. -/
theorem strip_keep (s : GoString) (c : Nat) (h1 : c ≠ 98) (h2 : c ≠ 66) :
    stripByteSuffix (s ++ [c]) = some (s ++ [c]) := by
  have hs : HasSuffix (s ++ [c]) [105, 98] = false ∧ HasSuffix (s ++ [c]) [105, 66] = false := by
    rcases List.eq_nil_or_concat s with h | ⟨t, y, h⟩
    · subst h; simp [HasSuffix]
    · subst h
      have e : t.concat y ++ [c] = t ++ [y, c] := by simp
      rw [e, HasSuffix_two, HasSuffix_two]
      simp [h1, h2]
  unfold stripByteSuffix
  rw [bytes_ib, bytes_iB, hs.1, hs.2, index_last]
  simp only [Bool.or_self, Bool.false_eq_true, if_false]
  split
  · rename_i hlen
    cases hidx : index (s ++ [c]) (((s ++ [c]).length : Int) - 3) with
    | none =>
      exfalso
      have e : (((s ++ [c]).length : Int) - 3) = (((s ++ [c]).length - 3 : Nat) : Int) := by omega
      rw [e, index_natCast] at hidx
      have := List.get?_eq_none.mp hidx
      omega
    | some c3 =>
      simp only
      split
      · simp [h1, h2]
      · rfl
  · rfl

/-- A letter b after a digit and one more byte is removed. -/
theorem strip_b (t : GoString) (x y z : Nat) (hx : IsInteger (utf8EncodeRune x) = true)
    (hy : y ≠ 105) (hz : z = 98 ∨ z = 66) :
    stripByteSuffix (t ++ [x, y, z]) = some (t ++ [x, y]) := by
  have e : t ++ [x, y, z] = (t ++ [x]) ++ [y, z] := by simp
  have hs : HasSuffix (t ++ [x, y, z]) [105, 98] = false ∧
      HasSuffix (t ++ [x, y, z]) [105, 66] = false := by
    rw [e, HasSuffix_two, HasSuffix_two]
    simp [hy]
  have e1 : t ++ [x, y, z] = (t ++ [x, y]) ++ [z] := by simp
  have hl : 2 < (t ++ [x, y, z]).length := by simp
  unfold stripByteSuffix
  rw [bytes_ib, bytes_iB, hs.1, hs.2, index_third]
  simp only [Bool.or_self, Bool.false_eq_true, if_false, hl, if_true, hx]
  rw [e1, index_last, slice0_last]
  rcases hz with rfl | rfl <;> simp

/-- A letter b is kept when the byte two places before it is no digit. -/
theorem strip_b_keep (t : GoString) (x y z : Nat) (hx : IsInteger (utf8EncodeRune x) = false)
    (hy : y ≠ 105) :
    stripByteSuffix (t ++ [x, y, z]) = some (t ++ [x, y, z]) := by
  have e : t ++ [x, y, z] = (t ++ [x]) ++ [y, z] := by simp
  have hs : HasSuffix (t ++ [x, y, z]) [105, 98] = false ∧
      HasSuffix (t ++ [x, y, z]) [105, 66] = false := by
    rw [e, HasSuffix_two, HasSuffix_two]
    simp [hy]
  have hl : 2 < (t ++ [x, y, z]).length := by simp
  unfold stripByteSuffix
  rw [bytes_ib, bytes_iB, hs.1, hs.2, index_third]
  simp [hl, hx]

/-- A string of at most two bytes that is no binary-unit suffix is left alone. -/
theorem strip_short (s : GoString) (h : s.length ≤ 2) (h1 : s ≠ [105, 98]) (h2 : s ≠ [105, 66]) :
    stripByteSuffix s = some s := by
  have hs : HasSuffix s [105, 98] = false ∧ HasSuffix s [105, 66] = false := by
    match s, h, h1, h2 with
    | [], _, _, _ => simp [HasSuffix]
    | [a], _, _, _ => simp [HasSuffix]
    | [a, b], _, h1, h2 =>
      have := HasSuffix_two [] a b 105 98
      have := HasSuffix_two [] a b 105 66
      simp_all
  unfold stripByteSuffix
  rw [bytes_ib, bytes_iB, hs.1, hs.2]
  have : ¬ 2 < s.length := by omega
  simp [this]

/-- The scaling step when the last byte is a recognised letter. -/
theorem scale_recognised (s : GoString) (c : Nat) (pfx : SiPrefix) (hc : c < 128)
    (hG : GetSiPrefix [c] = (pfx, none)) :
    scaleBytes (s ++ [c]) =
      match ParseFloat s with
      | (v, none) => .ret (F64.mul v (pow1024 pfx.toNat)) none
      | (_, some k) => .ret (.finite false 0 (-1074)) (some (.num .ParseFloat s k)) := by
  unfold scaleBytes
  rw [index_last, slice0_last]
  simp only [utf8EncodeRune_ascii c hc, hG]

/-- The scaling step when the last byte is not recognised. -/
theorem scale_unrecognised (s : GoString) (c : Nat)
    (hG : (GetSiPrefix (utf8EncodeRune c)).2 ≠ none) :
    scaleBytes (s ++ [c]) =
      match ParseFloat (s ++ [c]) with
      | (v, none) => .ret v none
      | (_, some _) => .ret (.finite false 0 (-1074)) (some (.unrecognizedInput (s ++ [c]))) := by
  unfold scaleBytes
  rw [index_last]
  simp only
  split
  · rename_i h; rw [h] at hG; exact absurd rfl hG
  · rfl

/-! ## The shape of a decimal numeral -/

/-- A non-empty string of digits ends in a digit. -/
theorem digits_snoc (l : GoString) (hne : l ≠ []) (hall : l.all isDigit = true) :
    ∃ t c, l = t ++ [c] ∧ isDigit c = true := by
  refine ⟨l.dropLast, l.getLast hne, (List.dropLast_append_getLast hne).symm, ?_⟩
  exact List.all_eq_true.mp hall _ (List.getLast_mem hne)

/-- The parts of an unsigned numeral. -/
theorem unsignedNumeral_form (s : GoString) (h : unsignedNumeral s = true) :
    ∃ ip : GoString, ip ≠ [] ∧ ip.all isDigit = true ∧
      (s = ip ∨ ∃ fp : GoString, fp ≠ [] ∧ fp.all isDigit = true ∧ s = ip ++ 46 :: fp) := by
  have hsplit := List.takeWhile_append_dropWhile isDigit s
  have hall : (s.takeWhile isDigit).all isDigit = true := by
    rw [List.all_eq_true]
    intro x hx
    exact List.mem_takeWhile_imp hx
  simp only [unsignedNumeral, Bool.and_eq_true, Bool.or_eq_true, Bool.not_eq_true',
    List.isEmpty_eq_false, beq_iff_eq] at h
  obtain ⟨hip, hrest⟩ := h
  refine ⟨s.takeWhile isDigit, hip, hall, ?_⟩
  rcases hrest with hr | ⟨⟨hh, ht⟩, hd⟩
  · left
    rw [List.isEmpty_iff] at hr
    rw [hr, List.append_nil] at hsplit
    exact hsplit.symm
  · right
    cases hdw : s.dropWhile isDigit with
    | nil => rw [hdw] at hh; simp at hh
    | cons a fp =>
      rw [hdw] at hh ht hd hsplit
      simp only [List.head?_cons, Option.some.injEq] at hh
      subst hh
      exact ⟨fp, by simpa using ht, by simpa using hd, hsplit.symm⟩

/-- The parts of a decimal numeral. -/
theorem decimalNumeral_form (d : GoString) (h : decimalNumeral d = true) :
    ∃ sign ip : GoString, (sign = [] ∨ sign = [45]) ∧ ip ≠ [] ∧ ip.all isDigit = true ∧
      (d = sign ++ ip ∨
        ∃ fp : GoString, fp ≠ [] ∧ fp.all isDigit = true ∧ d = sign ++ (ip ++ 46 :: fp)) := by
  unfold decimalNumeral at h
  split at h
  · obtain ⟨ip, h1, h2, h3⟩ := unsignedNumeral_form _ h
    refine ⟨[45], ip, Or.inr rfl, h1, h2, ?_⟩
    rcases h3 with h3 | ⟨fp, h4, h5, h6⟩
    · left; simp [h3]
    · right; exact ⟨fp, h4, h5, by simp [h6]⟩
  · obtain ⟨ip, h1, h2, h3⟩ := unsignedNumeral_form _ h
    refine ⟨[], ip, Or.inl rfl, h1, h2, ?_⟩
    rcases h3 with h3 | ⟨fp, h4, h5, h6⟩
    · left; simp [h3]
    · right; exact ⟨fp, h4, h5, by simp [h6]⟩

/-- A decimal numeral ends in a digit. -/
theorem decimalNumeral_snoc (d : GoString) (h : decimalNumeral d = true) :
    ∃ t c, d = t ++ [c] ∧ isDigit c = true := by
  obtain ⟨sign, ip, _, h1, h2, h3⟩ := decimalNumeral_form d h
  rcases h3 with h3 | ⟨fp, h4, h5, h6⟩
  · obtain ⟨t, c, e, hc⟩ := digits_snoc ip h1 h2
    exact ⟨sign ++ t, c, by simp [h3, e], hc⟩
  · obtain ⟨t, c, e, hc⟩ := digits_snoc fp h4 h5
    exact ⟨sign ++ (ip ++ 46 :: t), c, by simp [h6, e], hc⟩

/-! ## Size strings with a prefix letter -/

theorem byteSuffixes_eq : byteSuffixes = [[], [98], [66], [105, 98], [105, 66]] := by decide

/-- What `GetSiPrefix` and the suffix tests see of a prefix letter. -/
theorem prefixLetter_facts (i : Fin 8) (up : Bool) :
    prefixLetter i up < 128 ∧ prefixLetter i up ≠ 98 ∧ prefixLetter i up ≠ 66 ∧
      prefixLetter i up ≠ 105 ∧
      GetSiPrefix [prefixLetter i up] = (((i.val + 1 : Nat) : Int), none) := by
  revert i up
  decide

/-- Behind a string that ends in a digit, every suffix augmentation of a
prefix letter is stripped back to the letter. -/
theorem strip_prefixed (d a : GoString) (i : Fin 8) (up : Bool)
    (hd : ∃ t c, d = t ++ [c] ∧ isDigit c = true) (ha : a ∈ byteSuffixes) :
    stripByteSuffix (d ++ [prefixLetter i up] ++ a) = some (d ++ [prefixLetter i up]) := by
  obtain ⟨hp1, hp2, hp3, hp4, -⟩ := prefixLetter_facts i up
  obtain ⟨t, c, rfl, hc⟩ := hd
  rw [byteSuffixes_eq] at ha
  simp only [List.mem_cons, List.mem_singleton, List.not_mem_nil, or_false] at ha
  rcases ha with rfl | rfl | rfl | rfl | rfl
  · rw [List.append_nil]; exact strip_keep _ _ hp2 hp3
  · have e : t ++ [c] ++ [prefixLetter i up] ++ [98] = t ++ [c, prefixLetter i up, 98] := by simp
    have e2 : t ++ [c] ++ [prefixLetter i up] = t ++ [c, prefixLetter i up] := by simp
    rw [e, e2]; exact strip_b _ _ _ _ (IsInteger_digit c hc) hp4 (Or.inl rfl)
  · have e : t ++ [c] ++ [prefixLetter i up] ++ [66] = t ++ [c, prefixLetter i up, 66] := by simp
    have e2 : t ++ [c] ++ [prefixLetter i up] = t ++ [c, prefixLetter i up] := by simp
    rw [e, e2]; exact strip_b _ _ _ _ (IsInteger_digit c hc) hp4 (Or.inr rfl)
  · exact strip_ib _ 98 (Or.inl rfl)
  · exact strip_ib _ 66 (Or.inr rfl)

/-- C1 (as amended): for every decimal numeral `d` that `strconv.ParseFloat`
accepts with value `v`, every prefix letter of index `i + 1` in either case
and every suffix augmentation `a`, `ToBytes(d + p + a)` returns the float64
product `v * 1024^(i+1)` with no error. -/
theorem ToBytes_prefixed (d a : GoString) (i : Fin 8) (up : Bool) (v : F64)
    (hd : decimalNumeral d = true) (ha : a ∈ byteSuffixes) (hv : ParseFloat d = (v, none)) :
    ToBytes (d ++ [prefixLetter i up] ++ a) = .ret (F64.mul v (pow1024 (i.val + 1))) none := by
  obtain ⟨hp1, -, -, -, hG⟩ := prefixLetter_facts i up
  unfold ToBytes
  rw [strip_prefixed d a i up (decimalNumeral_snoc d hd) ha]
  simp only
  rw [scale_recognised d _ _ hp1 hG, hv]
  simp

/-- Witness for C1: the size string 0.5KiB is 512 bytes. -/
theorem ToBytes_prefixed_witness :
    ToBytes (bytes "0.5" ++ [prefixLetter 0 true] ++ bytes "iB") =
      .ret (F64.mul (.finite false (2 ^ 52) (-53)) (pow1024 (0 + 1))) none :=
  ToBytes_prefixed (bytes "0.5") (bytes "iB") 0 true (.finite false (2 ^ 52) (-53))
    (by decide) (by decide) (by decide)

set_option maxRecDepth 1000000 in
/-- C1 as stated fails on a numeral beyond the float64 range: the parse of
the 310-digit numeral reports a range error, which `ToBytes` returns. -/
theorem ToBytes_prefixed_range_error :
    decimalNumeral hugeNumeral = true ∧
      ToBytes (hugeNumeral ++ [prefixLetter 0 false] ++ []) =
        .ret (.finite false 0 (-1074)) (some (.num .ParseFloat hugeNumeral .ErrRange)) := by
  decide

/-! ## The fallback parse and the index reads -/

/-- C4 as stated fails at the input 12ib: its last byte after stripping, the
digit 2, is no prefix letter, and the entire original string is no float, yet
`ToBytes` returns twelve with no error, having parsed the stripped string. -/
theorem ToBytes_fallback_parses_stripped :
    stripByteSuffix (bytes "12ib") = some (bytes "12") ∧
      (GetSiPrefix (utf8EncodeRune 50)).2 ≠ none ∧
      (ParseFloat (bytes "12ib")).2 = some .ErrSyntax ∧
      ToBytes (bytes "12ib") = .ret twelve none := by
  decide

/-- The fallback branch of `ToBytes`. -/
theorem ToBytes_fallback_aux (input rest : GoString) (c : Nat)
    (hs : stripByteSuffix input = some (rest ++ [c]))
    (hG : (GetSiPrefix (utf8EncodeRune c)).2 ≠ none) :
    ToBytes input =
      match ParseFloat (rest ++ [c]) with
      | (v, none) => .ret v none
      | (_, some _) =>
        .ret (.finite false 0 (-1074)) (some (.unrecognizedInput (rest ++ [c]))) := by
  unfold ToBytes
  rw [hs]
  exact scale_unrecognised rest c hG

/-- C4 (as amended): when the last byte of the string that remains after
suffix stripping is rejected by `GetSiPrefix`, `ToBytes` parses that
remaining string as a float64 and returns the value unscaled; when the parse
fails the error names that remaining string. -/
theorem ToBytes_fallback (input rest : GoString) (c : Nat)
    (hs : stripByteSuffix input = some (rest ++ [c]))
    (hG : (GetSiPrefix (utf8EncodeRune c)).2 ≠ none) :
    ToBytes input =
      match ParseFloat (rest ++ [c]) with
      | (v, none) => .ret v none
      | (_, some _) =>
        .ret (.finite false 0 (-1074)) (some (.unrecognizedInput (rest ++ [c]))) := by
  unfold ToBytes
  rw [hs]
  simp only
  unfold scaleBytes
  rw [index_last]
  simp only
  split
  · rename_i h
    rw [h] at hG
    exact absurd rfl hG
  · rfl

/-- Witness for C4: the input 123X is reported as unrecognised. -/
theorem ToBytes_fallback_witness :
    ToBytes (bytes "123X") =
      match ParseFloat (bytes "123" ++ [88]) with
      | (v, none) => .ret v none
      | (_, some _) =>
        .ret (.finite false 0 (-1074)) (some (.unrecognizedInput (bytes "123" ++ [88]))) :=
  ToBytes_fallback (bytes "123X") (bytes "123") 88 (by decide) (by decide)

/-- Every string is empty, one byte, two bytes, or ends in three bytes. -/
theorem snoc3_cases (s : GoString) :
    s = [] ∨ (∃ c, s = [c]) ∨ (∃ x y, s = [x, y]) ∨ ∃ t x y z, s = t ++ [x, y, z] := by
  rcases snoc_cases s with h | ⟨c, h⟩ | ⟨t, y, z, h⟩
  · exact Or.inl h
  · exact Or.inr (Or.inl ⟨c, h⟩)
  · rcases List.eq_nil_or_concat t with h2 | ⟨u, x, h2⟩
    · right; right; left; exact ⟨y, z, by simp [h, h2]⟩
    · right; right; right; exact ⟨u, x, y, z, by simp [h, h2]⟩

/-- The suffix stripping never panics, and leaves the empty string only of
the empty string and of the two binary-unit suffixes themselves. -/
theorem stripByteSuffix_some (input : GoString) :
    ∃ s, stripByteSuffix input = some s ∧
      (s = [] ↔ input = [] ∨ input = [105, 98] ∨ input = [105, 66]) := by
  rcases snoc3_cases input with h | ⟨c, h⟩ | ⟨x, y, h⟩ | ⟨t, x, y, z, h⟩
  · subst h; exact ⟨[], by decide, by simp⟩
  · subst h; exact ⟨[c], strip_short [c] (by simp) (by simp) (by simp), by simp⟩
  · subst h
    by_cases hib : x = 105 ∧ (y = 98 ∨ y = 66)
    · obtain ⟨rfl, hy⟩ := hib
      refine ⟨[], strip_ib [] y hy, ?_⟩
      rcases hy with rfl | rfl <;> simp
    · refine ⟨[x, y], strip_short [x, y] (by simp) ?_ ?_, ?_⟩
      · intro h; simp at h; exact hib ⟨h.1, Or.inl h.2⟩
      · intro h; simp at h; exact hib ⟨h.1, Or.inr h.2⟩
      · simp
        constructor <;> intro h1 h2 <;> subst h1 <;> subst h2 <;> simp at hib
  · subst h
    have hne : ∀ (u : GoString) (a : Nat), (u ++ [a] = [] ↔
        t ++ [x, y, z] = [] ∨ t ++ [x, y, z] = [105, 98] ∨ t ++ [x, y, z] = [105, 66]) := by
      intro u a
      constructor
      · intro h; simp at h
      · intro h
        rcases h with h | h | h
        · simp at h
        · have := congrArg List.length h; simp at this
        · have := congrArg List.length h; simp at this
    by_cases hz : z = 98 ∨ z = 66
    · by_cases hy : y = 105
      · subst hy
        have e : t ++ [x, 105, z] = (t ++ [x]) ++ [105, z] := by simp
        exact ⟨t ++ [x], by rw [e]; exact strip_ib _ z hz, hne t x⟩
      · cases hx : IsInteger (utf8EncodeRune x) with
        | true =>
          have e : t ++ [x, y] = (t ++ [x]) ++ [y] := by simp
          exact ⟨t ++ [x, y], strip_b t x y z hx hy hz, by rw [e]; exact hne _ y⟩
        | false =>
          have e : t ++ [x, y, z] = (t ++ [x, y]) ++ [z] := by simp
          exact ⟨t ++ [x, y, z], strip_b_keep t x y z hx hy, by
            conv => lhs; rw [e]
            exact hne _ z⟩
    · have e : t ++ [x, y, z] = (t ++ [x, y]) ++ [z] := by simp
      refine ⟨t ++ [x, y, z], ?_, ?_⟩
      · rw [e]; exact strip_keep _ z (fun h => hz (Or.inl h)) (fun h => hz (Or.inr h))
      · conv => lhs; rw [e]
        exact hne _ z

/-- On a non-empty string the scaling step returns. -/
theorem scaleBytes_returns (s : GoString) (c : Nat) :
    ∃ v err, scaleBytes (s ++ [c]) = .ret v err := by
  unfold scaleBytes
  rw [index_last, slice0_last]
  simp only
  split
  · split <;> exact ⟨_, _, rfl⟩
  · split <;> exact ⟨_, _, rfl⟩

/-- The inputs on which `ToBytes` panics are exactly the empty string and the
two binary-unit suffixes with nothing before them. -/
theorem ToBytes_panics_iff (input : GoString) :
    (∃ p, ToBytes input = .panic p) ↔
      input = [] ∨ input = bytes "ib" ∨ input = bytes "iB" := by
  rw [bytes_ib, bytes_iB]
  obtain ⟨s, hs, hiff⟩ := stripByteSuffix_some input
  unfold ToBytes
  rw [hs]
  simp only
  rw [← hiff]
  constructor
  · rintro ⟨p, hp⟩
    rcases List.eq_nil_or_concat s with h | ⟨t, c, h⟩
    · exact h
    · exfalso
      rw [h, List.concat_eq_append] at hp
      obtain ⟨v, err, hv⟩ := scaleBytes_returns t c
      rw [hv] at hp
      cases hp
  · rintro rfl
    exact ⟨.indexOutOfRange, by decide⟩

/-- C5, at the failing inputs: on the empty string, and on a bare binary-unit
suffix, `ToBytes` reads the byte at index -1 of an empty string and panics. -/
theorem ToBytes_empty_panics :
    ToBytes [] = .panic .indexOutOfRange ∧
      ToBytes (bytes "ib") = .panic .indexOutOfRange ∧
      ToBytes (bytes "iB") = .panic .indexOutOfRange := by
  decide

/-! ## float64 arithmetic: canonical values -/

theorem bitLen_zero (fuel : Nat) : bitLen fuel 0 = 0 := by
  cases fuel <;> simp [bitLen]

theorem bitLen_spec (fuel : Nat) : ∀ n, n ≤ fuel → 0 < n →
    2 ^ (bitLen fuel n - 1) ≤ n ∧ n < 2 ^ (bitLen fuel n) ∧ 0 < bitLen fuel n := by
  induction fuel with
  | zero => intro n h hn; omega
  | succ fuel ih =>
    intro n h hn
    have hne : n ≠ 0 := by omega
    simp only [bitLen, hne, if_false]
    by_cases h2 : n / 2 = 0
    · rw [h2, bitLen_zero]
      have : n = 1 := by omega
      subst this
      simp
    · obtain ⟨h3, h4, h5⟩ := ih (n / 2) (by omega) (by omega)
      refine ⟨?_, ?_, by omega⟩
      · have e : bitLen fuel (n / 2) + 1 - 1 = (bitLen fuel (n / 2) - 1) + 1 := by omega
        rw [e, pow_succ]
        omega
      · rw [pow_succ]
        omega

theorem ilog2_spec (n : Nat) (hn : 0 < n) : 2 ^ ilog2 n ≤ n ∧ n < 2 ^ (ilog2 n + 1) := by
  obtain ⟨h1, h2, h3⟩ := bitLen_spec n n (le_refl n) hn
  unfold ilog2
  refine ⟨h1, ?_⟩
  have e : bitLen n n - 1 + 1 = bitLen n n := by omega
  rw [e]
  exact h2

theorem ilog2_unique (n k : Nat) (h1 : 2 ^ k ≤ n) (h2 : n < 2 ^ (k + 1)) : ilog2 n = k := by
  have hn : 0 < n := lt_of_lt_of_le (by positivity) h1
  obtain ⟨h3, h4⟩ := ilog2_spec n hn
  have a : k < ilog2 n + 1 := (Nat.pow_lt_pow_iff_right (by norm_num : 1 < 2)).mp (lt_of_le_of_lt h1 h4)
  have b : ilog2 n < k + 1 := (Nat.pow_lt_pow_iff_right (by norm_num : 1 < 2)).mp (lt_of_le_of_lt h3 h2)
  omega

theorem divRoundEven_ge (n d k : Nat) (hd : 0 < d) (h : k * d ≤ n) : k ≤ divRoundEven n d := by
  have h1 : k ≤ n / d := (Nat.le_div_iff_mul_le hd).mpr h
  unfold divRoundEven
  simp only
  split
  · exact h1
  · split
    · split
      · exact h1
      · omega
    · omega

theorem divRoundEven_mul (m d : Nat) (hd : 0 < d) : divRoundEven (m * d) d = m := by
  unfold divRoundEven
  simp [Nat.mul_div_cancel _ hd, hd]

theorem binExp_ge (p q : Nat) : -1074 ≤ binExp p q := by
  unfold binExp
  exact le_max_right _ _

theorem binExp_lower (p q : Nat) (hp : 0 < p) (hq : 0 < q) (he : binExp p q ≠ -1074) :
    (0 ≤ binExp p q → 2 ^ 52 * (q * 2 ^ (binExp p q).toNat) ≤ p) ∧
    (binExp p q < 0 → 2 ^ 52 * q ≤ p * 2 ^ (-(binExp p q)).toNat) := by
  obtain ⟨p1, p2⟩ := ilog2_spec p hp
  obtain ⟨q1, q2⟩ := ilog2_spec q hq
  unfold binExp at he ⊢
  simp only at he ⊢
  generalize ilog2 p = lp at *
  generalize ilog2 q = lq at *
  split at he
  · rename_i hlt
    simp only [hlt, if_true]
    have hmax : max ((lp : Int) - lq - 53) (-1074) = (lp : Int) - lq - 53 := by
      rcases max_choice ((lp : Int) - lq - 53) (-1074) with h | h
      · exact h
      · exact absurd h he
    rw [hmax]
    constructor
    · intro h0
      obtain ⟨a, ha⟩ := Int.eq_ofNat_of_zero_le h0
      rw [ha, Int.toNat_ofNat]
      have hl : lp = lq + 1 + 52 + a := by omega
      have h2 : 2 ^ 52 * (q * 2 ^ a) ≤ 2 ^ 52 * (2 ^ (lq + 1) * 2 ^ a) :=
        Nat.mul_le_mul_left _ (Nat.mul_le_mul_right _ (le_of_lt q2))
      have h3 : 2 ^ 52 * (2 ^ (lq + 1) * 2 ^ a) = 2 ^ lp := by
        rw [hl, pow_add, pow_add]; ring
      omega
    · intro h0
      obtain ⟨b, hb⟩ := Int.eq_ofNat_of_zero_le (by omega : 0 ≤ -((lp : Int) - lq - 53))
      rw [hb, Int.toNat_ofNat]
      have hl : lp + b = lq + 1 + 52 := by omega
      have h2 : 2 ^ 52 * q ≤ 2 ^ 52 * 2 ^ (lq + 1) := Nat.mul_le_mul_left _ (le_of_lt q2)
      have h3 : 2 ^ 52 * 2 ^ (lq + 1) = 2 ^ lp * 2 ^ b := by
        rw [← pow_add, ← pow_add]; congr 1; omega
      have h4 : 2 ^ lp * 2 ^ b ≤ p * 2 ^ b := Nat.mul_le_mul_right _ p1
      omega
  · rename_i hge
    simp only [hge, if_false]
    have hge2 : q * 2 ^ lp ≤ p * 2 ^ lq := Nat.le_of_not_lt hge
    have hmax : max ((lp : Int) - lq - 52) (-1074) = (lp : Int) - lq - 52 := by
      rcases max_choice ((lp : Int) - lq - 52) (-1074) with h | h
      · exact h
      · exact absurd h he
    rw [hmax]
    constructor
    · intro h0
      obtain ⟨a, ha⟩ := Int.eq_ofNat_of_zero_le h0
      rw [ha, Int.toNat_ofNat]
      have hl : lp = lq + (52 + a) := by omega
      rw [hl, pow_add] at hge2
      have h3 : (q * (2 ^ 52 * 2 ^ a)) * 2 ^ lq ≤ p * 2 ^ lq := by
        rw [pow_add] at hge2
        calc (q * (2 ^ 52 * 2 ^ a)) * 2 ^ lq = q * (2 ^ lq * (2 ^ 52 * 2 ^ a)) := by ring
          _ ≤ p * 2 ^ lq := hge2
      have h4 := Nat.le_of_mul_le_mul_right h3 (by positivity)
      calc 2 ^ 52 * (q * 2 ^ a) = q * (2 ^ 52 * 2 ^ a) := by ring
        _ ≤ p := h4
    · intro h0
      obtain ⟨b, hb⟩ := Int.eq_ofNat_of_zero_le (by omega : 0 ≤ -((lp : Int) - lq - 52))
      rw [hb, Int.toNat_ofNat]
      have hl : lp + b = lq + 52 := by omega
      have h3 : (2 ^ 52 * q) * 2 ^ lq ≤ (p * 2 ^ b) * 2 ^ lq := by
        calc (2 ^ 52 * q) * 2 ^ lq = q * 2 ^ (lq + 52) := by rw [pow_add]; ring
          _ = q * 2 ^ lp * 2 ^ b := by rw [← hl, pow_add]; ring
          _ ≤ p * 2 ^ lq * 2 ^ b := Nat.mul_le_mul_right _ hge2
          _ = (p * 2 ^ b) * 2 ^ lq := by ring
      exact Nat.le_of_mul_le_mul_right h3 (by positivity)

/-- Every value `roundRat` produces is canonical. -/
theorem roundRat_WF (neg : Bool) (p q : Nat) (hq : 0 < q) : (roundRat neg p q).1.WF := by
  unfold roundRat
  split
  · simp [F64.WF]
  · rename_i hp
    have hp0 : 0 < p := Nat.pos_of_ne_zero hp
    have hge := binExp_ge p q
    simp only
    generalize hm : (if 0 ≤ binExp p q then divRoundEven p (q * 2 ^ (binExp p q).toNat)
      else divRoundEven (p * 2 ^ (-binExp p q).toNat) q) = m
    by_cases h53 : 2 ^ 53 ≤ m
    · simp only [h53, if_true]
      split
      · trivial
      · rename_i h971
        simp only [F64.WF]
        refine ⟨by norm_num, by omega, by omega, ?_⟩
        intro h; exact absurd h (lt_irrefl _)
    · simp only [h53, if_false]
      split
      · trivial
      · rename_i h971
        simp only [F64.WF]
        refine ⟨by omega, hge, by omega, ?_⟩
        intro hlt
        by_contra hne
        obtain ⟨l1, l2⟩ := binExp_lower p q hp0 hq hne
        by_cases h0 : 0 ≤ binExp p q
        · rw [if_pos h0] at hm
          have := divRoundEven_ge p (q * 2 ^ (binExp p q).toNat) (2 ^ 52) (by positivity) (l1 h0)
          omega
        · rw [if_neg h0] at hm
          have := divRoundEven_ge (p * 2 ^ (-binExp p q).toNat) q (2 ^ 52) hq (l2 (by omega))
          omega

/-- A canonical value, written as `m * 2^t / 2^s`, rounds to itself. -/
theorem roundRat_pow2 (neg : Bool) (m t s : Nat) (e : Int) (he : e = (t : Int) - s)
    (hm : 0 < m) (hwf : (F64.finite neg m e).WF) :
    roundRat neg (m * 2 ^ t) (2 ^ s) = (.finite neg m e, false) := by
  obtain ⟨w1, w2, w3, w4⟩ := hwf
  obtain ⟨m1, m2⟩ := ilog2_spec m hm
  have hL : ilog2 m < 53 :=
    (Nat.pow_lt_pow_iff_right (by norm_num : 1 < 2)).mp (lt_of_le_of_lt m1 w1)
  have hlp : ilog2 (m * 2 ^ t) = ilog2 m + t := by
    apply ilog2_unique
    · rw [pow_add]; exact Nat.mul_le_mul_right _ m1
    · rw [show ilog2 m + t + 1 = (ilog2 m + 1) + t by omega, pow_add]
      exact Nat.mul_lt_mul_of_pos_right m2 (by positivity)
  have hlq : ilog2 (2 ^ s) = s := ilog2_unique _ _ (le_refl _)
    ((Nat.pow_lt_pow_iff_right (by norm_num : 1 < 2)).mpr (Nat.lt_succ_self s))
  have hnot : ¬ (m * 2 ^ t * 2 ^ s < 2 ^ s * 2 ^ (ilog2 m + t)) := by
    intro h
    have : 2 ^ s * 2 ^ (ilog2 m + t) ≤ m * 2 ^ t * 2 ^ s := by
      calc 2 ^ s * 2 ^ (ilog2 m + t) = 2 ^ ilog2 m * (2 ^ t * 2 ^ s) := by rw [pow_add]; ring
        _ ≤ m * (2 ^ t * 2 ^ s) := Nat.mul_le_mul_right _ m1
        _ = m * 2 ^ t * 2 ^ s := by ring
    omega
  have hbe : binExp (m * 2 ^ t) (2 ^ s) = e := by
    unfold binExp
    simp only [hlp, hlq, hnot, if_false]
    by_cases h52 : 2 ^ 52 ≤ m
    · have hl52 : ilog2 m = 52 := ilog2_unique m 52 h52 w1
      rw [hl52, max_eq_left (by push_cast; omega)]
      push_cast
      omega
    · have hlt52 : m < 2 ^ 52 := Nat.lt_of_not_le h52
      have he2 := w4 hlt52
      have hl52 : ilog2 m < 52 :=
        (Nat.pow_lt_pow_iff_right (by norm_num : 1 < 2)).mp (lt_of_le_of_lt m1 hlt52)
      rw [max_eq_right (by push_cast; omega)]
      omega
  have hp : m * 2 ^ t ≠ 0 := by positivity
  unfold roundRat
  simp only [hp, if_false, hbe]
  have hmant : (if 0 ≤ e then divRoundEven (m * 2 ^ t) (2 ^ s * 2 ^ e.toNat)
      else divRoundEven (m * 2 ^ t * 2 ^ (-e).toNat) (2 ^ s)) = m := by
    split
    · rename_i h0
      obtain ⟨a, ha⟩ := Int.eq_ofNat_of_zero_le h0
      rw [ha, Int.toNat_ofNat]
      have : t = s + a := by omega
      rw [this, pow_add]
      exact divRoundEven_mul m _ (by positivity)
    · rename_i h0
      obtain ⟨b, hb⟩ := Int.eq_ofNat_of_zero_le (by omega : 0 ≤ -e)
      rw [hb, Int.toNat_ofNat]
      have : s = t + b := by omega
      rw [this, mul_assoc, ← pow_add]
      exact divRoundEven_mul m _ (by positivity)
  rw [hmant]
  have h53 : ¬ 2 ^ 53 ≤ m := Nat.not_le_of_lt w1
  have h971 : ¬ 971 < e := by omega
  rw [if_neg h53]
  simp only
  rw [if_neg h971]

theorem pow1024_zero : pow1024 0 = .finite false (2 ^ 52) (-52) := by decide

/-- Multiplying a canonical value by `math.Pow(1024, 0)` returns it. -/
theorem F64.mul_pow1024_zero (v : F64) (h : v.WF) : F64.mul v (pow1024 0) = v := by
  rw [pow1024_zero]
  cases v with
  | nan => rfl
  | inf n => cases n <;> rfl
  | finite n m e =>
    have hn : (n != false) = n := by cases n <;> rfl
    simp only [F64.mul, hn]
    by_cases hm : m = 0
    · subst hm
      obtain ⟨-, -, -, w4⟩ := h
      have he := w4 (by norm_num)
      subst he
      unfold roundDyadic roundRat
      simp
    · have hm0 : 0 < m := Nat.pos_of_ne_zero hm
      unfold roundDyadic
      split
      · rename_i h0
        obtain ⟨a, ha⟩ := Int.eq_ofNat_of_zero_le h0
        rw [ha, Int.toNat_ofNat]
        have e1 : m * 2 ^ 52 * 2 ^ a = m * 2 ^ (52 + a) := by rw [pow_add]; ring
        have e2 : (1 : Nat) = 2 ^ 0 := by norm_num
        rw [e1, e2, roundRat_pow2 n m (52 + a) 0 e (by push_cast; omega) hm0 h]
      · rename_i h0
        obtain ⟨b, hb⟩ := Int.eq_ofNat_of_zero_le (by omega : 0 ≤ -(e + -52))
        rw [hb, Int.toNat_ofNat]
        rw [roundRat_pow2 n m 52 b e (by push_cast; omega) hm0 h]

/-- The infinities and NaN are all that `special` returns. -/
theorem special_WF (s : GoString) (v : F64) (n : Nat) (h : special s = some (v, n)) :
    v.WF := by
  unfold special at h
  simp only at h
  split at h
  · simp at h
  · split_ifs at h <;> simp at h <;> (obtain ⟨rfl, -⟩ := h; trivial)

/-- Every value `ParseFloat` returns without error is canonical. -/
theorem ParseFloat_WF (s : GoString) (v : F64) (h : ParseFloat s = (v, none)) : v.WF := by
  unfold ParseFloat at h
  split at h
  · rename_i w n hsp
    split_ifs at h
    · simp only [Prod.mk.injEq, and_true] at h
      subst h
      exact special_WF s _ n hsp
    · simp at h
  · split at h
    · simp at h
    · rename_i l hl
      split_ifs at h
      · simp at h
      · simp at h
      · simp only [Prod.mk.injEq, and_true] at h
        subst h
        unfold FloatLit.value
        simp only
        split_ifs <;> exact roundRat_WF _ _ _ (by norm_num)

/-! ## Size strings without a prefix letter -/

/-- A digit is no unit letter. -/
theorem GetSiPrefix_digit (c : Nat) (h : isDigit c = true) :
    (GetSiPrefix (utf8EncodeRune c)).2 ≠ none ∧ c ≠ 98 ∧ c ≠ 66 ∧ c ≠ 105 := by
  simp only [isDigit, Bool.and_eq_true, decide_eq_true_eq] at h
  obtain ⟨h1, h2⟩ := h
  interval_cases c <;> decide

/-- The scaling step on a string that ends in a digit parses the string whole. -/
theorem scale_digit_end (d : GoString) (v : F64) (hd : ∃ t c, d = t ++ [c] ∧ isDigit c = true)
    (hv : ParseFloat d = (v, none)) : scaleBytes d = .ret v none := by
  obtain ⟨t, c, rfl, hc⟩ := hd
  rw [scale_unrecognised t c (GetSiPrefix_digit c hc).1, hv]

/-- The scaling step on a numeral followed by the letter b multiplies by
`1024^0`, which changes nothing. -/
theorem scale_b (d : GoString) (b : Nat) (v : F64) (hb : b = 98 ∨ b = 66)
    (hv : ParseFloat d = (v, none)) : scaleBytes (d ++ [b]) = .ret v none := by
  have hG : GetSiPrefix [b] = ((0 : Int), none) := by
    rcases hb with rfl | rfl <;> decide
  have hb128 : b < 128 := by rcases hb with rfl | rfl <;> decide
  rw [scale_recognised d b 0 hb128 hG, hv]
  simp only [Int.toNat_zero]
  rw [F64.mul_pow1024_zero v (ParseFloat_WF d v hv)]

/-- C2 (as amended): for every decimal numeral `d` that `strconv.ParseFloat`
accepts with value `v`, `ToBytes(d)` returns `v` unscaled with no error, and
so does `ToBytes(d + a)` for each byte-unit suffix `a`. -/
theorem ToBytes_unscaled (d a : GoString) (v : F64)
    (hd : decimalNumeral d = true) (ha : a ∈ byteSuffixes) (hv : ParseFloat d = (v, none)) :
    ToBytes (d ++ a) = .ret v none := by
  have hsn := decimalNumeral_snoc d hd
  have hkeep : stripByteSuffix d = some d := by
    obtain ⟨t, c, rfl, hc⟩ := hsn
    obtain ⟨-, g2, g3, -⟩ := GetSiPrefix_digit c hc
    exact strip_keep t c g2 g3
  rw [byteSuffixes_eq] at ha
  simp only [List.mem_cons, List.mem_singleton, List.not_mem_nil, or_false] at ha
  have hbcase : ∀ b, (b = 98 ∨ b = 66) → ToBytes (d ++ [b]) = .ret v none := by
    intro b hb
    obtain ⟨t, c, rfl, hc⟩ := hsn
    obtain ⟨-, -, -, g4⟩ := GetSiPrefix_digit c hc
    unfold ToBytes
    rcases List.eq_nil_or_concat t with h | ⟨u, x, h⟩
    · subst h
      have hsh : stripByteSuffix ([] ++ [c] ++ [b]) = some ([] ++ [c] ++ [b]) := by
        apply strip_short
        · simp
        · simp [g4]
        · simp [g4]
      rw [hsh]
      exact scale_b _ b v hb hv
    · subst h
      have e : u.concat x ++ [c] ++ [b] = u ++ [x, c, b] := by simp
      have e2 : u.concat x ++ [c] = u ++ [x, c] := by simp
      cases hx : IsInteger (utf8EncodeRune x) with
      | true =>
        rw [e, strip_b u x c b hx g4 hb]
        simp only
        rw [← e2]
        exact scale_digit_end _ v ⟨_, c, rfl, hc⟩ hv
      | false =>
        rw [e, strip_b_keep u x c b hx g4]
        simp only
        rw [← e]
        exact scale_b _ b v hb hv
  rcases ha with rfl | rfl | rfl | rfl | rfl
  · rw [List.append_nil]
    unfold ToBytes
    rw [hkeep]
    exact scale_digit_end d v hsn hv
  · exact hbcase 98 (Or.inl rfl)
  · exact hbcase 66 (Or.inr rfl)
  · unfold ToBytes
    rw [strip_ib d 98 (Or.inl rfl)]
    exact scale_digit_end d v hsn hv
  · unfold ToBytes
    rw [strip_ib d 66 (Or.inr rfl)]
    exact scale_digit_end d v hsn hv

/-- Witness for C2: the size string -1b is minus one byte. -/
theorem ToBytes_unscaled_witness :
    ToBytes (bytes "-1" ++ bytes "b") = .ret (.finite true (2 ^ 52) (-52)) none :=
  ToBytes_unscaled (bytes "-1") (bytes "b") (.finite true (2 ^ 52) (-52))
    (by decide) (by decide) (by decide)

set_option maxRecDepth 1000000 in
/-- C2 as stated fails on a numeral beyond the float64 range: the parse of
the bare 310-digit numeral fails, and `ToBytes` reports the input as
unrecognised. -/
theorem ToBytes_unscaled_range_error :
    decimalNumeral hugeNumeral = true ∧
      ToBytes (hugeNumeral ++ []) =
        .ret (.finite false 0 (-1074)) (some (.unrecognizedInput hugeNumeral)) := by
  decide

/-! ## A numeral followed by a letter is no float -/

/-- What the parsers see of a letter that is no unit letter. -/
theorem otherLetter_facts : ∀ x, x < 128 → (isLetter x = true ∧ x ∉ unitLetters) →
    (x ≠ 95 ∧ x ≠ 46 ∧ isDigit x = false ∧ lower x ≠ 101) ∧ x ≠ 98 ∧ x ≠ 66 ∧
      (GetSiPrefix (utf8EncodeRune x)).2 ≠ none := by
  decide

theorem isLetter_lt (x : Nat) (h : isLetter x = true) : x < 128 := by
  simp only [isLetter, Bool.or_eq_true, Bool.and_eq_true, decide_eq_true_eq] at h
  omega

/-- What the parsers see of a digit. -/
theorem digit_facts : ∀ c, c < 128 → isDigit c = true →
    c ≠ 95 ∧ c ≠ 46 ∧ lower c ≠ 120 ∧ (c ≠ 43 ∧ c ≠ 45 ∧ c ≠ 105 ∧ c ≠ 73) ∧
      c ≠ 110 ∧ c ≠ 78 ∧ (if 65 ≤ c ∧ c ≤ 90 then c + 32 else c) ≠ 105 := by
  decide

theorem isDigit_lt (c : Nat) (h : isDigit c = true) : c < 128 := by
  simp only [isDigit, Bool.and_eq_true, decide_eq_true_eq] at h
  omega

/-- The mantissa loop in base 10 runs through a string of digits; it keeps
the point and underscore flags and has seen a digit if there was one. -/
theorem scanMant_digits (ds rest : GoString) (hall : ds.all isDigit = true) :
    ∀ st : MantState, ∃ st' : MantState,
      scanMant false (ds ++ rest) st = scanMant false rest st' ∧
        st'.sawdot = st.sawdot ∧ st'.underscores = st.underscores ∧
        (st'.sawdigits = true ↔ (st.sawdigits = true ∨ ds ≠ [])) := by
  induction ds with
  | nil => intro st; exact ⟨st, rfl, rfl, rfl, by simp⟩
  | cons c cs ih =>
    intro st
    simp only [List.all_cons, Bool.and_eq_true] at hall
    obtain ⟨hc, hcs⟩ := hall
    obtain ⟨f1, f2, -⟩ := digit_facts c (isDigit_lt c hc) hc
    obtain ⟨st', h1, h2, h3, h4⟩ := ih hcs
      { st with
        sawdigits := true
        mant := st.mant * (if false then 16 else 10) + (c - 48)
        frac := if st.sawdot then st.frac + 1 else st.frac }
    refine ⟨st', ?_, h2, h3, ?_⟩
    · rw [List.cons_append]
      conv => lhs; unfold scanMant
      simp only [f1, f2, hc, if_false, if_true]
      exact h1
    · simp only [h4]
      simp

/-- The mantissa loop in base 10 stops at a byte that is no digit, point or
underscore. -/
theorem scanMant_stop (x : Nat) (rest : GoString) (st : MantState)
    (h1 : x ≠ 95) (h2 : x ≠ 46) (h3 : isDigit x = false) :
    scanMant false (x :: rest) st = (st, x :: rest) := by
  unfold scanMant
  simp [h1, h2, h3]

/-- The mantissa loop over an unsigned numeral followed by a letter stops at
the letter, with a digit seen and no underscore. -/
theorem scanMant_numeral (u : GoString) (x : Nat) (hu : unsignedNumeral u = true)
    (h1 : x ≠ 95) (h2 : x ≠ 46) (h3 : isDigit x = false) :
    ∃ st : MantState, scanMant false (u ++ [x]) ⟨false, false, false, 0, 0⟩ = (st, [x]) ∧
      st.sawdigits = true ∧ st.underscores = false := by
  obtain ⟨ip, hne, hall, hform⟩ := unsignedNumeral_form u hu
  rcases hform with h | ⟨fp, hfne, hfall, h⟩ <;> rw [h]
  · obtain ⟨st', e1, -, e3, e4⟩ := scanMant_digits ip [x] hall ⟨false, false, false, 0, 0⟩
    refine ⟨st', ?_, e4.mpr (Or.inr hne), e3⟩
    rw [e1, scanMant_stop x [] st' h1 h2 h3]
  · obtain ⟨st1, e1, e2, e3, e4⟩ :=
      scanMant_digits ip (46 :: fp ++ [x]) hall ⟨false, false, false, 0, 0⟩
    obtain ⟨st2, g1, g2, g3, g4⟩ :=
      scanMant_digits fp [x] hfall { st1 with sawdot := true }
    refine ⟨st2, ?_, g4.mpr (Or.inr hfne), by rw [g3]; exact e3⟩
    have e : ip ++ 46 :: fp ++ [x] = ip ++ (46 :: fp ++ [x]) := by simp
    rw [e, e1]
    have e' : (46 :: fp ++ [x] : GoString) = 46 :: (fp ++ [x]) := by simp
    rw [e']
    conv => lhs; unfold scanMant
    simp only [e2]
    simp only [show ¬ ((46 : Nat) = 95) by decide, if_false, if_true, Bool.false_eq_true]
    rw [g1, scanMant_stop x [] st2 h1 h2 h3]

/-- A numeral followed by a letter starts no base prefix. -/
theorem readBase_numeral (u : GoString) (x : Nat) (hu : unsignedNumeral u = true) :
    readBase (u ++ [x]) = (false, u ++ [x]) := by
  obtain ⟨ip, hne, hall, hform⟩ := unsignedNumeral_form u hu
  have key : ∀ (a b c : Nat) (t : GoString), u ++ [x] = a :: b :: c :: t → lower b ≠ 120 := by
    intro a b c t h
    match ip, hne, hall, hform with
    | [i0], _, _, hform =>
      rcases hform with h2 | ⟨fp, -, -, h2⟩ <;> rw [h2] at h
      · simp at h
      · simp at h
        obtain ⟨-, rfl, -⟩ := h
        decide
    | i0 :: i1 :: ip', _, hall, hform =>
      simp only [List.all_cons, Bool.and_eq_true] at hall
      have hb : b = i1 := by
        rcases hform with h2 | ⟨fp, -, -, h2⟩ <;> rw [h2] at h <;> simp at h <;>
          exact h.2.1.symm
      rw [hb]
      exact (digit_facts i1 (isDigit_lt i1 hall.2.1) hall.2.1).2.2.1
  unfold readBase
  split
  · rename_i a b c t heq
    rw [if_neg (key _ _ _ _ heq)]
  · rfl

/-- An unsigned numeral starts with a digit. -/
theorem unsignedNumeral_head (u : GoString) (hu : unsignedNumeral u = true) :
    ∃ c t, u = c :: t ∧ isDigit c = true := by
  obtain ⟨ip, hne, hall, hform⟩ := unsignedNumeral_form u hu
  match ip, hne, hall, hform with
  | c :: ip', _, hall, hform =>
    simp only [List.all_cons, Bool.and_eq_true] at hall
    rcases hform with h | ⟨fp, -, -, h⟩
    · exact ⟨c, ip', h, hall.1⟩
    · exact ⟨c, ip' ++ 46 :: fp, by simp [h], hall.1⟩

/-- The exponent step at a byte that is no exponent letter, in base 10. -/
theorem readExponent_stop (s : GoString) (neg : Bool) (st : MantState) (x : Nat)
    (hx : lower x ≠ 101) (hu : st.underscores = false) :
    ∃ l : FloatLit, readExponent s neg false st [x] = some l ∧ l.rest = [x] := by
  unfold readExponent
  simp [hx, hu]

/-- Reading a float off an unsigned numeral followed by a letter stops at the
letter. -/
theorem readFloat_unsigned (s u : GoString) (neg : Bool) (x : Nat)
    (hs : readSign s = (neg, u ++ [x])) (hu : unsignedNumeral u = true)
    (h1 : x ≠ 95) (h2 : x ≠ 46) (h3 : isDigit x = false) (h4 : lower x ≠ 101) :
    ∃ l : FloatLit, readFloat s = some l ∧ l.rest = [x] := by
  obtain ⟨st, e1, e2, e3⟩ := scanMant_numeral u x hu h1 h2 h3
  unfold readFloat
  rw [hs]
  simp only
  rw [readBase_numeral u x hu]
  simp only
  rw [e1]
  simp only [e2, Bool.not_true, Bool.false_eq_true, if_false]
  exact readExponent_stop s neg st x h4 e3

/-- The sign step and the test for infinities and NaN on a decimal numeral
followed by one more byte. -/
theorem numeral_start (d : GoString) (x : Nat) (hd : decimalNumeral d = true) :
    special (d ++ [x]) = none ∧
      ∃ neg u, readSign (d ++ [x]) = (neg, u ++ [x]) ∧ unsignedNumeral u = true := by
  unfold decimalNumeral at hd
  split at hd
  · rename_i t
    obtain ⟨c, r, rfl, hc⟩ := unsignedNumeral_head t hd
    obtain ⟨-, -, -, -, -, -, f⟩ := digit_facts c (isDigit_lt c hc) hc
    refine ⟨?_, true, c :: r, rfl, hd⟩
    simp [special, commonPrefixLenIgnoreCase, bytes, utf8EncodeRune, f]
  · rename_i hne
    obtain ⟨c, r, rfl, hc⟩ := unsignedNumeral_head d hd
    obtain ⟨-, -, -, ⟨f1, f2, f3, f4⟩, f5, f6, -⟩ := digit_facts c (isDigit_lt c hc) hc
    refine ⟨?_, false, c :: r, ?_, hd⟩
    · simp [special, f1, f2, f3, f4, f5, f6]
    · simp only [readSign, List.cons_append]
      split
      · rename_i heq; simp at heq; exact absurd heq.1 f1
      · rename_i heq; simp at heq; exact absurd heq.1 f2
      · rfl

/-- A decimal numeral followed by a letter other than e is no float. -/
theorem ParseFloat_numeral_letter (d : GoString) (x : Nat) (hd : decimalNumeral d = true)
    (h1 : x ≠ 95) (h2 : x ≠ 46) (h3 : isDigit x = false) (h4 : lower x ≠ 101) :
    ParseFloat (d ++ [x]) = (.finite false 0 (-1074), some .ErrSyntax) := by
  obtain ⟨hsp, neg, u, hs, hu⟩ := numeral_start d x hd
  obtain ⟨l, hl, hrest⟩ := readFloat_unsigned (d ++ [x]) u neg x hs hu h1 h2 h3 h4
  unfold ParseFloat
  rw [hsp]
  simp only
  rw [hl]
  simp [hrest]

/-- C3: `ToBytes` rejects malformed size strings. (i) When `ParseFloat`
rejects `body`, `ToBytes(body + p)` returns that parse error for every prefix
letter `p`, without parsing the whole string. (ii) For a decimal numeral `d`
and an ASCII letter `x` that is no unit letter, `ToBytes(d + x)` returns the
error "Unrecognized input string". -/
theorem ToBytes_rejects (body d : GoString) (i : Fin 8) (up : Bool) (k : NumErrKind) (x : Nat)
    (hbody : (ParseFloat body).2 = some k) (hd : decimalNumeral d = true)
    (hx : isLetter x = true) (hx2 : x ∉ unitLetters) :
    ToBytes (body ++ [prefixLetter i up]) =
        .ret (.finite false 0 (-1074)) (some (.num .ParseFloat body k)) ∧
      ToBytes (d ++ [x]) =
        .ret (.finite false 0 (-1074)) (some (.unrecognizedInput (d ++ [x]))) := by
  constructor
  · obtain ⟨hp1, hp2, hp3, -, hG⟩ := prefixLetter_facts i up
    unfold ToBytes
    rw [strip_keep body _ hp2 hp3]
    simp only
    rw [scale_recognised body _ _ hp1 hG]
    cases hpf : ParseFloat body with
    | mk v e =>
      rw [hpf] at hbody
      simp only at hbody
      subst hbody
      rfl
  · obtain ⟨⟨f1, f2, f3, f4⟩, f5, f6, f7⟩ := otherLetter_facts x (isLetter_lt x hx) ⟨hx, hx2⟩
    rw [ToBytes_fallback_aux (d ++ [x]) d x (strip_keep d x f5 f6) f7,
      ParseFloat_numeral_letter d x hd f1 f2 f3 f4]

/-- Witness for C3: the size strings potatoG and 123X are rejected. -/
theorem ToBytes_rejects_witness :
    ToBytes (bytes "potato" ++ [prefixLetter 2 true]) =
        .ret (.finite false 0 (-1074)) (some (.num .ParseFloat (bytes "potato") .ErrSyntax)) ∧
      ToBytes (bytes "123" ++ [88]) =
        .ret (.finite false 0 (-1074)) (some (.unrecognizedInput (bytes "123" ++ [88]))) :=
  ToBytes_rejects (bytes "potato") (bytes "123") 2 true .ErrSyntax 88
    (by decide) (by decide) (by decide) (by decide)

/-! ## Conversions of strings -/

theorem trueLiterals_eq : trueLiterals = [[116, 114, 117, 101], [121, 101, 115], [111, 110]] := by
  decide

theorem falseLiterals_eq :
    falseLiterals = [[102, 97, 108, 115, 101], [110, 111], [111, 102, 102]] := by
  decide

theorem IsBooleanTrue_iff (env : Env) (s : GoString) :
    IsBooleanTrue env s = true ↔ ToLower env s ∈ trueLiterals := by
  simp [IsBooleanTrue, trueLiterals]

theorem IsBooleanFalse_iff (env : Env) (s : GoString) :
    IsBooleanFalse env s = true ↔ ToLower env s ∈ falseLiterals := by
  simp [IsBooleanFalse, falseLiterals]

/-- No literal is both true and false. -/
theorem literals_disjoint (t : GoString) (h1 : t ∈ trueLiterals) (h2 : t ∈ falseLiterals) :
    False := by
  rw [trueLiterals_eq] at h1
  rw [falseLiterals_eq] at h2
  simp only [List.mem_cons, List.mem_singleton, List.not_mem_nil, or_false] at h1 h2
  rcases h1 with rfl | rfl | rfl <;> simp at h2

/-- C6: for every string `s` whose lower-cased form is a boolean literal,
`Autotype(s)` returns the boolean `IsBooleanTrue(s)`; the result does not
depend on any later candidate type. -/
theorem Autotype_boolean (env : Env) (s : GoString)
    (h : ToLower env s ∈ trueLiterals ++ falseLiterals) :
    Autotype env (.string s) = some (.bool (IsBooleanTrue env s)) := by
  unfold Autotype autotypeLoop ConvertTo ToString
  simp only [convertString]
  by_cases ht : IsBooleanTrue env s = true
  · simp [ht]
  · have hf : IsBooleanFalse env s = true := by
      rw [IsBooleanFalse_iff]
      rw [IsBooleanTrue_iff] at ht
      rcases List.mem_append.mp h with h | h
      · exact absurd h ht
      · exact h
    simp [ht, hf]

/-- Witness for C6: the string ON is the boolean true. -/
theorem Autotype_boolean_witness :
    Autotype sampleEnv (.string (bytes "ON")) =
      some (.bool (IsBooleanTrue sampleEnv (bytes "ON"))) :=
  Autotype_boolean sampleEnv (bytes "ON") (by decide)

/-- C9: let `s` be the canonical string form of the input. `ConvertTo(Boolean)`
returns true when lower-cased `s` is a true literal, false when it is a false
literal, and otherwise fails with the error that quotes `s`; `ConvertToBool`
returns the same boolean, and false with that error on failure. -/
theorem ConvertTo_boolean (env : Env) (value : Value) (s : GoString)
    (hs : ToString env value = .ret s none) :
    (ToLower env s ∈ trueLiterals →
        ConvertTo env .Boolean value = .ret (.bool true) none ∧
          ConvertToBool env value = .ret true none) ∧
      (ToLower env s ∈ falseLiterals →
        ConvertTo env .Boolean value = .ret (.bool false) none ∧
          ConvertToBool env value = .ret false none) ∧
      (ToLower env s ∉ trueLiterals ++ falseLiterals →
        ConvertTo env .Boolean value = .ret .nil (some (.notBoolean s)) ∧
          ConvertToBool env value = .ret false (some (.notBoolean s)) ∧
          (Err.notBoolean s).names = s) := by
  have hc : ConvertTo env .Boolean value = convertString env .Boolean s := by
    unfold ConvertTo
    rw [hs]
  refine ⟨?_, ?_, ?_⟩
  · intro h
    have ht := (IsBooleanTrue_iff env s).mpr h
    have : ConvertTo env .Boolean value = .ret (.bool true) none := by
      rw [hc]; simp [convertString, ht]
    exact ⟨this, by unfold ConvertToBool; rw [this]⟩
  · intro h
    have hf := (IsBooleanFalse_iff env s).mpr h
    have ht : ¬ IsBooleanTrue env s = true := by
      rw [IsBooleanTrue_iff]
      intro h1
      exact literals_disjoint _ h1 h
    have : ConvertTo env .Boolean value = .ret (.bool false) none := by
      rw [hc]; simp [convertString, ht, hf]
    exact ⟨this, by unfold ConvertToBool; rw [this]⟩
  · intro h
    rw [List.mem_append, not_or] at h
    have ht : ¬ IsBooleanTrue env s = true := by rw [IsBooleanTrue_iff]; exact h.1
    have hf : ¬ IsBooleanFalse env s = true := by rw [IsBooleanFalse_iff]; exact h.2
    have : ConvertTo env .Boolean value = .ret .nil (some (.notBoolean s)) := by
      rw [hc]; simp [convertString, ht, hf]
    exact ⟨this, by unfold ConvertToBool; rw [this], rfl⟩

/-- Witness for C9: the string maybe is no boolean. -/
theorem ConvertTo_boolean_witness :
    ConvertTo sampleEnv .Boolean (.string (bytes "maybe")) =
        .ret .nil (some (.notBoolean (bytes "maybe"))) ∧
      ConvertToBool sampleEnv (.string (bytes "maybe")) =
        .ret false (some (.notBoolean (bytes "maybe"))) ∧
      (Err.notBoolean (bytes "maybe")).names = bytes "maybe" :=
  (ConvertTo_boolean sampleEnv (.string (bytes "maybe")) (bytes "maybe") rfl).2.2 (by decide)

/-! ## The zero time -/

/-- On an ASCII string, `strings.Map` with an ASCII-valued mapping maps the
bytes one by one. -/
theorem mapRunes_ascii (f : Nat → Nat) (hf : ∀ c, c < 128 → f c < 128) :
    ∀ (fuel : Nat) (s : GoString), s.length ≤ fuel → (∀ c ∈ s, c < 128) →
      mapRunes f fuel s = s.map f := by
  intro fuel
  induction fuel with
  | zero =>
    intro s hl _
    have : s = [] := List.length_eq_zero.mp (by omega)
    subst this
    rfl
  | succ fuel ih =>
    intro s hl hs
    cases s with
    | nil => rfl
    | cons c t =>
      have hc : c < 128 := hs c (List.mem_cons_self _ _)
      have hd : decodeRune (c :: t) = (c, 1) := by simp [decodeRune, hc]
      simp only [mapRunes, hd, List.map_cons, List.drop_one, List.tail_cons]
      rw [utf8EncodeRune_ascii _ (hf c hc), ih t (by simpa using hl)
        (fun x hx => hs x (List.mem_cons_of_mem _ hx))]
      rfl

theorem zeroPunct_ascii (c : Nat) (h : c < 128) : zeroPunct c < 128 := by
  unfold zeroPunct
  split <;> omega

theorem Map_zeroPunct_ascii (s : GoString) (hs : ∀ c ∈ s, c < 128) :
    Map zeroPunct s = s.map zeroPunct :=
  mapRunes_ascii zeroPunct zeroPunct_ascii s.length s (le_refl _) hs

/-- A string of zeros parses as the integer zero. -/
theorem ParseInt_zeros (n : Nat) : ParseInt (List.replicate (n + 1) 48) = (0, none) := by
  have hloop : ∀ k, parseUintLoop ((2 ^ 64 - 1) / 10 + 1) (2 ^ 64 - 1) (List.replicate k 48) 0 =
      .ok 0 := by
    intro k
    induction k with
    | zero => rfl
    | succ k ih =>
      rw [List.replicate_succ]
      unfold parseUintLoop
      simp only [show isDigit 48 = true by decide, if_true]
      rw [if_neg (by norm_num), if_neg (by norm_num)]
      exact ih
  have hu : ParseUint (List.replicate (n + 1) 48) = (0, none) := by
    unfold ParseUint
    rw [if_neg (by simp [List.replicate_succ]), hloop]
  rw [List.replicate_succ] at hu ⊢
  unfold ParseInt
  simp only [show ((48 : Nat) == 45) = false by decide, show ¬ ((48 : Nat) = 43 ∨ (48 : Nat) = 45) by decide,
    if_false, hu]
  simp

/-- C10: for every non-empty string made only of the characters 0, minus,
colon, space, T and Z, `ConvertTo(Time)` returns the zero time with no error,
whatever `time.Parse` would say of any layout. -/
theorem ConvertTo_time_zero (env : Env) (s : GoString) (hne : s ≠ [])
    (hall : ∀ c ∈ s, c ∈ skeletonBytes) :
    ConvertTo env .Time (.string s) = .ret (.time Time.zero) none := by
  have hsk : skeletonBytes = [48, 45, 58, 32, 84, 90] := by decide
  rw [hsk] at hall
  have hascii : ∀ c ∈ s, c < 128 := by
    intro c hc
    have := hall c hc
    simp only [List.mem_cons, List.mem_singleton, List.not_mem_nil, or_false] at this
    omega
  have hmap : s.map zeroPunct = List.replicate s.length 48 := by
    rw [List.eq_replicate_iff]
    refine ⟨by simp, ?_⟩
    intro b hb
    obtain ⟨c, hc, rfl⟩ := List.mem_map.mp hb
    have := hall c hc
    simp only [List.mem_cons, List.mem_singleton, List.not_mem_nil, or_false] at this
    unfold zeroPunct
    split
    · rfl
    · omega
  have hnow : s ≠ bytes "now" := by
    intro h
    have := hall 110 (by rw [h]; decide)
    simp at this
  obtain ⟨n, hn⟩ : ∃ n, s.length = n + 1 :=
    ⟨s.length - 1, by have := List.length_pos.mpr hne; omega⟩
  unfold ConvertTo ToString
  simp only [convertString, if_neg hnow]
  rw [Map_zeroPunct_ascii s hascii, hmap, hn, ParseInt_zeros n]
  simp

/-- Witness for C10: the skeleton 0000-00-00T00:00:00Z is the zero time. -/
theorem ConvertTo_time_zero_witness :
    ConvertTo sampleEnv .Time (.string (bytes "0000-00-00T00:00:00Z")) =
      .ret (.time Time.zero) none :=
  ConvertTo_time_zero sampleEnv (bytes "0000-00-00T00:00:00Z") (by decide) (by decide)

/-! ## Autotype on strings -/

/-- On a string, `ConvertTo` returns: it does not panic. -/
theorem ConvertTo_string_ret (env : Env) (t : ConvertType) (s : GoString) :
    ∃ w e, ConvertTo env t (.string s) = .ret w e := by
  unfold ConvertTo ToString
  simp only
  cases t <;> simp only [convertString] <;> (repeat' split) <;> exact ⟨_, _, rfl⟩

/-- C8: for every string `s`, `Autotype(s)` returns a value; when the
Boolean, Time, Integer and Float conversions of `s` all fail, that value is
`s` itself. -/
theorem Autotype_string (env : Env) (s : GoString) :
    ∃ v, Autotype env (.string s) = some v ∧
      ((∀ t ∈ [ConvertType.Boolean, ConvertType.Time, ConvertType.Integer, ConvertType.Float],
          ∃ w e, ConvertTo env t (.string s) = .ret w (some e)) →
        v = .string s) := by
  obtain ⟨w1, e1, h1⟩ := ConvertTo_string_ret env .Boolean s
  obtain ⟨w2, e2, h2⟩ := ConvertTo_string_ret env .Time s
  obtain ⟨w3, e3, h3⟩ := ConvertTo_string_ret env .Integer s
  obtain ⟨w4, e4, h4⟩ := ConvertTo_string_ret env .Float s
  have h5 : ConvertTo env .String (.string s) = .ret (.string s) none := rfl
  have hfail : ∀ (t : ConvertType) (w : Value),
      (∀ t ∈ [ConvertType.Boolean, ConvertType.Time, ConvertType.Integer, ConvertType.Float],
          ∃ w e, ConvertTo env t (.string s) = .ret w (some e)) →
      t ∈ [ConvertType.Boolean, ConvertType.Time, ConvertType.Integer, ConvertType.Float] →
      ConvertTo env t (.string s) = .ret w none → False := by
    intro t w hyp ht hw
    obtain ⟨w', e', h'⟩ := hyp t ht
    rw [hw] at h'
    cases h'
  unfold Autotype
  cases e1 with
  | none => exact ⟨w1, by simp [autotypeLoop, h1], fun hyp => (hfail _ w1 hyp (by simp) h1).elim⟩
  | some _ =>
    cases e2 with
    | none =>
      exact ⟨w2, by simp [autotypeLoop, h1, h2], fun hyp => (hfail _ w2 hyp (by simp) h2).elim⟩
    | some _ =>
      cases e3 with
      | none =>
        exact ⟨w3, by simp [autotypeLoop, h1, h2, h3],
          fun hyp => (hfail _ w3 hyp (by simp) h3).elim⟩
      | some _ =>
        cases e4 with
        | none =>
          exact ⟨w4, by simp [autotypeLoop, h1, h2, h3, h4],
            fun hyp => (hfail _ w4 hyp (by simp) h4).elim⟩
        | some _ =>
          exact ⟨.string s, by simp [autotypeLoop, h1, h2, h3, h4, h5], fun _ => rfl⟩

/-- Witness for C8: the string hello converts to no boolean, time, integer
or float, and `Autotype` returns it unchanged. -/
theorem Autotype_string_witness :
    Autotype sampleEnv (.string (bytes "hello")) = some (.string (bytes "hello")) := by
  obtain ⟨v, h1, h2⟩ := Autotype_string sampleEnv (bytes "hello")
  rw [h1, h2 ?_]
  intro t ht
  simp only [List.mem_cons, List.mem_singleton, List.not_mem_nil, or_false] at ht
  rcases ht with rfl | rfl | rfl | rfl
  · exact ⟨.nil, .notBoolean (bytes "hello"), by decide⟩
  · exact ⟨.nil, .notTime (bytes "hello"), by decide⟩
  · exact ⟨.int64 0, .num .ParseInt (bytes "hello") .ErrSyntax, by decide⟩
  · exact ⟨.float64 (.finite false 0 (-1074)), .num .ParseFloat (bytes "hello") .ErrSyntax,
      by decide⟩

/-! ## Autotype on integer numerals -/

/-- The digit loop accepts strings of digits only. -/
theorem parseUintLoop_ok_digits (cutoff maxVal : Nat) :
    ∀ (s : GoString) (a r : Nat), parseUintLoop cutoff maxVal s a = .ok r →
      s.all isDigit = true := by
  intro s
  induction s with
  | nil => intro _ _ _; rfl
  | cons c cs ih =>
    intro a r h
    unfold parseUintLoop at h
    simp only at h
    split_ifs at h with hc h1 h2
    simp only [List.all_cons, hc, Bool.true_and]
    exact ih _ _ h

/-- The three results of `ParseUint`. -/
theorem ParseUint_cases (s : GoString) :
    (∃ un, ParseUint s = (un, none) ∧ s ≠ [] ∧
        parseUintLoop ((2 ^ 64 - 1) / 10 + 1) (2 ^ 64 - 1) s 0 = .ok un) ∨
      ParseUint s = (0, some .ErrSyntax) ∨ ParseUint s = (2 ^ 64 - 1, some .ErrRange) := by
  unfold ParseUint
  by_cases h0 : s = []
  · simp [h0]
  · rw [if_neg h0]
    cases hl : parseUintLoop ((2 ^ 64 - 1) / 10 + 1) (2 ^ 64 - 1) s 0 with
    | ok n => left; exact ⟨n, rfl, h0, rfl⟩
    | error k => cases k <;> simp

/-- What a successful `ParseUint` says of its input. -/
theorem ParseUint_ok (s : GoString) (un : Nat) (h : ParseUint s = (un, none)) :
    s ≠ [] ∧ s.all isDigit = true ∧
      parseUintLoop ((2 ^ 64 - 1) / 10 + 1) (2 ^ 64 - 1) s 0 = .ok un := by
  rcases ParseUint_cases s with ⟨un', h1, h2, h3⟩ | h1 | h1
  · rw [h1] at h
    simp only [Prod.mk.injEq, and_true] at h
    subst h
    exact ⟨h2, parseUintLoop_ok_digits _ _ s 0 _ h3, h3⟩
  · rw [h1] at h; simp at h
  · rw [h1] at h; simp at h

/-- A leading zero does not change what `ParseUint` returns. -/
theorem ParseUint_zero_cons (s : GoString) (un : Nat) (h : ParseUint s = (un, none)) :
    ParseUint (48 :: s) = (un, none) := by
  obtain ⟨-, -, hl⟩ := ParseUint_ok s un h
  unfold ParseUint
  rw [if_neg (by simp)]
  unfold parseUintLoop
  simp only [show isDigit 48 = true by decide, if_true]
  rw [if_neg (by norm_num), if_neg (by norm_num)]
  simp only [Nat.zero_mul, Nat.sub_self, Nat.add_zero]
  rw [hl]

/-- What a successful `ParseInt` says of its input: an optional sign before
a string `ParseUint` accepts, within the signed range. -/
theorem ParseInt_ok (s : GoString) (n : Int) (h : ParseInt s = (n, none)) :
    ∃ (c : Nat) (cs : GoString) (un : Nat), s = c :: cs ∧
      ParseUint (if c = 43 ∨ c = 45 then cs else c :: cs) = (un, none) ∧
      n = (if c = 45 then -(un : Int) else (un : Int)) ∧ (c ≠ 45 → un < 2 ^ 63) := by
  cases s with
  | nil => simp [ParseInt] at h
  | cons c cs =>
    unfold ParseInt at h
    simp only at h
    rcases ParseUint_cases (if c = 43 ∨ c = 45 then cs else c :: cs) with
      ⟨un, h1, -, -⟩ | h1 | h1
    · rw [h1] at h
      simp only at h
      refine ⟨c, cs, un, rfl, h1, ?_, ?_⟩
      · by_cases hc : c = 45
        · subst hc
          simp only [beq_self_eq_true, Bool.not_true, Bool.false_and, Bool.false_eq_true,
            if_false, Bool.true_and, decide_eq_true_eq, if_true] at h
          split_ifs at h
          · simp at h
          · simp only [Prod.mk.injEq, and_true] at h
            simp [h]
        · have hb : (c == 45) = false := by simpa using hc
          simp only [hb, Bool.not_false, Bool.true_and, Bool.false_and, Bool.false_eq_true,
            if_false, decide_eq_true_eq] at h
          split_ifs at h
          · simp at h
          · simp only [Prod.mk.injEq, and_true] at h
            simp [hc, h]
      · intro hc
        have hb : (c == 45) = false := by simpa using hc
        simp only [hb, Bool.not_false, Bool.true_and, Bool.false_and, Bool.false_eq_true,
          if_false, decide_eq_true_eq] at h
        split_ifs at h with h63
        · simp at h
        · exact Nat.lt_of_not_le h63
    · rw [h1] at h
      simp at h
    · rw [h1] at h
      exfalso
      by_cases hc : c = 45
      · subst hc; simp at h
      · have hb : (c == 45) = false := by simpa using hc
        simp [hb] at h

/-- The bytes of a string `ParseInt` accepts are digits and signs. -/
theorem intNumeral_bytes (s : GoString) (n : Int) (h : ParseInt s = (n, none)) :
    ∀ b ∈ s, isDigit b = true ∨ b = 43 ∨ b = 45 := by
  obtain ⟨c, cs, un, rfl, hpu, -, -⟩ := ParseInt_ok s n h
  obtain ⟨-, hall, -⟩ := ParseUint_ok _ un hpu
  rw [List.all_eq_true] at hall
  intro b hb
  by_cases hc : c = 43 ∨ c = 45
  · rw [if_pos hc] at hall
    rcases List.mem_cons.mp hb with rfl | hb
    · right; exact hc
    · left; exact hall b hb
  · rw [if_neg hc] at hall
    left; exact hall b hb

/-- What the conversions see of a digit or sign. -/
theorem numeralByte_facts : ∀ b, b < 128 → (isDigit b = true ∨ b = 43 ∨ b = 45) →
    (if 65 ≤ b ∧ b ≤ 90 then b + 32 else b) = b ∧ b ≠ 58 ∧ b ≤ 57 := by
  decide

theorem numeralByte_lt (b : Nat) (h : isDigit b = true ∨ b = 43 ∨ b = 45) : b < 128 := by
  rcases h with h | h | h
  · exact isDigit_lt b h
  · omega
  · omega

/-- Lower-casing leaves an integer numeral as it is. -/
theorem ToLower_intNumeral (env : Env) (s : GoString)
    (hs : ∀ b ∈ s, isDigit b = true ∨ b = 43 ∨ b = 45) : ToLower env s = s := by
  unfold ToLower
  have hall : s.all (fun c => decide (c < 128)) = true := by
    rw [List.all_eq_true]
    intro b hb
    simpa using numeralByte_lt b (hs b hb)
  rw [if_pos hall]
  conv => rhs; rw [← List.map_id s]
  apply List.map_congr_left
  intro b hb
  exact (numeralByte_facts b (numeralByte_lt b (hs b hb)) (hs b hb)).1

/-- Every boolean literal, and the word now, holds a letter. -/
theorem words_have_letter :
    ∀ w ∈ bytes "now" :: (trueLiterals ++ falseLiterals), ∃ b ∈ w, 57 < b := by
  decide

/-- An integer numeral is none of the words. -/
theorem intNumeral_not_word (s : GoString)
    (hs : ∀ b ∈ s, isDigit b = true ∨ b = 43 ∨ b = 45) :
    s ∉ bytes "now" :: (trueLiterals ++ falseLiterals) := by
  intro h
  obtain ⟨b, hb, hgt⟩ := words_have_letter s h
  have := (numeralByte_facts b (numeralByte_lt b (hs b hb)) (hs b hb)).2.2
  omega

/-- The zero mapping leaves digits as they are. -/
theorem map_zeroPunct_digits (ds : GoString) (h : ds.all isDigit = true) :
    ds.map zeroPunct = ds := by
  conv => rhs; rw [← List.map_id ds]
  apply List.map_congr_left
  intro b hb
  have hd := List.all_eq_true.mp h b hb
  simp only [isDigit, Bool.and_eq_true, decide_eq_true_eq] at hd
  unfold zeroPunct
  rw [if_neg (by omega)]
  rfl

/-- The zero rule of the time conversion does not fire on a numeral of a
value other than zero. -/
theorem zeroRule_intNumeral (s : GoString) (n : Int) (h : ParseInt s = (n, none))
    (hn : n ≠ 0) : ParseInt (Map zeroPunct s) ≠ (0, none) := by
  have hb := intNumeral_bytes s n h
  rw [Map_zeroPunct_ascii s (fun c hc => numeralByte_lt c (hb c hc))]
  obtain ⟨c, cs, un, rfl, hpu, hval, hrange⟩ := ParseInt_ok s n h
  obtain ⟨-, hall, -⟩ := ParseUint_ok _ un hpu
  by_cases hc : c = 45
  · subst hc
    simp only [show ((45 : Nat) = 43 ∨ (45 : Nat) = 45) by decide, if_true] at hpu hall hval
    have hun : un ≠ 0 := by
      intro h0; subst h0; simp at hval; exact hn hval
    rw [List.map_cons, map_zeroPunct_digits cs hall, show zeroPunct 45 = 48 by decide]
    unfold ParseInt
    simp only [show ((48 : Nat) == 45) = false by decide,
      show ¬ ((48 : Nat) = 43 ∨ (48 : Nat) = 45) by decide, if_false,
      ParseUint_zero_cons cs un hpu]
    simp only [Bool.not_false, Bool.true_and, Bool.false_and, Bool.false_eq_true, if_false,
      decide_eq_true_eq]
    split_ifs
    · simp
    · simp only [ne_eq, Prod.mk.injEq, and_true]
      exact_mod_cast hun
  · have hmap : (c :: cs).map zeroPunct = c :: cs := by
      by_cases h43 : c = 43
      · subst h43
        simp only [show ((43 : Nat) = 43 ∨ (43 : Nat) = 45) by decide, if_true] at hall
        rw [List.map_cons, map_zeroPunct_digits cs hall]
        rfl
      · rw [if_neg (by simp [hc, h43])] at hall
        exact map_zeroPunct_digits _ hall
    rw [hmap, h]
    simp only [ne_eq, Prod.mk.injEq, and_true]
    exact hn

/-- The layout loop finds nothing when each layout rejects the value. -/
theorem parseLayouts_none (env : Env) (value : GoString) :
    ∀ layouts : List GoString, (∀ l ∈ layouts, env.timeParse l value = none) →
      parseLayouts env value layouts = none := by
  intro layouts
  induction layouts with
  | nil => intro _; rfl
  | cons l ls ih =>
    intro h
    unfold parseLayouts
    rw [h l (List.mem_cons_self _ _)]
    exact ih (fun l' hl' => h l' (List.mem_cons_of_mem _ hl'))

/-- Trimming an ASCII string keeps only bytes of the string. -/
theorem TrimSpace_subset (env : Env) (s : GoString) (hs : ∀ b ∈ s, b < 128) :
    ∀ b ∈ TrimSpace env s, b ∈ s := by
  unfold TrimSpace
  have hall : s.all (fun c => decide (c < 128)) = true := by
    rw [List.all_eq_true]
    intro b hb
    simpa using hs b hb
  rw [if_pos hall]
  intro b hb
  rw [List.mem_reverse] at hb
  have h1 := (List.dropWhile_sublist asciiSpace).subset hb
  rw [List.mem_reverse] at h1
  exact (List.dropWhile_sublist asciiSpace).subset h1

/-- C7 (as amended): for every string `s` that parses as a base-10 int64 `n`
other than zero, `Autotype(s)` returns `n` as an int64, given that no layout
of `DateConvertFormats` accepts a value without a colon. -/
theorem Autotype_integer (env : Env) (s : GoString) (n : Int)
    (hs : ParseInt s = (n, none)) (hn : n ≠ 0) (hlay : LayoutsNeedColon env) :
    Autotype env (.string s) = some (.int64 n) := by
  have hb := intNumeral_bytes s n hs
  have hword := intNumeral_not_word s hb
  simp only [List.mem_cons, List.mem_append, not_or] at hword
  obtain ⟨hnow, htrue, hfalse⟩ := hword
  have hlow := ToLower_intNumeral env s hb
  have ht : IsBooleanTrue env s = false := by
    rw [← Bool.not_eq_true, IsBooleanTrue_iff, hlow]; exact htrue
  have hf : IsBooleanFalse env s = false := by
    rw [← Bool.not_eq_true, IsBooleanFalse_iff, hlow]; exact hfalse
  have hzero := zeroRule_intNumeral s n hs hn
  have hcolon : (58 : Nat) ∉ TrimSpace env s := by
    intro h
    have hmem := TrimSpace_subset env s (fun c hc => numeralByte_lt c (hb c hc)) 58 h
    exact (numeralByte_facts 58 (by norm_num) (hb 58 hmem)).2.1 rfl
  have hlayouts : parseLayouts env (TrimSpace env s) DateConvertFormats = none := by
    apply parseLayouts_none
    intro l hl
    cases htp : env.timeParse l (TrimSpace env s) with
    | none => rfl
    | some t => exact absurd (hlay l hl _ t htp) hcolon
  unfold Autotype
  simp only [autotypeLoop, ConvertTo, ToString, convertString, ht, hf, Bool.false_eq_true,
    if_false, if_neg hnow, if_neg hzero, hlayouts, hs]

/-- The example `time.Parse` accepts no value without a colon. -/
theorem sampleEnv_layouts : LayoutsNeedColon sampleEnv := by
  intro layout _ value t h
  simp only [sampleEnv, sampleTimeParse] at h
  split_ifs at h
  split at h
  · simp
  · simp at h

/-- Witness for C7: the string -42 is the integer minus forty-two. -/
theorem Autotype_integer_witness :
    Autotype sampleEnv (.string (bytes "-42")) = some (.int64 (-42)) :=
  Autotype_integer sampleEnv (bytes "-42") (-42) (by decide) (by decide) sampleEnv_layouts

/-- C7 as stated fails at the string 0: it parses as the integer zero, and
`Autotype` returns the zero time, the Time candidate being tried first. -/
theorem Autotype_zero_is_time :
    ParseInt (bytes "0") = (0, none) ∧
      Autotype sampleEnv (.string (bytes "0")) = some (.time Time.zero) := by
  decide

/-! ## The prefix table -/

theorem siPrefixTable_eq : siPrefixTable =
    [ ([], 0), ([98], 0), ([66], 0), ([107], 1), ([75], 1), ([109], 2), ([77], 2),
      ([103], 3), ([71], 3), ([116], 4), ([84], 4), ([112], 5), ([80], 5),
      ([101], 6), ([69], 6), ([122], 7), ([90], 7), ([121], 8), ([89], 8) ] := by
  decide

/-- `GetSiPrefix` with its string constants written as bytes. -/
theorem GetSiPrefix_eq (input : GoString) : GetSiPrefix input =
    if input = [] ∨ input = [98] ∨ input = [66] then ((0 : Int), none)
    else if input = [107] ∨ input = [75] then ((1 : Int), none)
    else if input = [109] ∨ input = [77] then ((2 : Int), none)
    else if input = [103] ∨ input = [71] then ((3 : Int), none)
    else if input = [116] ∨ input = [84] then ((4 : Int), none)
    else if input = [112] ∨ input = [80] then ((5 : Int), none)
    else if input = [101] ∨ input = [69] then ((6 : Int), none)
    else if input = [122] ∨ input = [90] then ((7 : Int), none)
    else if input = [121] ∨ input = [89] then ((8 : Int), none)
    else ((0 : Int), some (.unrecognizedUnit input)) := rfl

/-- C13: `GetSiPrefix` returns the prefix the table gives for the nineteen
unit strings, with no error, and for every other input `None` with the error
"Unrecognized SI unit"; it returns `None` with no error exactly for the empty
string, b and B. -/
theorem GetSiPrefix_table (input : GoString) :
    GetSiPrefix input =
        (match siPrefixTable.lookup input with
        | some p => (p, none)
        | none => (SiPrefix.None, some (.unrecognizedUnit input))) ∧
      (GetSiPrefix input = (SiPrefix.None, none) ↔
        input = [] ∨ input = bytes "b" ∨ input = bytes "B") := by
  have hb : bytes "b" = [98] := by decide
  have hB : bytes "B" = [66] := by decide
  rw [GetSiPrefix_eq, siPrefixTable_eq, hb, hB]
  simp only [SiPrefix.None]
  by_cases h0 : input = []
  · subst h0; simp [List.lookup]
  by_cases h1 : input = [98]
  · subst h1; simp [List.lookup]
  by_cases h2 : input = [66]
  · subst h2; simp [List.lookup]
  by_cases h3 : input = [107]
  · subst h3; simp [List.lookup]
  by_cases h4 : input = [75]
  · subst h4; simp [List.lookup]
  by_cases h5 : input = [109]
  · subst h5; simp [List.lookup]
  by_cases h6 : input = [77]
  · subst h6; simp [List.lookup]
  by_cases h7 : input = [103]
  · subst h7; simp [List.lookup]
  by_cases h8 : input = [71]
  · subst h8; simp [List.lookup]
  by_cases h9 : input = [116]
  · subst h9; simp [List.lookup]
  by_cases h10 : input = [84]
  · subst h10; simp [List.lookup]
  by_cases h11 : input = [112]
  · subst h11; simp [List.lookup]
  by_cases h12 : input = [80]
  · subst h12; simp [List.lookup]
  by_cases h13 : input = [101]
  · subst h13; simp [List.lookup]
  by_cases h14 : input = [69]
  · subst h14; simp [List.lookup]
  by_cases h15 : input = [122]
  · subst h15; simp [List.lookup]
  by_cases h16 : input = [90]
  · subst h16; simp [List.lookup]
  by_cases h17 : input = [121]
  · subst h17; simp [List.lookup]
  by_cases h18 : input = [89]
  · subst h18; simp [List.lookup]
  have hne : ∀ l : GoString, input ≠ l → (input == l) = false := fun l h => by simpa using h
  simp [List.lookup, h0, h1, h2, h3, h4, h5, h6, h7, h8, h9, h10, h11, h12, h13, h14, h15,
    h16, h17, h18, hne]

/-- C14: the nine prefixes and their tags correspond one to one: each prefix
is recovered from its tag, each of the sixteen prefix letters maps to the
prefix whose tag is the letter in upper case, and distinct prefixes have
distinct tags. -/
theorem SiPrefix_bijection :
    (∀ p : Fin 9, GetSiPrefix (SiPrefix.String ((p.val : Nat) : Int)) =
        (((p.val : Nat) : Int), none)) ∧
      (∀ (i : Fin 8) (up : Bool),
        SiPrefix.String (GetSiPrefix [prefixLetter i up]).1 = [prefixLetter i true] ∧
          (GetSiPrefix [prefixLetter i up]).2 = none) ∧
      (∀ p q : Fin 9, SiPrefix.String ((p.val : Nat) : Int) =
        SiPrefix.String ((q.val : Nat) : Int) → p = q) := by
  decide

/-! ## String conversion, the clock, separators -/

/-- C15: when `ConvertTo(String, x)` succeeds with result `r`, then
`ConvertTo(String, r)` succeeds and returns `r`; and `ConvertTo(String, s)`
returns `s` for every string `s`. -/
theorem ConvertTo_string_idempotent (env : Env) (x r : Value)
    (h : ConvertTo env .String x = .ret r none) :
    ConvertTo env .String r = .ret r none ∧
      ∀ s, ConvertTo env .String (.string s) = .ret (.string s) none := by
  refine ⟨?_, fun s => rfl⟩
  unfold ConvertTo at h
  split at h
  · rename_i s hs
    simp only [convertString, Res.ret.injEq, and_true] at h
    subst h
    rfl
  · simp at h
  · simp at h

/-- Witness for C15: the integer 42 converts to the string 42, which
converts to itself. -/
theorem ConvertTo_string_idempotent_witness :
    ConvertTo sampleEnv .String (.string (bytes "42")) = .ret (.string (bytes "42")) none :=
  (ConvertTo_string_idempotent sampleEnv (.int 42) (.string (bytes "42")) (by decide)).1

/-- Rendering a value does not read the clock. -/
theorem ToString_atInstant (env : Env) (t : Time) (v : Value) :
    ToString (env.atInstant t) v = ToString env v := by
  cases v <;> rfl

/-- The layout loop does not read the clock. -/
theorem parseLayouts_atInstant (env : Env) (t : Time) (value : GoString) :
    ∀ layouts, parseLayouts (env.atInstant t) value layouts = parseLayouts env value layouts := by
  intro layouts
  induction layouts with
  | nil => rfl
  | cons l ls ih =>
    unfold parseLayouts
    rw [ih]
    rfl

/-- A conversion other than the time conversion of the word now does not
read the clock. -/
theorem convertString_atInstant (env : Env) (t : Time) (ty : ConvertType) (s : GoString)
    (h : ty ≠ .Time ∨ s ≠ bytes "now") :
    convertString (env.atInstant t) ty s = convertString env ty s := by
  cases ty with
  | Time =>
    have hs : s ≠ bytes "now" := by
      rcases h with h | h
      · exact absurd rfl h
      · exact h
    simp only [convertString, if_neg hs]
    have ht : TrimSpace (env.atInstant t) s = TrimSpace env s := rfl
    rw [ht, parseLayouts_atInstant]
  | _ => rfl

/-- C16 as stated fails: two calls of `ConvertTo(Time)` on the word now, and
two calls of `Autotype` on it, at different instants return different
results. -/
theorem ConvertTo_now_reads_clock :
    ConvertTo sampleEnv .Time (.string (bytes "now")) ≠
        ConvertTo (sampleEnv.atInstant Time.zero) .Time (.string (bytes "now")) ∧
      Autotype sampleEnv (.string (bytes "now")) ≠
        Autotype (sampleEnv.atInstant Time.zero) (.string (bytes "now")) := by
  decide

/-- C16 (as amended): for every target type and input other than the time
conversion of an input whose string form is the word now, `ConvertTo`
returns the same result at every instant; so does `Autotype` on every input
whose string form is not the word now. -/
theorem ConvertTo_pure (env : Env) (t : Time) (ty : ConvertType) (v : Value)
    (h : ty ≠ .Time ∨ ToString env v ≠ .ret (bytes "now") none) :
    ConvertTo (env.atInstant t) ty v = ConvertTo env ty v ∧
      (ToString env v ≠ .ret (bytes "now") none →
        Autotype (env.atInstant t) v = Autotype env v) := by
  have hconv : ∀ ty', (ty' ≠ .Time ∨ ToString env v ≠ .ret (bytes "now") none) →
      ConvertTo (env.atInstant t) ty' v = ConvertTo env ty' v := by
    intro ty' h'
    unfold ConvertTo
    rw [ToString_atInstant]
    split
    · rename_i s hs
      apply convertString_atInstant
      rcases h' with h' | h'
      · exact Or.inl h'
      · right
        intro hnow
        rw [hs, hnow] at h'
        exact h' rfl
    · rfl
    · rfl
  refine ⟨hconv ty h, ?_⟩
  intro hv
  unfold Autotype
  simp only [autotypeLoop, hconv _ (Or.inr hv)]

/-- Witness for C16: the time conversion of a date does not read the clock. -/
theorem ConvertTo_pure_witness :
    ConvertTo (sampleEnv.atInstant Time.zero) .Time (.string (bytes "2016-02-29 10:00:00")) =
      ConvertTo sampleEnv .Time (.string (bytes "2016-02-29 10:00:00")) :=
  (ConvertTo_pure sampleEnv Time.zero .Time (.string (bytes "2016-02-29 10:00:00"))
    (Or.inr (by decide))).1

/-- ASCII letters and digits are no separators. -/
theorem IsSeparator_alnum (env : Env) (r : Int)
    (h : (48 ≤ r ∧ r ≤ 57) ∨ (65 ≤ r ∧ r ≤ 90) ∨ (97 ≤ r ∧ r ≤ 122)) :
    IsSeparator env r = false := by
  unfold IsSeparator
  have h7 : r ≤ 0x7F := by omega
  rw [if_pos h7]
  split_ifs <;> first | rfl | omega

/-- C18 as stated fails at the underscore: it passes none of the three range
tests of the ASCII branch, and `IsSeparator` returns true for it. -/
theorem IsSeparator_underscore : IsSeparator sampleEnv 95 = true := by
  decide

/-- C18 (as amended): for a rune up to 0x7F, `IsSeparator` returns false
exactly when the rune is an ASCII digit or an ASCII letter; for every other
such rune, the underscore among them, it returns true. -/
theorem IsSeparator_ascii (env : Env) (r : Int) (h : r ≤ 0x7F) :
    (IsSeparator env r = false ↔
        (48 ≤ r ∧ r ≤ 57) ∨ (65 ≤ r ∧ r ≤ 90) ∨ (97 ≤ r ∧ r ≤ 122)) ∧
      (IsSeparator env r = true ↔
        ¬ ((48 ≤ r ∧ r ≤ 57) ∨ (65 ≤ r ∧ r ≤ 90) ∨ (97 ≤ r ∧ r ≤ 122))) := by
  unfold IsSeparator
  rw [if_pos h]
  constructor
  · split_ifs <;> simp <;> omega
  · split_ifs <;> simp <;> omega

/-- Witness for C18: the letter A is no separator, the hyphen is one. -/
theorem IsSeparator_ascii_witness :
    IsSeparator sampleEnv 65 = false ∧ IsSeparator sampleEnv 45 = true :=
  ⟨(IsSeparator_ascii sampleEnv 65 (by decide)).1.mpr (by decide),
    (IsSeparator_ascii sampleEnv 45 (by decide)).2.mpr (by decide)⟩

/-! ## Integer coercion through the decimal string -/

/-- The digits are written in front of the accumulator. -/
theorem formatDigits_append : ∀ (fuel n : Nat) (acc : GoString),
    formatDigits fuel n acc = formatDigits fuel n [] ++ acc := by
  intro fuel
  induction fuel with
  | zero => intro n acc; rfl
  | succ fuel ih =>
    intro n acc
    unfold formatDigits
    split_ifs
    · rfl
    · rw [ih (n / 10) ((48 + n % 10) :: acc), ih (n / 10) [48 + n % 10]]
      simp

/-- Reading back the digits of `n` leaves the digit loop at `n`. -/
theorem parseUintLoop_formatDigits (maxVal : Nat) : ∀ (fuel n : Nat) (rest : GoString),
    n < fuel → n ≤ maxVal →
      parseUintLoop (maxVal / 10 + 1) maxVal (formatDigits fuel n [] ++ rest) 0 =
        parseUintLoop (maxVal / 10 + 1) maxVal rest n := by
  intro fuel
  induction fuel with
  | zero => intro n rest h; omega
  | succ fuel ih =>
    intro n rest hf hm
    unfold formatDigits
    split_ifs with h10
    · have hd : isDigit (48 + n) = true := by
        simp only [isDigit, Bool.and_eq_true, decide_eq_true_eq]; omega
      have e : 0 * 10 + (48 + n - 48) = n := by omega
      simp only [List.singleton_append]
      rw [parseUintLoop]
      simp only [hd, if_true, e]
      rw [if_neg (by omega), if_neg (by omega)]
    · rw [formatDigits_append, List.append_assoc, ih (n / 10) _ (by omega) (by omega)]
      have hd : isDigit (48 + n % 10) = true := by
        simp only [isDigit, Bool.and_eq_true, decide_eq_true_eq]; omega
      have e : n / 10 * 10 + (48 + n % 10 - 48) = n := by omega
      simp only [List.singleton_append]
      rw [parseUintLoop]
      simp only [hd, if_true, e]
      rw [if_neg (by omega), if_neg (by omega)]

/-- The decimal string of a number is not empty. -/
theorem FormatUint_ne_nil (n : Nat) : FormatUint n ≠ [] := by
  unfold FormatUint formatDigits
  split_ifs
  · simp
  · rw [formatDigits_append]
    simp

/-- `ParseUint` reads back what `FormatUint` wrote. -/
theorem ParseUint_FormatUint (n : Nat) (h : n < 2 ^ 64) : ParseUint (FormatUint n) = (n, none) := by
  unfold ParseUint
  rw [if_neg (FormatUint_ne_nil n)]
  have := parseUintLoop_formatDigits (2 ^ 64 - 1) (n + 1) n [] (by omega) (by omega)
  rw [List.append_nil] at this
  unfold FormatUint
  rw [this]
  rfl

/-- `ParseInt` on the decimal string of an unsigned number. -/
theorem ParseInt_FormatUint (n : Nat) (h : n < 2 ^ 64) :
    ParseInt (FormatUint n) =
      if 2 ^ 63 ≤ n then (2 ^ 63 - 1, some .ErrRange) else ((n : Int), none) := by
  have hpu := ParseUint_FormatUint n h
  obtain ⟨hne, hall, -⟩ := ParseUint_ok _ n hpu
  cases hs : FormatUint n with
  | nil => exact absurd hs hne
  | cons c cs =>
    rw [hs] at hpu hall
    simp only [List.all_cons, Bool.and_eq_true] at hall
    obtain ⟨-, -, -, ⟨f1, f2, -, -⟩, -⟩ := digit_facts c (isDigit_lt c hall.1) hall.1
    unfold ParseInt
    have hb : (c == 45) = false := by simpa using f2
    simp only [hb, if_neg (show ¬ (c = 43 ∨ c = 45) by simp [f1, f2]), hpu, Bool.not_false,
      Bool.true_and, Bool.false_and, Bool.false_eq_true, if_false, decide_eq_true_eq]

/-- `ParseInt` reads back what `FormatInt` wrote of an int64. -/
theorem ParseInt_FormatInt (n : Int) (h1 : -2 ^ 63 ≤ n) (h2 : n < 2 ^ 63) :
    ParseInt (FormatInt n) = (n, none) := by
  unfold FormatInt
  split_ifs with hneg
  · have hu : n.natAbs ≤ 2 ^ 63 := by omega
    have hpu := ParseUint_FormatUint n.natAbs (by omega)
    have hlt : ¬ 2 ^ 63 < n.natAbs := by omega
    simp only [ParseInt, beq_self_eq_true, or_true, if_true, hpu, Bool.not_true,
      Bool.false_and, Bool.false_eq_true, if_false, Bool.true_and, decide_eq_true_eq, hlt,
      Prod.mk.injEq, and_true]
    omega
  · rw [ParseInt_FormatUint n.natAbs (by omega), if_neg (by omega)]
    simp only [Prod.mk.injEq, and_true]
    omega

/-- C19: `ConvertToInteger` returns a signed integer of any width, and an
unsigned integer up to 2^63 - 1 of any width, unchanged as an int64 with no
error; on a uint64 above 2^63 - 1 it returns 0 with an error. -/
theorem ConvertToInteger_roundtrip (env : Env) (n : Int) (u w : Nat)
    (h1 : -2 ^ 63 ≤ n) (h2 : n < 2 ^ 63) (hu : u < 2 ^ 63)
    (hw1 : 2 ^ 63 ≤ w) (hw2 : w < 2 ^ 64) :
    (∀ v ∈ [Value.int n, .int8 n, .int16 n, .int32 n, .int64 n],
        ConvertToInteger env v = .ret n none) ∧
      (∀ v ∈ [Value.uint u, .uint8 u, .uint16 u, .uint32 u, .uint64 u],
        ConvertToInteger env v = .ret (u : Int) none) ∧
      ConvertToInteger env (.uint64 w) =
        .ret 0 (some (.num .ParseInt (FormatUint w) .ErrRange)) := by
  have hs := ParseInt_FormatInt n h1 h2
  have hu' : ParseInt (FormatUint u) = ((u : Int), none) := by
    rw [ParseInt_FormatUint u (by omega), if_neg (by omega)]
  have hw' : ParseInt (FormatUint w) = (2 ^ 63 - 1, some .ErrRange) := by
    rw [ParseInt_FormatUint w hw2, if_pos hw1]
  refine ⟨?_, ?_, ?_⟩
  · intro v hv
    simp only [List.mem_cons, List.mem_singleton, List.not_mem_nil, or_false] at hv
    rcases hv with rfl | rfl | rfl | rfl | rfl <;>
      simp [ConvertToInteger, ConvertTo, ToString, convertString, hs]
  · intro v hv
    simp only [List.mem_cons, List.mem_singleton, List.not_mem_nil, or_false] at hv
    rcases hv with rfl | rfl | rfl | rfl | rfl <;>
      simp [ConvertToInteger, ConvertTo, ToString, convertString, hu']
  · simp [ConvertToInteger, ConvertTo, ToString, convertString, hw']

/-- Witness for C19: the least int64, the value 255 and the uint64 value 2^63. -/
theorem ConvertToInteger_roundtrip_witness :
    ConvertToInteger sampleEnv (.int64 (-9223372036854775808)) =
        .ret (-9223372036854775808) none ∧
      ConvertToInteger sampleEnv (.uint8 255) = .ret 255 none ∧
      ConvertToInteger sampleEnv (.uint64 9223372036854775808) =
        .ret 0 (some (.num .ParseInt (FormatUint 9223372036854775808) .ErrRange)) :=
  have h := ConvertToInteger_roundtrip sampleEnv (-9223372036854775808) 255
    9223372036854775808 (by decide) (by decide) (by decide) (by decide) (by decide)
  ⟨h.1 _ (by simp), h.2.1 _ (by simp), h.2.2⟩

/-! ## Underscore -/

/-- Every byte the run replacement writes is an underscore or a byte of the
input outside the class. -/
theorem replaceSpaceRuns_mem : ∀ (s : GoString) (inRun : Bool) (b : Nat),
    b ∈ replaceSpaceRuns inRun s → b = 95 ∨ (b ∈ s ∧ rxSpaceClass b = false) := by
  intro s
  induction s with
  | nil => intro inRun b h; simp [replaceSpaceRuns] at h
  | cons c cs ih =>
    intro inRun b h
    unfold replaceSpaceRuns at h
    split_ifs at h with hc hr
    · rcases ih true b h with h | ⟨h1, h2⟩
      · exact Or.inl h
      · exact Or.inr ⟨List.mem_cons_of_mem _ h1, h2⟩
    · rcases List.mem_cons.mp h with h | h
      · exact Or.inl h
      · rcases ih true b h with h | ⟨h1, h2⟩
        · exact Or.inl h
        · exact Or.inr ⟨List.mem_cons_of_mem _ h1, h2⟩
    · rcases List.mem_cons.mp h with h | h
      · subst h
        exact Or.inr ⟨List.mem_cons_self _ _, by simpa using hc⟩
      · rcases ih false b h with h | ⟨h1, h2⟩
        · exact Or.inl h
        · exact Or.inr ⟨List.mem_cons_of_mem _ h1, h2⟩

/-- A string with no byte of the class is left as it is. -/
theorem replaceSpaceRuns_id : ∀ (s : GoString), (∀ c ∈ s, rxSpaceClass c = false) →
    replaceSpaceRuns false s = s := by
  intro s
  induction s with
  | nil => intro _; rfl
  | cons c cs ih =>
    intro h
    unfold replaceSpaceRuns
    rw [if_neg (by simp [h c (List.mem_cons_self _ _)])]
    rw [ih (fun x hx => h x (List.mem_cons_of_mem _ hx))]

/-- The code points of an ASCII string are its bytes. -/
theorem toRunes_ascii : ∀ (fuel : Nat) (s : GoString), s.length ≤ fuel → (∀ c ∈ s, c < 128) →
    toRunes fuel s = s := by
  intro fuel
  induction fuel with
  | zero =>
    intro s hl _
    have : s = [] := List.length_eq_zero.mp (by omega)
    subst this
    rfl
  | succ fuel ih =>
    intro s hl hs
    cases s with
    | nil => rfl
    | cons c t =>
      have hc : c < 128 := hs c (List.mem_cons_self _ _)
      have hd : decodeRune (c :: t) = (c, 1) := by simp [decodeRune, hc]
      simp only [toRunes, hd, List.drop_one, List.tail_cons]
      rw [ih t (by simpa using hl) (fun x hx => hs x (List.mem_cons_of_mem _ hx))]

/-- The bytes of a list of ASCII code points are the code points. -/
theorem flatMap_utf8_ascii : ∀ (l : List Nat), (∀ c ∈ l, c < 128) →
    l.flatMap utf8EncodeRune = l := by
  intro l
  induction l with
  | nil => intro _; rfl
  | cons c t ih =>
    intro h
    rw [List.flatMap_cons, utf8EncodeRune_ascii c (h c (List.mem_cons_self _ _)),
      ih (fun x hx => h x (List.mem_cons_of_mem _ hx))]
    rfl

/-- Every code point the loop writes is an underscore or a code point of the
input, lower-cased when it is upper case. -/
theorem underscoreRunes_mem (env : Env) : ∀ (runes : List Nat) (prev : Option Nat) (o : Nat),
    o ∈ underscoreRunes env prev runes →
      o = 95 ∨ ∃ r ∈ runes, o = if IsUpper env r then ToLowerRune env r else r := by
  intro runes
  induction runes with
  | nil => intro prev o h; simp [underscoreRunes] at h
  | cons r rest ih =>
    intro prev o h
    have step : o ∈ underscoreRunes env (some r) rest →
        o = 95 ∨ ∃ r' ∈ r :: rest, o = if IsUpper env r' then ToLowerRune env r' else r' := by
      intro h'
      rcases ih (some r) o h' with h1 | ⟨r', hr', h1⟩
      · exact Or.inl h1
      · exact Or.inr ⟨r', List.mem_cons_of_mem _ hr', h1⟩
    unfold underscoreRunes at h
    simp only at h
    split_ifs at h with hup hsep
    · rcases List.mem_cons.mp h with h | h
      · exact Or.inl h
      · rcases List.mem_cons.mp h with h | h
        · exact Or.inr ⟨r, List.mem_cons_self _ _, by rw [if_pos hup]; exact h⟩
        · exact step h
    · rcases List.mem_cons.mp h with h | h
      · exact Or.inr ⟨r, List.mem_cons_self _ _, by rw [if_pos hup]; exact h⟩
      · exact step h
    · rcases List.mem_cons.mp h with h | h
      · exact Or.inr ⟨r, List.mem_cons_self _ _, by rw [if_neg hup]; exact h⟩
      · exact step h

/-- The loop leaves a list without upper-case code points as it is. -/
theorem underscoreRunes_id (env : Env) : ∀ (runes : List Nat) (prev : Option Nat),
    (∀ r ∈ runes, IsUpper env r = false) → underscoreRunes env prev runes = runes := by
  intro runes
  induction runes with
  | nil => intro _ _; rfl
  | cons r rest ih =>
    intro prev h
    unfold underscoreRunes
    simp only [h r (List.mem_cons_self _ _), Bool.false_eq_true, if_false]
    rw [ih (some r) (fun x hx => h x (List.mem_cons_of_mem _ hx))]

/-- What the loop makes of an ASCII code point. -/
theorem lowered_ascii (env : Env) : ∀ r, r < 128 →
    (if IsUpper env r then ToLowerRune env r else r) < 128 ∧
      ¬ (65 ≤ (if IsUpper env r then ToLowerRune env r else r) ∧
        (if IsUpper env r then ToLowerRune env r else r) ≤ 90) ∧
      (rxSpaceClass r = false →
        (if IsUpper env r then ToLowerRune env r else r) ≠ 32 ∧
          (if IsUpper env r then ToLowerRune env r else r) ≠ 45) := by
  intro r hr
  simp only [IsUpper, ToLowerRune, if_pos hr, rxSpaceClass, Bool.and_eq_true, Bool.or_eq_false_iff,
    decide_eq_true_eq, beq_eq_false_iff_ne, ne_eq]
  split_ifs <;> omega

/-- On an ASCII string `Underscore` is the loop over the bytes of the string
with its runs replaced. -/
theorem Underscore_ascii (env : Env) (s : GoString) (hs : ∀ c ∈ s, c < 128) :
    Underscore env s = underscoreRunes env none (replaceSpaceRuns false s) := by
  have h1 : ∀ c ∈ replaceSpaceRuns false s, c < 128 := by
    intro c hc
    rcases replaceSpaceRuns_mem s false c hc with h | ⟨h, -⟩
    · subst h; norm_num
    · exact hs c h
  have hout : ∀ o ∈ underscoreRunes env none (replaceSpaceRuns false s), o < 128 := by
    intro o ho
    rcases underscoreRunes_mem env _ none o ho with h | ⟨r, hr, h⟩
    · subst h; norm_num
    · rw [h]; exact (lowered_ascii env r (h1 r hr)).1
  unfold Underscore
  simp only
  rw [toRunes_ascii _ _ (le_refl _) h1, flatMap_utf8_ascii _ hout]

/-- Without its underscores, the string with its runs replaced is the input
without its underscores and the bytes of the class. -/
theorem replaceSpaceRuns_filter : ∀ (s : GoString) (inRun : Bool),
    (replaceSpaceRuns inRun s).filter (fun c => c != 95) =
      s.filter (fun c => !rxSpaceClass c && c != 95) := by
  intro s
  induction s with
  | nil => intro _; rfl
  | cons c cs ih =>
    intro inRun
    unfold replaceSpaceRuns
    by_cases hc : rxSpaceClass c = true
    · simp only [hc, if_true]
      cases inRun
      · simp [List.filter_cons, hc, ih]
      · simp [List.filter_cons, hc, ih]
    · simp only [hc, Bool.false_eq_true, if_false]
      simp [List.filter_cons, hc, ih]

/-- Without the underscores, the loop writes the code points of its input in
lower case. -/
theorem underscoreRunes_filter (env : Env) : ∀ (runes : List Nat) (prev : Option Nat),
    (∀ r ∈ runes, r < 128) →
    (underscoreRunes env prev runes).filter (fun c => c != 95) =
      (runes.filter (fun c => c != 95)).map asciiLower := by
  intro runes
  induction runes with
  | nil => intro _ _; rfl
  | cons r rest ih =>
    intro prev h
    have hr : r < 128 := h r (List.mem_cons_self _ _)
    have ih2 := ih (some r) (fun x hx => h x (List.mem_cons_of_mem _ hx))
    unfold underscoreRunes
    simp only [IsUpper, ToLowerRune, if_pos hr, Bool.and_eq_true, decide_eq_true_eq]
    by_cases hup : 65 ≤ r ∧ r ≤ 90
    · have h95 : (r != 95) = true := by simp; omega
      have h95b : (r + 32 != 95) = true := by simp; omega
      have hl : asciiLower r = r + 32 := by simp [asciiLower, hup]
      simp only [hup, and_self, if_true]
      split_ifs <;> simp [List.filter_cons, h95, h95b, hl, ih2]
    · have hl : asciiLower r = r := by simp [asciiLower, hup]
      simp only [hup, if_false]
      by_cases h95 : r = 95
      · subst h95
        simp [List.filter_cons, ih2]
      · have : (r != 95) = true := by simpa using h95
        simp [List.filter_cons, this, hl, ih2]

/-- One step of the run replacement. -/
theorem replaceSpaceRuns_cons (inRun : Bool) (c : Nat) (cs : GoString) :
    replaceSpaceRuns inRun (c :: cs) =
      if rxSpaceClass c then
        if inRun then replaceSpaceRuns true cs else 95 :: replaceSpaceRuns true cs
      else c :: replaceSpaceRuns false cs := by
  rw [replaceSpaceRuns]

/-- After a byte outside the class the run replacement starts afresh. -/
theorem replaceSpaceRuns_append : ∀ (a rest : GoString) (inRun : Bool), a ≠ [] →
    (∀ c, a.getLast? = some c → rxSpaceClass c = false) →
    replaceSpaceRuns inRun (a ++ rest) = replaceSpaceRuns inRun a ++ replaceSpaceRuns false rest := by
  intro a
  induction a with
  | nil => intro _ _ h; exact absurd rfl h
  | cons c t ih =>
    intro rest inRun _ hlast
    cases t with
    | nil =>
      have hc : rxSpaceClass c = false := hlast c rfl
      simp [replaceSpaceRuns, hc]
    | cons d u =>
      have hl : ∀ x, (d :: u).getLast? = some x → rxSpaceClass x = false := by
        intro x hx
        apply hlast x
        rw [List.getLast?_cons_cons]
        exact hx
      have ih2 := fun b => ih rest b (by simp) hl
      rw [List.cons_append, replaceSpaceRuns_cons, replaceSpaceRuns_cons inRun c (d :: u)]
      split_ifs
      · exact ih2 true
      · rw [ih2]; rfl
      · rw [ih2]; rfl

/-- Inside a run the further bytes of the class write nothing. -/
theorem replaceSpaceRuns_run : ∀ (run b : GoString), (∀ c ∈ run, rxSpaceClass c = true) →
    replaceSpaceRuns true (run ++ b) = replaceSpaceRuns true b := by
  intro run
  induction run with
  | nil => intro _ _; rfl
  | cons c t ih =>
    intro b h
    rw [List.cons_append, replaceSpaceRuns]
    simp only [h c (List.mem_cons_self _ _), if_true]
    exact ih b (fun x hx => h x (List.mem_cons_of_mem _ hx))

/-- A run of the class between two bytes outside it is replaced like one
underscore. -/
theorem replaceSpaceRuns_one (a run b : GoString) (hne : run ≠ [])
    (hrun : ∀ c ∈ run, rxSpaceClass c = true)
    (ha : ∀ c, a.getLast? = some c → rxSpaceClass c = false)
    (hb : ∀ c, b.head? = some c → rxSpaceClass c = false) :
    replaceSpaceRuns false (a ++ run ++ b) = replaceSpaceRuns false (a ++ 95 :: b) := by
  have hstart : ∀ inRun, replaceSpaceRuns inRun b = replaceSpaceRuns false b := by
    intro inRun
    cases b with
    | nil => rfl
    | cons d u =>
      have := hb d rfl
      simp [replaceSpaceRuns, this]
  have hmid : replaceSpaceRuns false (run ++ b) = replaceSpaceRuns false (95 :: b) := by
    cases run with
    | nil => exact absurd rfl hne
    | cons c t =>
      rw [List.cons_append, replaceSpaceRuns]
      simp only [hrun c (List.mem_cons_self _ _), if_true, Bool.false_eq_true, if_false]
      rw [replaceSpaceRuns_run t b (fun x hx => hrun x (List.mem_cons_of_mem _ hx)), hstart true]
      simp [replaceSpaceRuns, rxSpaceClass]
  by_cases hnil : a = []
  · subst hnil
    simpa using hmid
  · rw [List.append_assoc, replaceSpaceRuns_append a _ false hnil ha,
      replaceSpaceRuns_append a _ false hnil ha, hmid]

/-- One step of the loop of `Underscore`. -/
theorem underscoreRunes_cons (env : Env) (prev : Option Nat) (r : Nat) (rest : List Nat) :
    underscoreRunes env prev (r :: rest) =
      if IsUpper env r then
        if ((match prev with
            | some p => p != 95
            | none => false) &&
          ((match prev with
            | some p => IsLower env p
            | none => false) ||
           (match rest with
            | n :: _ => IsLower env n
            | [] => false))) = true then
          95 :: ToLowerRune env r :: underscoreRunes env (some r) rest
        else ToLowerRune env r :: underscoreRunes env (some r) rest
      else r :: underscoreRunes env (some r) rest := by
  rw [underscoreRunes.eq_def]

/-- The bytes around the end of a prefix. -/
theorem around_index (pre rest : GoString) (r : Nat) :
    (pre ++ r :: rest)[pre.length]? = some r ∧
      (if pre.length = 0 then none else (pre ++ r :: rest)[pre.length - 1]?) = pre.getLast? ∧
      (pre ++ r :: rest)[pre.length + 1]? = rest.head? := by
  refine ⟨?_, ?_, ?_⟩
  · rw [List.getElem?_append_right (le_refl _)]
    simp
  · by_cases h : pre = []
    · subst h; rfl
    · have hl : 0 < pre.length := List.length_pos.mpr h
      rw [if_neg (by omega), List.getElem?_append_left (by omega), List.getLast?_eq_getElem?]
  · rw [List.getElem?_append_right (by omega)]
    have : pre.length + 1 - pre.length = 1 := by omega
    rw [this]
    cases rest <;> simp

/-- The loop writes, for each code point of an ASCII list, what `snakeAt`
says of its index. -/
theorem underscoreRunes_at (env : Env) : ∀ (rest pre : GoString),
    (∀ c ∈ pre ++ rest, c < 128) →
    underscoreRunes env pre.getLast? rest =
      (List.range rest.length).flatMap (fun i => snakeAt (pre ++ rest) (pre.length + i)) := by
  intro rest
  induction rest with
  | nil => intro pre _; rfl
  | cons r rest ih =>
    intro pre h
    have hr : r < 128 := h r (by simp)
    have ih2 := ih (pre ++ [r]) (by simpa using h)
    have hlast : (pre ++ [r]).getLast? = some r := by simp
    rw [hlast] at ih2
    simp only [List.append_assoc, List.singleton_append, List.length_append,
      List.length_singleton] at ih2
    obtain ⟨i0, i1, i2⟩ := around_index pre rest r
    have hhead : snakeAt (pre ++ r :: rest) (pre.length + 0) ++ underscoreRunes env (some r) rest =
        underscoreRunes env pre.getLast? (r :: rest) := by
      rw [underscoreRunes_cons]
      unfold snakeAt
      simp only [add_zero, i0, i1, i2, IsUpper, ToLowerRune, if_pos hr, Bool.and_eq_true,
        decide_eq_true_eq]
      by_cases hup : 65 ≤ r ∧ r ≤ 90
      · simp only [hup, and_self, if_true, Bool.and_eq_true, decide_eq_true_eq, decide_True,
          Bool.and_self]
        cases hp : pre.getLast? with
        | none => simp
        | some p =>
          have hp128 : p < 128 := h p (by simp [List.mem_of_mem_getLast? hp])
          cases hn : rest.head? with
          | none =>
            have hrest : rest = [] := by simpa using hn
            subst hrest
            simp only [IsLower, if_pos hp128]
            by_cases h95 : p = 95
            · subst h95; simp
            · by_cases hlow : 97 ≤ p ∧ p ≤ 122 <;> simp [h95, hlow]
          | some n =>
            obtain ⟨t, rfl⟩ : ∃ t, rest = n :: t := by
              cases rest with
              | nil => simp at hn
              | cons a t => simp at hn; exact ⟨t, by rw [hn]⟩
            have hn128 : n < 128 := h n (by simp)
            simp only [IsLower, if_pos hp128, if_pos hn128]
            by_cases h95 : p = 95
            · subst h95; simp
            · by_cases hlow : 97 ≤ p ∧ p ≤ 122 <;> by_cases hlow2 : 97 ≤ n ∧ n ≤ 122 <;>
                simp [h95, hlow, hlow2]
      · simp only [hup, if_false]
        rfl
    rw [← hhead, ih2, List.length_cons, List.range_succ_eq_map, List.flatMap_cons,
      List.flatMap_map]
    congr 1
    apply List.flatMap_congr
    intro i _
    show snakeAt _ _ = snakeAt _ _
    congr 1
    omega

/-- C17: for every ASCII string `s`, `Underscore(s)` holds no upper-case
ASCII letter, no space and no hyphen; a string of lower-case ASCII letters,
digits and underscores is returned unchanged; without its underscores the
result is the input without its underscores, spaces and hyphens, each
upper-case letter in lower case; a run of spaces and hyphens between two
bytes outside the class is replaced exactly as one underscore in its place
would be; and on a string without spaces and hyphens the result is, byte by
byte, what `snakeAt` says. -/
theorem Underscore_snake (env : Env) (s : GoString) (hs : ∀ c ∈ s, c < 128) :
    (∀ b ∈ Underscore env s, ¬ (65 ≤ b ∧ b ≤ 90) ∧ b ≠ 32 ∧ b ≠ 45) ∧
      ((∀ c ∈ s, (97 ≤ c ∧ c ≤ 122) ∨ isDigit c = true ∨ c = 95) → Underscore env s = s) ∧
      (Underscore env s).filter (fun c => c != 95) =
        (s.filter (fun c => !rxSpaceClass c && c != 95)).map asciiLower ∧
      (∀ a run b : GoString, s = a ++ run ++ b → run ≠ [] →
        (∀ c ∈ run, rxSpaceClass c = true) →
        (∀ c, a.getLast? = some c → rxSpaceClass c = false) →
        (∀ c, b.head? = some c → rxSpaceClass c = false) →
        Underscore env s = Underscore env (a ++ 95 :: b)) ∧
      ((∀ c ∈ s, rxSpaceClass c = false) →
        Underscore env s = (List.range s.length).flatMap (snakeAt s)) := by
  have h1 : ∀ c ∈ replaceSpaceRuns false s, c < 128 ∧ rxSpaceClass c = false := by
    intro c hc
    rcases replaceSpaceRuns_mem s false c hc with h | ⟨h, h'⟩
    · subst h; exact ⟨by norm_num, by decide⟩
    · exact ⟨hs c h, h'⟩
  have hU := Underscore_ascii env s hs
  have hout : ∀ o ∈ underscoreRunes env none (replaceSpaceRuns false s),
      o < 128 ∧ ¬ (65 ≤ o ∧ o ≤ 90) ∧ o ≠ 32 ∧ o ≠ 45 := by
    intro o ho
    rcases underscoreRunes_mem env _ none o ho with h | ⟨r, hr, h⟩
    · subst h; exact ⟨by norm_num, by omega, by norm_num, by norm_num⟩
    · obtain ⟨hr1, hr2⟩ := h1 r hr
      obtain ⟨l1, l2, l3⟩ := lowered_ascii env r hr1
      rw [h]
      exact ⟨l1, l2, (l3 hr2).1, (l3 hr2).2⟩
  refine ⟨?_, ?_, ?_, ?_, ?_⟩
  · intro b hb
    rw [hU] at hb
    exact (hout b hb).2
  · intro hlow
    have hclass : ∀ c ∈ s, rxSpaceClass c = false := by
      intro c hc
      have := hlow c hc
      simp only [isDigit, Bool.and_eq_true, decide_eq_true_eq] at this
      simp only [rxSpaceClass, Bool.or_eq_false_iff, beq_eq_false_iff_ne, ne_eq]
      omega
    have hup : ∀ c ∈ s, IsUpper env c = false := by
      intro c hc
      have := hlow c hc
      simp only [isDigit, Bool.and_eq_true, decide_eq_true_eq] at this
      simp only [IsUpper, if_pos (hs c hc), Bool.and_eq_false_imp, decide_eq_true_eq,
        decide_eq_false_iff_not]
      omega
    rw [hU, replaceSpaceRuns_id s hclass, underscoreRunes_id env s none hup]
  · rw [hU, underscoreRunes_filter env _ none (fun r hr => (h1 r hr).1),
      replaceSpaceRuns_filter]
  · intro a run b hsab hne hrun ha hb
    have hs2 : ∀ c ∈ a ++ 95 :: b, c < 128 := by
      intro c hc
      rcases List.mem_append.mp hc with h | h
      · exact hs c (by rw [hsab]; simp [h])
      · rcases List.mem_cons.mp h with h | h
        · subst h; norm_num
        · exact hs c (by rw [hsab]; simp [h])
    rw [hU, Underscore_ascii env _ hs2, hsab, replaceSpaceRuns_one a run b hne hrun ha hb]
  · intro hclass
    rw [hU, replaceSpaceRuns_id s hclass]
    have := underscoreRunes_at env s [] (by simpa using hs)
    simpa using this

/-- Witness for C17: the table of the test of `Underscore`. -/
theorem Underscore_snake_witness :
    Underscore sampleEnv (bytes "test_value") = bytes "test_value" ∧
      (Underscore sampleEnv (bytes "TeSt VaLue")).filter (fun c => c != 95) = bytes "testvalue" ∧
      Underscore sampleEnv (bytes "test - value") = Underscore sampleEnv (bytes "test_value") ∧
      Underscore sampleEnv (bytes "TestValue") = bytes "test_value" ∧
      Underscore sampleEnv (bytes "Test") = bytes "test" ∧
      Underscore sampleEnv (bytes "test") = bytes "test" ∧
      Underscore sampleEnv (bytes "test-Value") = bytes "test_value" ∧
      Underscore sampleEnv (bytes "test value") = bytes "test_value" ∧
      Underscore sampleEnv (bytes "testValue") = bytes "test_value" ∧
      Underscore sampleEnv (bytes "TeSt VaLue") = bytes "te_st_va_lue" :=
  have h := Underscore_snake sampleEnv
  ⟨(h (bytes "test_value") (by decide)).2.1 (by decide),
    ((h (bytes "TeSt VaLue") (by decide)).2.2.1).trans (by decide),
    (h (bytes "test - value") (by decide)).2.2.2.1 (bytes "test") (bytes " - ") (bytes "value")
      (by decide) (by decide) (by decide) (by decide) (by decide),
    ((h (bytes "TestValue") (by decide)).2.2.2.2 (by decide)).trans (by decide),
    by decide, by decide, by decide, by decide, by decide, by decide⟩

/-! ## float64 arithmetic: byte counts and powers of 1024 -/

/-- The float64 `math.Pow(1024, k)` for a prefix index. -/
theorem pow1024_eq (i : Nat) (h : i ≤ 8) :
    pow1024 i = .finite false (2 ^ 52) (10 * (i : Int) - 52) := by
  interval_cases i <;> decide

theorem f1024_eq : f1024 = .finite false (2 ^ 52) (-42) := by decide

theorem f1_eq : f1 = .finite false (2 ^ 52) (-52) := by decide

/-- Multiplying by `1024^i` adds `10 i` to the exponent when the result is
canonical. -/
theorem F64.mul_pow1024 (neg : Bool) (m : Nat) (e : Int) (i : Nat) (hi : i ≤ 8) (hm : 0 < m)
    (h : (F64.finite neg m (e + 10 * i)).WF) :
    F64.mul (.finite neg m e) (pow1024 i) = .finite neg m (e + 10 * i) := by
  rw [pow1024_eq i hi]
  have hn : (neg != false) = neg := by cases neg <;> rfl
  simp only [F64.mul, hn]
  unfold roundDyadic
  split
  · rename_i h0
    obtain ⟨a, ha⟩ := Int.eq_ofNat_of_zero_le h0
    rw [ha, Int.toNat_ofNat]
    have e1 : m * 2 ^ 52 * 2 ^ a = m * 2 ^ (52 + a) := by rw [pow_add]; ring
    have e2 : (1 : Nat) = 2 ^ 0 := by norm_num
    rw [e1, e2, roundRat_pow2 neg m (52 + a) 0 (e + 10 * i) (by push_cast; omega) hm h]
  · rename_i h0
    obtain ⟨b, hb⟩ := Int.eq_ofNat_of_zero_le (by omega : 0 ≤ -(e + (10 * (i : Int) - 52)))
    rw [hb, Int.toNat_ofNat]
    rw [roundRat_pow2 neg m 52 b (e + 10 * i) (by push_cast; omega) hm h]

/-- Dividing by `1024^i` takes `10 i` off the exponent when the result is
canonical. -/
theorem F64.div_pow1024 (neg : Bool) (m : Nat) (e : Int) (i : Nat) (hi : i ≤ 8) (hm : 0 < m)
    (h : (F64.finite neg m (e - 10 * i)).WF) :
    F64.div (.finite neg m e) (pow1024 i) = .finite neg m (e - 10 * i) := by
  rw [pow1024_eq i hi]
  have hn : (neg != false) = neg := by cases neg <;> rfl
  simp only [F64.div, hn]
  rw [if_neg (by positivity)]
  split
  · rename_i h0
    obtain ⟨a, ha⟩ := Int.eq_ofNat_of_zero_le h0
    rw [ha, Int.toNat_ofNat]
    rw [roundRat_pow2 neg m a 52 (e - 10 * i) (by push_cast; omega) hm h]
  · rename_i h0
    obtain ⟨b, hb⟩ := Int.eq_ofNat_of_zero_le (by omega : 0 ≤ (10 * (i : Int) - 52) - e)
    rw [hb, Int.toNat_ofNat]
    have e1 : 2 ^ 52 * 2 ^ b = 2 ^ (52 + b) := by rw [pow_add]
    have e2 : m = m * 2 ^ 0 := by simp
    rw [e1]
    conv => lhs; rw [e2]
    rw [roundRat_pow2 neg m 0 (52 + b) (e - 10 * i) (by push_cast; omega) hm h]

/-- Dividing zero by `1024^i` gives zero. -/
theorem F64.div_pow1024_zero (neg : Bool) (e : Int) (i : Nat) (hi : i ≤ 8) :
    F64.div (.finite neg 0 e) (pow1024 i) = .finite neg 0 (-1074) := by
  rw [pow1024_eq i hi]
  have hn : (neg != false) = neg := by cases neg <;> rfl
  simp only [F64.div, hn]
  rw [if_neg (by positivity)]
  split <;> simp [roundRat]

/-- A positive canonical value against a power of two: the exponents decide. -/
theorem F64.lt_pow2 (m : Nat) (e e2 : Int) (hm : 2 ^ 52 ≤ m) (hm2 : m < 2 ^ 53) :
    F64.lt (.finite false m e) (.finite false (2 ^ 52) e2) = decide (e < e2) := by
  simp only [F64.lt, F64.scaled, Bool.false_eq_true, if_false, one_mul, Nat.cast_lt]
  by_cases h : e < e2
  · simp only [h, decide_True, decide_eq_true_eq]
    rw [min_eq_left (le_of_lt h), sub_self, Int.toNat_zero, pow_zero, mul_one]
    obtain ⟨a, ha⟩ := Int.eq_ofNat_of_zero_le (by omega : 0 ≤ e2 - e)
    rw [ha, Int.toNat_ofNat]
    have ha1 : 1 ≤ a := by omega
    have : 2 ^ 1 ≤ 2 ^ a := Nat.pow_le_pow_right (by norm_num) ha1
    calc m < 2 ^ 53 := hm2
      _ = 2 ^ 52 * 2 ^ 1 := by norm_num
      _ ≤ 2 ^ 52 * 2 ^ a := Nat.mul_le_mul_left _ this
  · simp only [h, decide_False, decide_eq_false_iff_not, not_lt]
    rw [min_eq_right (by omega), sub_self, Int.toNat_zero, pow_zero, mul_one]
    calc 2 ^ 52 ≤ m := hm
      _ = m * 1 := by ring
      _ ≤ m * 2 ^ (e - e2).toNat := Nat.mul_le_mul_left _ (Nat.one_le_two_pow)

/-- A power of two against a positive canonical value: the exponents decide. -/
theorem F64.le_pow2 (m : Nat) (e e2 : Int) (hm : 2 ^ 52 ≤ m) (hm2 : m < 2 ^ 53) :
    F64.le (.finite false (2 ^ 52) e2) (.finite false m e) = decide (e2 ≤ e) := by
  simp only [F64.le, F64.scaled, Bool.false_eq_true, if_false, one_mul, Nat.cast_le]
  by_cases h : e2 ≤ e
  · simp only [h, decide_True, decide_eq_true_eq]
    rw [min_eq_left h, sub_self, Int.toNat_zero, pow_zero, mul_one]
    calc 2 ^ 52 ≤ m := hm
      _ = m * 1 := by ring
      _ ≤ m * 2 ^ (e - e2).toNat := Nat.mul_le_mul_left _ (Nat.one_le_two_pow)
  · simp only [h, decide_False, decide_eq_false_iff_not, not_le]
    rw [min_eq_right (by omega), sub_self, Int.toNat_zero, pow_zero, mul_one]
    obtain ⟨a, ha⟩ := Int.eq_ofNat_of_zero_le (by omega : 0 ≤ e2 - e)
    rw [ha, Int.toNat_ofNat]
    have ha1 : 1 ≤ a := by omega
    have : 2 ^ 1 ≤ 2 ^ a := Nat.pow_le_pow_right (by norm_num) ha1
    calc m < 2 ^ 53 := hm2
      _ = 2 ^ 52 * 2 ^ 1 := by norm_num
      _ ≤ 2 ^ 52 * 2 ^ a := Nat.mul_le_mul_left _ this

/-- A value with the sign bit set, or zero, is below every positive value. -/
theorem F64.lt_of_nonpos (neg : Bool) (m : Nat) (e : Int) (m2 : Nat) (e2 : Int)
    (h : neg = true ∨ m = 0) (hm2 : 0 < m2) :
    F64.lt (.finite neg m e) (.finite false m2 e2) = true := by
  simp only [F64.lt, F64.scaled, Bool.false_eq_true, if_false, one_mul, decide_eq_true_eq]
  have hpos : (0 : Int) < ((m2 * 2 ^ (e2 - min e e2).toNat : Nat) : Int) := by
    exact_mod_cast Nat.mul_pos hm2 (by positivity)
  rcases h with h | h
  · subst h
    simp only [if_true]
    have : (0 : Int) ≤ ((m * 2 ^ (e - min e e2).toNat : Nat) : Int) := Int.natCast_nonneg _
    omega
  · subst h
    simp only [zero_mul, Nat.cast_zero, mul_zero]
    exact hpos

/-- The float64 of a positive integer below `2^k` is a normal value with an
exponent from -52 to `k - 52`. -/
theorem roundRat_nat (neg : Bool) (p k : Nat) (h1 : 1 ≤ p) (hk : p < 2 ^ k) (hk2 : k ≤ 1023) :
    ∃ m e, roundRat neg p 1 = (.finite neg m e, false) ∧ 2 ^ 52 ≤ m ∧ m < 2 ^ 53 ∧
      -52 ≤ e ∧ e ≤ (k : Int) - 52 := by
  obtain ⟨p1, p2⟩ := ilog2_spec p h1
  have hlp : ilog2 p < k :=
    (Nat.pow_lt_pow_iff_right (by norm_num : 1 < 2)).mp (lt_of_le_of_lt p1 hk)
  have hl1 : ilog2 1 = 0 := by decide
  have hbe : binExp p 1 = (ilog2 p : Int) - 52 := by
    unfold binExp
    simp only [hl1, pow_zero, mul_one, one_mul]
    rw [if_neg (by omega)]
    simp only [Nat.cast_zero, sub_zero]
    exact max_eq_left (by omega)
  have hwf := roundRat_WF neg p 1 (by norm_num)
  unfold roundRat at hwf ⊢
  have hp : p ≠ 0 := by omega
  simp only [hp, if_false, hbe] at hwf ⊢
  generalize (if 0 ≤ (ilog2 p : Int) - 52 then
      divRoundEven p (1 * 2 ^ ((ilog2 p : Int) - 52).toNat)
    else divRoundEven (p * 2 ^ (-((ilog2 p : Int) - 52)).toNat) 1) = m0 at hwf ⊢
  by_cases h53 : 2 ^ 53 ≤ m0
  · rw [if_pos h53] at hwf ⊢
    simp only at hwf ⊢
    rw [if_neg (by omega)] at hwf ⊢
    exact ⟨2 ^ 52, _, rfl, le_refl _, by norm_num, by omega, by omega⟩
  · rw [if_neg h53] at hwf ⊢
    simp only at hwf ⊢
    rw [if_neg (by omega)] at hwf ⊢
    obtain ⟨w1, -, -, w4⟩ := hwf
    refine ⟨m0, _, rfl, ?_, w1, by omega, by omega⟩
    by_contra hlt
    have := w4 (by omega)
    omega

/-- The float64 of a positive int64. -/
theorem ofInt_pos (n : Int) (h1 : 1 ≤ n) (h2 : n < 2 ^ 63) :
    ∃ m e, F64.ofInt n = .finite false m e ∧ 2 ^ 52 ≤ m ∧ m < 2 ^ 53 ∧ -52 ≤ e ∧ e ≤ 11 := by
  obtain ⟨m, e, h, a, b, c, d⟩ := roundRat_nat false n.natAbs 63 (by omega) (by omega) (by norm_num)
  refine ⟨m, e, ?_, a, b, c, by omega⟩
  unfold F64.ofInt
  have : decide (n < 0) = false := by simp; omega
  rw [this, h]

/-- The float64 of an int64 that is not positive has the sign bit set or is
zero. -/
theorem ofInt_nonpos (n : Int) (h1 : n ≤ 0) (h2 : -2 ^ 64 < n) :
    ∃ neg m e, F64.ofInt n = .finite neg m e ∧ (F64.finite neg m e).WF ∧
      (neg = true ∨ m = 0) := by
  unfold F64.ofInt
  by_cases h0 : n = 0
  · subst h0
    exact ⟨false, 0, -1074, by decide, by simp [F64.WF], Or.inr rfl⟩
  · obtain ⟨m, e, h, a, b, c, d⟩ :=
      roundRat_nat true n.natAbs 64 (by omega) (by omega) (by norm_num)
    have : decide (n < 0) = true := by simp; omega
    rw [this, h]
    exact ⟨true, m, e, rfl, ⟨b, by omega, by omega, fun hlt => by omega⟩, Or.inl rfl⟩

/-- The prefix loop on a positive byte count: the index it returns is the
least one that brings the exponent below that of 1024, and is at most 6. -/
theorem prefixLoop_pos (m : Nat) (e : Int) (hm : 2 ^ 52 ≤ m) (hm2 : m < 2 ^ 53)
    (he1 : -52 ≤ e) (he2 : e ≤ 11) :
    ∀ k i : Nat, i + k = 9 → (∀ j < i, -42 ≤ e - 10 * (j : Int)) →
      ∃ r, r ≤ 6 ∧ prefixLoop (.finite false m e) k i = some (r, .finite false m (e - 10 * r)) ∧
        e - 10 * (r : Int) < -42 ∧ ∀ j < r, -42 ≤ e - 10 * (j : Int) := by
  intro k
  induction k with
  | zero =>
    intro i hi hj
    have := hj 6 (by omega)
    omega
  | succ k ih =>
    intro i hi hj
    have hi8 : i ≤ 8 := by omega
    have hdiv : F64.div (.finite false m e) (pow1024 i) = .finite false m (e - 10 * i) :=
      F64.div_pow1024 false m e i hi8 (by omega)
        ⟨hm2, by omega, by omega, fun h => by omega⟩
    unfold prefixLoop
    rw [hdiv, f1024_eq, F64.lt_pow2 m _ _ hm hm2]
    by_cases hlt : e - 10 * (i : Int) < -42
    · simp only [hlt, decide_True, if_true]
      refine ⟨i, ?_, rfl, hlt, hj⟩
      by_contra h6
      have := hj 6 (by omega)
      omega
    · simp only [hlt, decide_False, Bool.false_eq_true, if_false]
      apply ih (i + 1) (by omega)
      intro j hjlt
      by_cases hji : j < i
      · exact hj j hji
      · have : j = i := by omega
        subst this
        omega

/-- The prefix loop on a byte count that is not positive stops at index 0. -/
theorem prefixLoop_nonpos (neg : Bool) (m : Nat) (e : Int) (hwf : (F64.finite neg m e).WF)
    (h : neg = true ∨ m = 0) :
    ∃ x, prefixLoop (.finite neg m e) 9 0 = some (0, x) := by
  unfold prefixLoop
  by_cases hm : m = 0
  · subst hm
    rw [F64.div_pow1024_zero neg e 0 (by norm_num), f1024_eq,
      F64.lt_of_nonpos neg 0 _ _ _ (Or.inr rfl) (by norm_num)]
    exact ⟨_, rfl⟩
  · have hd := F64.div_pow1024 neg m e 0 (by norm_num) (Nat.pos_of_ne_zero hm)
      (by simpa using hwf)
    simp only [Nat.cast_zero, mul_zero, sub_zero] at hd
    rw [hd, f1024_eq, F64.lt_of_nonpos neg m _ _ _ h (by norm_num)]
    exact ⟨_, rfl⟩

/-- The integers `ParseInt` returns without error are not below -2^63. -/
theorem ParseInt_lower (s : GoString) (n : Int) (h : ParseInt s = (n, none)) : -2 ^ 63 ≤ n := by
  obtain ⟨c, cs, un, rfl, hpu, hval, -⟩ := ParseInt_ok s n h
  by_cases hc : c = 45
  · subst hc
    have hpu2 : ParseUint cs = (un, none) := by simpa using hpu
    unfold ParseInt at h
    simp only [beq_self_eq_true, or_true, if_true, hpu2, Bool.not_true, Bool.false_and,
      Bool.false_eq_true, if_false, Bool.true_and, decide_eq_true_eq] at h
    split_ifs at h with hgt
    · simp at h
    · simp only [Prod.mk.injEq, and_true] at h
      omega
  · rw [if_neg hc] at hval
    omega

/-- A successful integer coercion yields an int64. -/
theorem ConvertToInteger_range (env : Env) (v : Value) (n : Int)
    (h : ConvertToInteger env v = .ret n none) : -2 ^ 63 ≤ n ∧ n < 2 ^ 63 := by
  unfold ConvertToInteger ConvertTo at h
  cases hts : ToString env v with
  | panic p => rw [hts] at h; simp at h
  | ret s err =>
    rw [hts] at h
    cases err with
    | some e => simp at h
    | none =>
      simp only [convertString] at h
      cases hpi : ParseInt s with
      | mk w k =>
        rw [hpi] at h
        cases k with
        | some k => simp at h
        | none =>
          simp only [Res.ret.injEq, and_true] at h
          subst h
          refine ⟨ParseInt_lower s w hpi, ?_⟩
          obtain ⟨c, cs, un, -, hpu, hval, hr⟩ := ParseInt_ok s w hpi
          by_cases hc : c = 45
          · rw [if_pos hc] at hval
            omega
          · rw [if_neg hc] at hval
            have := hr hc
            omega

/-! ## ToByteString -/

/-- A numeral the float parser accepts, a prefix letter and a suffix
augmentation: the value scaled by the power of 1024. -/
theorem ToBytes_prefixed_aux (d a : GoString) (i : Fin 8) (up : Bool) (v : F64)
    (hd : decimalNumeral d = true) (ha : a ∈ byteSuffixes) (hv : ParseFloat d = (v, none)) :
    ToBytes (d ++ [prefixLetter i up] ++ a) = .ret (F64.mul v (pow1024 (i.val + 1))) none := by
  obtain ⟨hp1, -, -, -, hG⟩ := prefixLetter_facts i up
  unfold ToBytes
  rw [strip_prefixed d a i up (decimalNumeral_snoc d hd) ha]
  simp only
  rw [scale_recognised d _ _ hp1 hG, hv]
  simp

/-- A numeral the float parser accepts and a byte-unit suffix: the value
unscaled. -/
theorem ToBytes_unscaled_aux (d a : GoString) (v : F64)
    (hd : decimalNumeral d = true) (ha : a ∈ byteSuffixes) (hv : ParseFloat d = (v, none)) :
    ToBytes (d ++ a) = .ret v none := by
  have hsn := decimalNumeral_snoc d hd
  have hkeep : stripByteSuffix d = some d := by
    obtain ⟨t, c, rfl, hc⟩ := hsn
    obtain ⟨-, g2, g3, -⟩ := GetSiPrefix_digit c hc
    exact strip_keep t c g2 g3
  rw [byteSuffixes_eq] at ha
  simp only [List.mem_cons, List.mem_singleton, List.not_mem_nil, or_false] at ha
  have hbcase : ∀ b, (b = 98 ∨ b = 66) → ToBytes (d ++ [b]) = .ret v none := by
    intro b hb
    obtain ⟨t, c, rfl, hc⟩ := hsn
    obtain ⟨-, -, -, g4⟩ := GetSiPrefix_digit c hc
    unfold ToBytes
    rcases List.eq_nil_or_concat t with h | ⟨u, x, h⟩
    · subst h
      have hsh : stripByteSuffix ([] ++ [c] ++ [b]) = some ([] ++ [c] ++ [b]) := by
        apply strip_short
        · simp
        · simp [g4]
        · simp [g4]
      rw [hsh]
      exact scale_b _ b v hb hv
    · subst h
      have e : u.concat x ++ [c] ++ [b] = u ++ [x, c, b] := by simp
      have e2 : u.concat x ++ [c] = u ++ [x, c] := by simp
      cases hx : IsInteger (utf8EncodeRune x) with
      | true =>
        rw [e, strip_b u x c b hx g4 hb]
        simp only
        rw [← e2]
        exact scale_digit_end _ v ⟨_, c, rfl, hc⟩ hv
      | false =>
        rw [e, strip_b_keep u x c b hx g4]
        simp only
        rw [← e]
        exact scale_b _ b v hb hv
  rcases ha with rfl | rfl | rfl | rfl | rfl
  · rw [List.append_nil]
    unfold ToBytes
    rw [hkeep]
    exact scale_digit_end d v hsn hv
  · exact hbcase 98 (Or.inl rfl)
  · exact hbcase 66 (Or.inr rfl)
  · unfold ToBytes
    rw [strip_ib d 98 (Or.inl rfl)]
    exact scale_digit_end d v hsn hv
  · unfold ToBytes
    rw [strip_ib d 66 (Or.inr rfl)]
    exact scale_digit_end d v hsn hv

/-- `ToByteString` when the integer coercion succeeds and the loop stops. -/
theorem ToByteString_eq (env : Env) (v : Value) (fs : List GoString) (n : Int) (i : Nat)
    (c : F64) (hv : ConvertToInteger env v = .ret n none)
    (hloop : prefixLoop (F64.ofInt n) 9 0 = some (i, c)) :
    ToByteString env v fs =
      .ret (env.sprintf (numericFormat fs ++ bytes "%sB")
        [.float c, .string (SiPrefix.String (i : Int))]) none := by
  unfold ToByteString
  rw [hv]
  simp only [hloop]
  cases fs <;> rfl

/-- The prefix loop on a byte count that is not positive stops at index 0
with the quotient by `1024^0`. -/
theorem prefixLoop_nonpos_eq (neg : Bool) (m : Nat) (e : Int) (hwf : (F64.finite neg m e).WF)
    (h : neg = true ∨ m = 0) :
    prefixLoop (.finite neg m e) 9 0 =
      some (0, F64.div (.finite neg m e) (pow1024 0)) := by
  have hlt : F64.lt (F64.div (.finite neg m e) (pow1024 0)) f1024 = true := by
    by_cases hm : m = 0
    · subst hm
      rw [F64.div_pow1024_zero neg e 0 (by norm_num), f1024_eq,
        F64.lt_of_nonpos neg 0 _ _ _ (Or.inr rfl) (by norm_num)]
    · have hd := F64.div_pow1024 neg m e 0 (by norm_num) (Nat.pos_of_ne_zero hm)
        (by simpa using hwf)
      simp only [Nat.cast_zero, mul_zero, sub_zero] at hd
      rw [hd, f1024_eq, F64.lt_of_nonpos neg m _ _ _ h (by norm_num)]
  unfold prefixLoop
  rw [if_pos hlt]

/-- What `ToByteString` chooses for a positive int64: the index is the least
that brings the exponent of the quotient below that of 1024. -/
theorem chosen_pos (n : Int) (h1 : 1 ≤ n) (h2 : n < 2 ^ 63) :
    ∃ m e, F64.ofInt n = .finite false m e ∧ 2 ^ 52 ≤ m ∧ m < 2 ^ 53 ∧ -52 ≤ e ∧ e ≤ 11 ∧
      chosenIndex n ≤ 6 ∧
      prefixLoop (F64.ofInt n) 9 0 = some (chosenIndex n, chosenMantissa n) ∧
      chosenMantissa n = .finite false m (e - 10 * (chosenIndex n : Int)) ∧
      e - 10 * (chosenIndex n : Int) < -42 ∧
      ∀ j < chosenIndex n, -42 ≤ e - 10 * (j : Int) := by
  obtain ⟨m, e, hof, hm, hm2, he1, he2⟩ := ofInt_pos n h1 h2
  obtain ⟨r, hr, hloop, hlt, hleast⟩ :=
    prefixLoop_pos m e hm hm2 he1 he2 9 0 (by norm_num) (fun j hj => by omega)
  have hci : chosenIndex n = r := by
    unfold chosenIndex
    rw [hof, hloop]
  have hcm : chosenMantissa n = .finite false m (e - 10 * (r : Int)) := by
    unfold chosenMantissa
    rw [hci, hof]
    exact F64.div_pow1024 false m e r (by omega) (by omega)
      ⟨hm2, by omega, by omega, fun h => by omega⟩
  refine ⟨m, e, hof, hm, hm2, he1, he2, ?_, ?_, ?_, ?_, ?_⟩
  · rw [hci]; exact hr
  · rw [hci, hcm, hof]; exact hloop
  · rw [hcm, hci]
  · rw [hci]; exact hlt
  · rw [hci]; exact hleast

/-- What `ToByteString` chooses for an int64 that is not positive: index 0. -/
theorem chosen_nonpos (n : Int) (h1 : n ≤ 0) (h2 : -2 ^ 63 ≤ n) :
    chosenIndex n = 0 ∧ prefixLoop (F64.ofInt n) 9 0 = some (chosenIndex n, chosenMantissa n) := by
  obtain ⟨neg, m, e, hof, hwf, hsign⟩ := ofInt_nonpos n h1 (by omega)
  have hloop := prefixLoop_nonpos_eq neg m e hwf hsign
  have hci : chosenIndex n = 0 := by
    unfold chosenIndex
    rw [hof, hloop]
  refine ⟨hci, ?_⟩
  unfold chosenMantissa
  rw [hci, hof]
  exact hloop

/-- The loop of `ToByteString` stops for every int64, at an index of at
most 6. -/
theorem chosen_total (n : Int) (h1 : -2 ^ 63 ≤ n) (h2 : n < 2 ^ 63) :
    prefixLoop (F64.ofInt n) 9 0 = some (chosenIndex n, chosenMantissa n) ∧
      chosenIndex n ≤ 6 := by
  by_cases hn : 1 ≤ n
  · obtain ⟨m, e, -, -, -, -, -, h6, hloop, -⟩ := chosen_pos n hn h2
    exact ⟨hloop, h6⟩
  · obtain ⟨h0, hloop⟩ := chosen_nonpos n (by omega) h1
    exact ⟨hloop, by omega⟩

/-- C20: whenever the integer coercion of the input succeeds, with the int64
`n`, the loop of `ToByteString` returns at an index of at most 6 (it does
not run out, so the fallback is not reached), and the prefix letter is
neither Z nor Y. -/
theorem ToByteString_index_le (env : Env) (v : Value) (fs : List GoString) (n : Int)
    (hv : ConvertToInteger env v = .ret n none) :
    prefixLoop (F64.ofInt n) 9 0 = some (chosenIndex n, chosenMantissa n) ∧
      chosenIndex n ≤ 6 ∧
      ToByteString env v fs =
        .ret (env.sprintf (numericFormat fs ++ bytes "%sB")
          [.float (chosenMantissa n), .string (SiPrefix.String (chosenIndex n : Int))]) none ∧
      SiPrefix.String (chosenIndex n : Int) ≠ bytes "Z" ∧
      SiPrefix.String (chosenIndex n : Int) ≠ bytes "Y" := by
  obtain ⟨r1, r2⟩ := ConvertToInteger_range env v n hv
  obtain ⟨hloop, h6⟩ := chosen_total n r1 r2
  refine ⟨hloop, h6, ToByteString_eq env v fs n _ _ hv hloop, ?_⟩
  generalize chosenIndex n = i at h6
  interval_cases i <;> decide

/-- Witness for C20: the largest int64 is rendered with the prefix Exa. -/
theorem ToByteString_index_le_witness :
    chosenIndex 9223372036854775807 ≤ 6 ∧
      ToByteString sampleEnv (.int64 9223372036854775807) [] =
        .ret (sampleEnv.sprintf (numericFormat [] ++ bytes "%sB")
          [.float (chosenMantissa 9223372036854775807),
            .string (SiPrefix.String (chosenIndex 9223372036854775807 : Int))]) none :=
  have h := ToByteString_index_le sampleEnv (.int64 9223372036854775807) []
    9223372036854775807 (by decide)
  ⟨h.2.1, h.2.2.1⟩

/-- The mantissa chosen for a positive int64, times the power of 1024 of the
chosen index, is the float64 of the byte count. -/
theorem ToByteString_least_index_aux (n : Int) (hn : 1 ≤ n) (r2 : n < 2 ^ 63) :
    F64.mul (chosenMantissa n) (pow1024 (chosenIndex n)) = F64.ofInt n := by
  obtain ⟨m, e, hof, hm, hm2, he1, he2, h6, hloop, hcm, hlt, hleast⟩ := chosen_pos n hn r2
  rw [hcm, hof]
  have := F64.mul_pow1024 false m (e - 10 * (chosenIndex n : Int)) (chosenIndex n)
    (by omega) (by omega)
    (by
      have e1 : e - 10 * (chosenIndex n : Int) + 10 * (chosenIndex n : Int) = e := by ring
      rw [e1]
      exact ⟨hm2, by omega, by omega, fun h => by omega⟩)
  rw [this]
  congr 1
  ring

/-- C11 (as amended): for every input that coerces to an integer `n >= 1`,
with `x = float64(n)`, the index `ToByteString` chooses is the least `i`
with `x / 1024^i < 1024` in float64 arithmetic; the mantissa `m = x / 1024^i`
satisfies `1 <= m < 1024` and `m * 1024^i = x`; and the output is the
rendering of `m` by the numeric format followed by the verb s on the prefix
letter and the letter B. -/
theorem ToByteString_least_index (env : Env) (v : Value) (fs : List GoString) (n : Int)
    (hv : ConvertToInteger env v = .ret n none) (hn : 1 ≤ n) :
    chosenIndex n ≤ 8 ∧
      F64.lt (F64.div (F64.ofInt n) (pow1024 (chosenIndex n))) f1024 = true ∧
      (∀ j < chosenIndex n, F64.lt (F64.div (F64.ofInt n) (pow1024 j)) f1024 = false) ∧
      F64.le f1 (chosenMantissa n) = true ∧ F64.lt (chosenMantissa n) f1024 = true ∧
      F64.mul (chosenMantissa n) (pow1024 (chosenIndex n)) = F64.ofInt n ∧
      ToByteString env v fs =
        .ret (env.sprintf (numericFormat fs ++ bytes "%sB")
          [.float (chosenMantissa n), .string (SiPrefix.String (chosenIndex n : Int))]) none := by
  obtain ⟨-, r2⟩ := ConvertToInteger_range env v n hv
  obtain ⟨m, e, hof, hm, hm2, he1, he2, h6, hloop, hcm, hlt, hleast⟩ := chosen_pos n hn r2
  have hlt' : F64.lt (chosenMantissa n) f1024 = true := by
    rw [hcm, f1024_eq, F64.lt_pow2 m _ _ hm hm2]
    simpa using hlt
  refine ⟨by omega, ?_, ?_, ?_, hlt', ?_, ToByteString_eq env v fs n _ _ hv hloop⟩
  · exact hlt'
  · intro j hj
    rw [hof, F64.div_pow1024 false m e j (by omega) (by omega)
      ⟨hm2, by omega, by omega, fun h => by omega⟩, f1024_eq, F64.lt_pow2 m _ _ hm hm2]
    have := hleast j hj
    simp only [decide_eq_false_iff_not, not_lt]
    omega
  · rw [hcm, f1_eq, F64.le_pow2 m _ _ hm hm2]
    simp only [decide_eq_true_eq]
    by_cases h0 : chosenIndex n = 0
    · rw [h0]; simpa using he1
    · have := hleast (chosenIndex n - 1) (by omega)
      have hc : ((chosenIndex n - 1 : Nat) : Int) = (chosenIndex n : Int) - 1 := by omega
      rw [hc] at this
      omega
  · exact ToByteString_least_index_aux n hn r2

/-- Witness for C11: 1536 bytes are one and a half kilobytes. -/
theorem ToByteString_least_index_witness :
    chosenIndex 1536 ≤ 8 ∧
      F64.le f1 (chosenMantissa 1536) = true ∧ F64.lt (chosenMantissa 1536) f1024 = true ∧
      F64.mul (chosenMantissa 1536) (pow1024 (chosenIndex 1536)) = F64.ofInt 1536 :=
  have h := ToByteString_least_index sampleEnv (.int64 1536) [] 1536 (by decide) (by decide)
  ⟨h.1, h.2.2.2.1, h.2.2.2.2.1, h.2.2.2.2.2.1⟩

set_option maxRecDepth 1000000 in
/-- C11 as stated fails at the byte count 2^60 - 1: in exact arithmetic the
quotient by `1024^5` is below 1024, yet `ToByteString` chooses index 6 and
the mantissa 1, the float64 of the byte count being 2^60; and `1 * 1024^6`
is not the byte count. -/
theorem ToByteString_rounds_up :
    ConvertToInteger sampleEnv (.int64 (2 ^ 60 - 1)) = .ret (2 ^ 60 - 1) none ∧
      ((2 ^ 60 - 1 : Int) < 1024 * 1024 ^ 5) ∧
      chosenIndex (2 ^ 60 - 1) = 6 ∧ chosenMantissa (2 ^ 60 - 1) = f1 ∧
      F64.ofInt (2 ^ 60 - 1) = F64.ofInt (2 ^ 60) ∧
      ((1 : Int) * 1024 ^ 6 ≠ 2 ^ 60 - 1) ∧
      ToByteString sampleEnv (.int64 (2 ^ 60 - 1)) [] = .ret (bytes "1EB") none := by
  decide

set_option maxRecDepth 1000000 in
/-- The byte count zero has index 0 and mantissa zero. -/
theorem chosen_zero : F64.mul (chosenMantissa 0) (pow1024 (chosenIndex 0)) = F64.ofInt 0 := by
  decide

/-- The tag of a prefix index from 1 to 8 is its letter in upper case. -/
theorem SiPrefix_String_letter (i : Fin 8) :
    SiPrefix.String ((i.val + 1 : Nat) : Int) = [prefixLetter i true] := by
  revert i
  decide

set_option maxRecDepth 1000000 in
/-- C12 as stated fails at the byte count 2^63, which is below 1024^9: held
in a uint64 it does not coerce to an int64, and `ToByteString` returns the
empty string with the range error of `ParseInt`. -/
theorem ToByteString_uint64_range_error :
    ((2 ^ 63 : Int) < 1024 ^ 9) ∧
      ToByteString sampleEnv (.uint64 (2 ^ 63)) [] =
        .ret [] (some (.num .ParseInt (bytes "9223372036854775808") .ErrRange)) := by
  decide

/-! ## ToByteString on a byte count that is not positive -/

/-- The float64 of an integer of magnitude below `2^53` is the integer. -/
theorem ofInt_exact (n : Int) (h : n.natAbs < 2 ^ 53) : F64.exactly (F64.ofInt n) n = true := by
  by_cases h0 : n = 0
  · subst h0
    simp [F64.ofInt, roundRat, F64.exactly, F64.scaled]
  have h1 : 1 ≤ n.natAbs := by omega
  obtain ⟨p1, p2⟩ := ilog2_spec n.natAbs h1
  have hL : ilog2 n.natAbs < 53 :=
    (Nat.pow_lt_pow_iff_right (by norm_num : 1 < 2)).mp (lt_of_le_of_lt p1 h)
  have hl1 : ilog2 1 = 0 := by decide
  have hbe : binExp n.natAbs 1 = (ilog2 n.natAbs : Int) - 52 := by
    unfold binExp
    simp only [hl1, pow_zero, mul_one, one_mul]
    rw [if_neg (by omega)]
    simp only [Nat.cast_zero, sub_zero]
    exact max_eq_left (by omega)
  have hsign : (if decide (n < 0) = true then (-1 : Int) else 1) * (n.natAbs : Int) = n := by
    by_cases hn : n < 0
    · simp only [hn, decide_True, if_true]; omega
    · simp only [hn, decide_False, Bool.false_eq_true, if_false]; omega
  obtain ⟨k, hk⟩ : ∃ k, ilog2 n.natAbs + k = 52 := ⟨52 - ilog2 n.natAbs, by omega⟩
  have hp : n.natAbs ≠ 0 := by omega
  have hm : n.natAbs * 2 ^ k < 2 ^ 53 := by
    calc n.natAbs * 2 ^ k < 2 ^ (ilog2 n.natAbs + 1) * 2 ^ k :=
          Nat.mul_lt_mul_of_pos_right p2 (by positivity)
      _ = 2 ^ 53 := by rw [← pow_add]; congr 1; omega
  have hexp : (ilog2 n.natAbs : Int) - 52 = -(k : Int) := by omega
  have hm0 : (if 0 ≤ -(k : Int) then divRoundEven n.natAbs (1 * 2 ^ (-(k : Int)).toNat)
      else divRoundEven (n.natAbs * 2 ^ (-(-(k : Int))).toNat) 1) = n.natAbs * 2 ^ k := by
    have d := divRoundEven_mul (n.natAbs * 2 ^ k) 1 (by norm_num)
    rw [mul_one] at d
    by_cases hk0 : k = 0
    · subst hk0
      simpa using d
    · rw [if_neg (by omega)]
      simpa using d
  have h53 : ¬ 2 ^ 53 ≤ n.natAbs * 2 ^ k := by omega
  have h971 : ¬ (971 : Int) < -(k : Int) := by omega
  unfold F64.ofInt roundRat
  simp only [hp, if_false, hbe, hexp, hm0]
  rw [if_neg h53]
  simp only
  rw [if_neg h971]
  simp only [F64.exactly, F64.scaled, sub_self, sub_zero, Int.toNat_zero, pow_zero, mul_one,
    beq_iff_eq, neg_neg, Int.toNat_ofNat]
  by_cases hk0 : k = 0
  · subst hk0
    simpa using hsign
  · rw [if_neg (by omega)]
    simp only [Nat.cast_mul, Nat.cast_pow, Nat.cast_ofNat, beq_iff_eq]
    rw [← mul_assoc, hsign]

set_option maxRecDepth 1000000 in
/-- The float64 of an integer of magnitude up to `2^53` is the integer. -/
theorem ofInt_exact_le (n : Int) (h : n.natAbs ≤ 2 ^ 53) :
    F64.exactly (F64.ofInt n) n = true := by
  by_cases h1 : n.natAbs < 2 ^ 53
  · exact ofInt_exact n h1
  · have h2 : n = 2 ^ 53 ∨ n = -2 ^ 53 := by omega
    rcases h2 with h2 | h2 <;> subst h2 <;> decide

/-- The mantissa `ToByteString` renders for an int64 that is not positive is
the float64 of the byte count itself. -/
theorem chosenMantissa_nonpos (n : Int) (h1 : n ≤ 0) (h2 : -2 ^ 63 ≤ n) :
    chosenMantissa n = F64.ofInt n := by
  obtain ⟨hci, -⟩ := chosen_nonpos n h1 h2
  obtain ⟨neg, m, e, hof, hwf, -⟩ := ofInt_nonpos n h1 (by omega)
  unfold chosenMantissa
  rw [hci, hof]
  by_cases hm : m = 0
  · subst hm
    obtain ⟨-, -, -, w4⟩ := hwf
    rw [F64.div_pow1024_zero neg e 0 (by norm_num), w4 (by norm_num)]
  · have he : e - 10 * ((0 : Nat) : Int) = e := by simp
    have := F64.div_pow1024 neg m e 0 (by norm_num) (Nat.pos_of_ne_zero hm) (by rw [he]; exact hwf)
    rw [this, he]

/-- C21 (as amended): for every input that coerces to an integer `n <= 0`,
the loop of `ToByteString` stops at index 0 with `float64(n)`, unscaled; the
output is the rendering of `float64(n)` by the numeric format followed by
the verb s on the empty tag of the prefix `None` and the letter B; no prefix
letter is among the arguments; and `float64(n)` is `n` itself down to
`-2^53`. -/
theorem ToByteString_nonpos (env : Env) (v : Value) (fs : List GoString) (n : Int)
    (hv : ConvertToInteger env v = .ret n none) (hn : n ≤ 0) :
    prefixLoop (F64.ofInt n) 9 0 = some (0, F64.ofInt n) ∧
      chosenIndex n = 0 ∧ SiPrefix.String (chosenIndex n : Int) = [] ∧
      ToByteString env v fs =
        .ret (env.sprintf (numericFormat fs ++ bytes "%sB")
          [.float (F64.ofInt n), .string []]) none ∧
      (-2 ^ 53 ≤ n → F64.exactly (F64.ofInt n) n = true) := by
  obtain ⟨r1, -⟩ := ConvertToInteger_range env v n hv
  obtain ⟨hci, hloop⟩ := chosen_nonpos n hn r1
  have hcm := chosenMantissa_nonpos n hn r1
  rw [hci, hcm] at hloop
  have htag : SiPrefix.String ((0 : Nat) : Int) = [] := by decide
  refine ⟨hloop, hci, by rw [hci]; exact htag, ?_, fun h => ofInt_exact_le n (by omega)⟩
  rw [ToByteString_eq env v fs n 0 (F64.ofInt n) hv hloop, htag]

set_option maxRecDepth 1000000 in
/-- Witness for C21: minus five thousand bytes are written unscaled, and so
is the least int64, in the exponent form of the verb g. -/
theorem ToByteString_nonpos_witness :
    ConvertToInteger sampleEnv (.int64 (-5000)) = .ret (-5000) none ∧
      ToByteString sampleEnv (.int64 (-5000)) [] =
        .ret (sampleEnv.sprintf (numericFormat [] ++ bytes "%sB")
          [.float (F64.ofInt (-5000)), .string []]) none ∧
      sampleEnv.sprintf (numericFormat [] ++ bytes "%sB")
          [.float (F64.ofInt (-5000)), .string []] = bytes "-5000B" ∧
      F64.exactly (F64.ofInt (-5000)) (-5000) = true ∧
      ToByteString sampleEnv (.int64 (-9223372036854775808)) [] =
        .ret (bytes "-9.223372036854776e+18B") none :=
  have hv : ConvertToInteger sampleEnv (.int64 (-5000)) = .ret (-5000) none := by decide
  have h := ToByteString_nonpos sampleEnv (.int64 (-5000)) [] (-5000) hv (by decide)
  ⟨hv, h.2.2.2.1, by decide, h.2.2.2.2 (by decide), by decide⟩

set_option maxRecDepth 1000000 in
/-- C21 as stated fails at the byte count -(2^60 - 1): the number rendered
is its float64, which is -2^60 and not the byte count, so the output is the
output for -2^60. -/
theorem ToByteString_nonpos_rounds :
    ConvertToInteger sampleEnv (.int64 (-1152921504606846975)) =
        .ret (-1152921504606846975) none ∧
      F64.ofInt (-1152921504606846975) = F64.ofInt (-1152921504606846976) ∧
      F64.exactly (F64.ofInt (-1152921504606846975)) (-1152921504606846975) = false ∧
      F64.exactly (F64.ofInt (-1152921504606846975)) (-1152921504606846976) = true ∧
      ToByteString sampleEnv (.int64 (-1152921504606846975)) [] =
        ToByteString sampleEnv (.int64 (-1152921504606846976)) [] ∧
      ToByteString sampleEnv (.int64 (-1152921504606846975)) [] =
        .ret (bytes "-1.152921504606847e+18B") none := by
  decide

/-! ## The shortest formatting of a float64 -/

/-- The binary exponent of `p / q`, from bounds on the quotient. -/
theorem binExp_eq (p q a b : Nat) (hp : 0 < p) (hq : 0 < q)
    (h1 : q * 2 ^ a ≤ p * 2 ^ b) (h2 : p * 2 ^ b < q * 2 ^ (a + 1)) :
    binExp p q = max ((a : Int) - b - 52) (-1074) := by
  obtain ⟨p1, p2⟩ := ilog2_spec p hp
  obtain ⟨q1, q2⟩ := ilog2_spec q hq
  unfold binExp
  simp only
  generalize ilog2 p = lp at *
  generalize ilog2 q = lq at *
  have hpow : ∀ x y : Nat, 2 ^ x < 2 ^ y → x < y := fun x y h =>
    (Nat.pow_lt_pow_iff_right (by norm_num : 1 < 2)).mp h
  split
  · rename_i hlt
    have k1 : a + lq < lp + b := by
      apply hpow
      have : q * 2 ^ (a + lq) < q * 2 ^ (lp + b) := by
        calc q * 2 ^ (a + lq) = (q * 2 ^ a) * 2 ^ lq := by rw [pow_add]; ring
          _ ≤ (p * 2 ^ b) * 2 ^ lq := Nat.mul_le_mul_right _ h1
          _ = (p * 2 ^ lq) * 2 ^ b := by ring
          _ < (q * 2 ^ lp) * 2 ^ b := Nat.mul_lt_mul_of_pos_right hlt (by positivity)
          _ = q * 2 ^ (lp + b) := by rw [pow_add]; ring
      exact Nat.lt_of_mul_lt_mul_left this
    have k2 : lp + b < lq + 1 + (a + 1) := by
      apply hpow
      calc 2 ^ (lp + b) = 2 ^ lp * 2 ^ b := by rw [pow_add]
        _ ≤ p * 2 ^ b := Nat.mul_le_mul_right _ p1
        _ < q * 2 ^ (a + 1) := h2
        _ < 2 ^ (lq + 1) * 2 ^ (a + 1) := Nat.mul_lt_mul_of_pos_right q2 (by positivity)
        _ = 2 ^ (lq + 1 + (a + 1)) := by rw [← pow_add]
    congr 1
    omega
  · rename_i hge
    have hge2 : q * 2 ^ lp ≤ p * 2 ^ lq := Nat.le_of_not_lt hge
    have k1 : lp + b < a + 1 + lq := by
      apply hpow
      have : q * 2 ^ (lp + b) < q * 2 ^ (a + 1 + lq) := by
        calc q * 2 ^ (lp + b) = (q * 2 ^ lp) * 2 ^ b := by rw [pow_add]; ring
          _ ≤ (p * 2 ^ lq) * 2 ^ b := Nat.mul_le_mul_right _ hge2
          _ = (p * 2 ^ b) * 2 ^ lq := by ring
          _ < (q * 2 ^ (a + 1)) * 2 ^ lq := Nat.mul_lt_mul_of_pos_right h2 (by positivity)
          _ = q * 2 ^ (a + 1 + lq) := by rw [pow_add (n := lq)]; ring
      exact Nat.lt_of_mul_lt_mul_left this
    have k2 : lq + a < lp + 1 + b := by
      apply hpow
      calc 2 ^ (lq + a) = 2 ^ lq * 2 ^ a := by rw [pow_add]
        _ ≤ q * 2 ^ a := Nat.mul_le_mul_right _ q1
        _ ≤ p * 2 ^ b := h1
        _ < 2 ^ (lp + 1) * 2 ^ b := Nat.mul_lt_mul_of_pos_right p2 (by positivity)
        _ = 2 ^ (lp + 1 + b) := by rw [← pow_add]
    congr 1
    omega

/-- The exact decimal expansion of a normal float64 below `2^53` with a
negative exponent rounds to it. -/
theorem roundRat_exact (m k : Nat) (hm1 : 2 ^ 52 ≤ m) (hm2 : m < 2 ^ 53) (hk1 : 1 ≤ k)
    (hk2 : k ≤ 1074) :
    roundRat false (m * 5 ^ k) (10 ^ k) = (.finite false m (-(k : Int)), false) := by
  have h10 : 10 ^ k = 2 ^ k * 5 ^ k := by rw [← Nat.mul_pow]
  have h5 : 0 < 5 ^ k := by positivity
  have hbe : binExp (m * 5 ^ k) (10 ^ k) = -(k : Int) := by
    rw [binExp_eq (m * 5 ^ k) (10 ^ k) 52 k (by positivity) (by positivity)
      (by
        calc 10 ^ k * 2 ^ 52 = 2 ^ 52 * 10 ^ k := by ring
          _ ≤ m * 10 ^ k := Nat.mul_le_mul_right _ hm1
          _ = m * 5 ^ k * 2 ^ k := by rw [h10]; ring)
      (by
        calc m * 5 ^ k * 2 ^ k = m * 10 ^ k := by rw [h10]; ring
          _ < 2 ^ 53 * 10 ^ k := Nat.mul_lt_mul_of_pos_right hm2 (by positivity)
          _ = 10 ^ k * 2 ^ (52 + 1) := by ring)]
    rw [max_eq_left (by omega)]
    omega
  have hp : m * 5 ^ k ≠ 0 := by positivity
  have hneg : ¬ (0 : Int) ≤ -(k : Int) := by omega
  have hd : divRoundEven (m * 5 ^ k * 2 ^ (-(-(k : Int))).toNat) (10 ^ k) = m := by
    have e : m * 5 ^ k * 2 ^ (-(-(k : Int))).toNat = m * 10 ^ k := by
      rw [neg_neg, Int.toNat_ofNat, h10]; ring
    rw [e]
    exact divRoundEven_mul m (10 ^ k) (by positivity)
  have h53 : ¬ 2 ^ 53 ≤ m := by omega
  have h971 : ¬ (971 : Int) < -(k : Int) := by omega
  unfold roundRat
  simp only [hp, if_false, hbe, hneg, hd]
  rw [if_neg h53]
  simp only
  rw [if_neg h971]

/-- The decimal digits `FormatUint` writes are digits. -/
theorem formatDigits_all : ∀ (fuel n : Nat) (acc : GoString), acc.all isDigit = true →
    (formatDigits fuel n acc).all isDigit = true := by
  intro fuel
  induction fuel with
  | zero => intro n acc h; exact h
  | succ fuel ih =>
    intro n acc h
    unfold formatDigits
    split_ifs with hn
    · simp only [List.all_cons, h, Bool.and_true]
      simp only [isDigit, Bool.and_eq_true, decide_eq_true_eq]
      omega
    · apply ih
      simp only [List.all_cons, h, Bool.and_true]
      simp only [isDigit, Bool.and_eq_true, decide_eq_true_eq]
      omega

theorem FormatUint_all (n : Nat) : (FormatUint n).all isDigit = true :=
  formatDigits_all (n + 1) n [] rfl

/-- Reading the digits of `n` in base 10 gives `n`. -/
theorem formatDigits_val : ∀ (fuel n : Nat), n < fuel →
    (formatDigits fuel n []).foldl (fun a c => a * 10 + (c - 48)) 0 = n := by
  intro fuel
  induction fuel with
  | zero => intro n h; omega
  | succ fuel ih =>
    intro n h
    unfold formatDigits
    split_ifs with hn
    · simp
    · rw [formatDigits_append, List.foldl_append, ih (n / 10) (by omega)]
      simp only [List.foldl_cons, List.foldl_nil]
      omega

theorem FormatUint_val (n : Nat) :
    (FormatUint n).foldl (fun a c => a * 10 + (c - 48)) 0 = n :=
  formatDigits_val (n + 1) n (by omega)

/-- A number below `10^d` has at most `d` digits. -/
theorem formatDigits_length : ∀ (fuel n d : Nat), n < fuel → n < 10 ^ d → 1 ≤ d →
    (formatDigits fuel n []).length ≤ d := by
  intro fuel
  induction fuel with
  | zero => intro n d h; omega
  | succ fuel ih =>
    intro n d h hd h1
    unfold formatDigits
    split_ifs with hn
    · simpa using h1
    · rw [formatDigits_append, List.length_append]
      obtain ⟨d', rfl⟩ : ∃ d', d = d' + 1 := ⟨d - 1, by omega⟩
      have hd' : 1 ≤ d' := by
        by_contra hc
        have : d' = 0 := by omega
        subst this
        simp at hd
        omega
      have : n / 10 < 10 ^ d' := by
        rw [pow_succ] at hd
        exact Nat.div_lt_of_lt_mul (by rw [mul_comm]; exact hd)
      have := ih (n / 10) d' (by omega) this hd'
      simp only [List.length_cons, List.length_nil]
      omega

theorem padDigits_all : ∀ (w n : Nat), (padDigits w n).all isDigit = true := by
  intro w
  induction w with
  | zero => intro n; rfl
  | succ w ih =>
    intro n
    unfold padDigits
    rw [List.all_append, ih]
    simp only [List.all_cons, List.all_nil, Bool.and_true, Bool.true_and]
    simp only [isDigit, Bool.and_eq_true, decide_eq_true_eq]
    omega

theorem padDigits_length : ∀ (w n : Nat), (padDigits w n).length = w := by
  intro w
  induction w with
  | zero => intro n; rfl
  | succ w ih =>
    intro n
    unfold padDigits
    rw [List.length_append, ih]
    rfl

/-- Reading `w` padded digits after the value `a` shifts `a` by `w` places. -/
theorem padDigits_val : ∀ (w n a : Nat),
    (padDigits w n).foldl (fun a c => a * 10 + (c - 48)) a = a * 10 ^ w + n % 10 ^ w := by
  intro w
  induction w with
  | zero => intro n a; simp [padDigits, Nat.mod_one]
  | succ w ih =>
    intro n a
    unfold padDigits
    rw [List.foldl_append, ih]
    simp only [List.foldl_cons, List.foldl_nil]
    have e : n % 10 ^ (w + 1) = n % 10 + 10 * (n / 10 % 10 ^ w) := by
      rw [pow_succ, mul_comm, Nat.mod_mul]
    rw [e, pow_succ]
    have : 48 + n % 10 - 48 = n % 10 := by omega
    rw [this]
    ring

/-- The mantissa loop in base 10 over a string of digits reads their value. -/
theorem scanMant_value (ds rest : GoString) (hall : ds.all isDigit = true) :
    ∀ st : MantState, scanMant false (ds ++ rest) st =
      scanMant false rest ⟨st.sawdot, st.sawdigits || !ds.isEmpty, st.underscores,
        ds.foldl (fun a c => a * 10 + (c - 48)) st.mant,
        if st.sawdot then st.frac + ds.length else st.frac⟩ := by
  induction ds with
  | nil => intro st; simp
  | cons c cs ih =>
    intro st
    simp only [List.all_cons, Bool.and_eq_true] at hall
    obtain ⟨hc, hcs⟩ := hall
    obtain ⟨f1, f2, -⟩ := digit_facts c (isDigit_lt c hc) hc
    rw [List.cons_append, scanMant]
    simp only [f1, f2, if_false, hc, if_true, Bool.false_eq_true]
    rw [ih hcs]
    congr 1
    cases hs : st.sawdot
    · simp [hs]
    · simp [hs]
      omega

/-- A string that starts with a digit names no infinity or NaN and has no
sign. -/
theorem digit_start (c : Nat) (t : GoString) (hc : isDigit c = true) :
    special (c :: t) = none ∧ readSign (c :: t) = (false, c :: t) := by
  obtain ⟨-, -, -, ⟨g1, g2, g3, g4⟩, g5, g6, -⟩ := digit_facts c (isDigit_lt c hc) hc
  constructor
  · unfold special
    simp [g1, g2, g3, g4, g5, g6]
  · unfold readSign
    split
    · rename_i h; simp only [List.cons.injEq] at h; exact absurd h.1 g1
    · rename_i h; simp only [List.cons.injEq] at h; exact absurd h.1 g2
    · rfl

/-- A string without a letter x starts no base prefix. -/
theorem readBase_plain (u : GoString) (h : ∀ c ∈ u, lower c ≠ 120) :
    readBase u = (false, u) := by
  unfold readBase
  split
  · rename_i x c t
    rw [if_neg (h x (by simp))]
  · rfl

/-- What `ParseFloat` returns for a string of digits. -/
theorem ParseFloat_digits (ip : GoString) (hne : ip ≠ []) (h1 : ip.all isDigit = true) :
    ParseFloat ip =
      if (roundRat false (ip.foldl (fun a c => a * 10 + (c - 48)) 0) 1).2
      then ((roundRat false (ip.foldl (fun a c => a * 10 + (c - 48)) 0) 1).1, some .ErrRange)
      else ((roundRat false (ip.foldl (fun a c => a * 10 + (c - 48)) 0) 1).1, none) := by
  obtain ⟨c, t, rfl⟩ : ∃ c t, ip = c :: t := by
    cases ip with
    | nil => exact absurd rfl hne
    | cons c t => exact ⟨c, t, rfl⟩
  have hc : isDigit c = true := by
    simp only [List.all_cons, Bool.and_eq_true] at h1
    exact h1.1
  obtain ⟨hsp, hsign⟩ := digit_start c t hc
  have hx : ∀ d ∈ c :: t, lower d ≠ 120 := by
    intro d hd
    have hdd := List.all_eq_true.mp h1 d hd
    exact (digit_facts d (isDigit_lt d hdd) hdd).2.2.1
  have hscan := scanMant_value (c :: t) [] h1 ⟨false, false, false, 0, 0⟩
  rw [List.append_nil] at hscan
  have hread : readFloat (c :: t) = some ⟨false, false,
      (c :: t).foldl (fun a c => a * 10 + (c - 48)) 0, 0, []⟩ := by
    unfold readFloat
    rw [hsign]
    simp only
    rw [readBase_plain _ hx]
    simp only
    rw [hscan]
    simp [scanMant, readExponent]
  unfold ParseFloat
  rw [hsp]
  simp only
  rw [hread]
  simp [FloatLit.value]

/-- What `ParseFloat` returns for digits, a point and digits. -/
theorem ParseFloat_point (ip fp : GoString) (hne : ip ≠ []) (h1 : ip.all isDigit = true)
    (hfne : fp ≠ []) (h2 : fp.all isDigit = true) :
    ParseFloat (ip ++ 46 :: fp) =
      if (roundRat false (fp.foldl (fun a c => a * 10 + (c - 48))
          (ip.foldl (fun a c => a * 10 + (c - 48)) 0)) (10 ^ fp.length)).2
      then ((roundRat false (fp.foldl (fun a c => a * 10 + (c - 48))
          (ip.foldl (fun a c => a * 10 + (c - 48)) 0)) (10 ^ fp.length)).1, some .ErrRange)
      else ((roundRat false (fp.foldl (fun a c => a * 10 + (c - 48))
          (ip.foldl (fun a c => a * 10 + (c - 48)) 0)) (10 ^ fp.length)).1, none) := by
  obtain ⟨c, t, rfl⟩ : ∃ c t, ip = c :: t := by
    cases ip with
    | nil => exact absurd rfl hne
    | cons c t => exact ⟨c, t, rfl⟩
  have hc : isDigit c = true := by
    simp only [List.all_cons, Bool.and_eq_true] at h1
    exact h1.1
  obtain ⟨hsp, hsign⟩ := digit_start c (t ++ 46 :: fp) hc
  have hx : ∀ d ∈ (c :: t) ++ 46 :: fp, lower d ≠ 120 := by
    intro d hd
    rcases List.mem_append.mp hd with hd | hd
    · have hdd := List.all_eq_true.mp h1 d hd
      exact (digit_facts d (isDigit_lt d hdd) hdd).2.2.1
    · rcases List.mem_cons.mp hd with hd | hd
      · subst hd; decide
      · have hdd := List.all_eq_true.mp h2 d hd
        exact (digit_facts d (isDigit_lt d hdd) hdd).2.2.1
  have hscan1 := scanMant_value (c :: t) (46 :: fp) h1 ⟨false, false, false, 0, 0⟩
  have hscan2 := fun st => scanMant_value fp [] h2 st
  simp only [List.append_nil] at hscan2
  have hlen : 0 < fp.length := List.length_pos.mpr hfne
  have hdot : ∀ st : MantState, st.sawdot = false →
      scanMant false (46 :: fp) st = scanMant false fp { st with sawdot := true } := by
    intro st h
    rw [scanMant]
    simp [h]
  have hread : readFloat ((c :: t) ++ 46 :: fp) = some ⟨false, false,
      fp.foldl (fun a c => a * 10 + (c - 48))
        ((c :: t).foldl (fun a c => a * 10 + (c - 48)) 0), -(fp.length : Int), []⟩ := by
    unfold readFloat
    rw [List.cons_append, hsign]
    simp only
    rw [← List.cons_append, readBase_plain _ hx]
    simp only
    rw [hscan1, hdot _ rfl, hscan2]
    simp [scanMant, readExponent]
  unfold ParseFloat
  rw [List.cons_append, hsp]
  simp only
  rw [← List.cons_append, hread]
  have hneg : ¬ (0 : Int) ≤ -(fp.length : Int) := by omega
  simp [FloatLit.value, hneg]

/-- Digits, and digits with a point and digits, are unsigned numerals. -/
theorem unsignedNumeral_digits (ip : GoString) (hne : ip ≠ []) (h1 : ip.all isDigit = true) :
    unsignedNumeral ip = true := by
  have ht : ip.takeWhile isDigit = ip := by
    rw [List.takeWhile_eq_self_iff]
    exact fun x hx => List.all_eq_true.mp h1 x hx
  have hd : ip.dropWhile isDigit = [] := by
    rw [List.dropWhile_eq_nil_iff]
    exact fun x hx => List.all_eq_true.mp h1 x hx
  unfold unsignedNumeral
  simp only [ht, hd]
  cases ip with
  | nil => exact absurd rfl hne
  | cons c t => rfl

theorem unsignedNumeral_point (ip fp : GoString) (hne : ip ≠ []) (h1 : ip.all isDigit = true)
    (hfne : fp ≠ []) (h2 : fp.all isDigit = true) :
    unsignedNumeral (ip ++ 46 :: fp) = true := by
  have ht : (ip ++ 46 :: fp).takeWhile isDigit = ip := by
    rw [List.takeWhile_append_of_pos (fun x hx => List.all_eq_true.mp h1 x hx)]
    simp [List.takeWhile, isDigit]
  have hd : (ip ++ 46 :: fp).dropWhile isDigit = 46 :: fp := by
    rw [List.dropWhile_append_of_pos (fun x hx => List.all_eq_true.mp h1 x hx)]
    simp [List.dropWhile, isDigit]
  unfold unsignedNumeral
  simp only [ht, hd]
  cases ip with
  | nil => exact absurd rfl hne
  | cons c t =>
    cases fp with
    | nil => exact absurd rfl hfne
    | cons d u => simpa using h2

/-- The form of `%f` is a decimal numeral. -/
theorem fmtF_numeral (c up down : Nat) : decimalNumeral (fmtF c up down) = true := by
  have key : ∀ u : GoString, unsignedNumeral u = true → decimalNumeral u = true := by
    intro u hu
    obtain ⟨d, t, rfl, hd⟩ := unsignedNumeral_head u hu
    have h45 : d ≠ 45 := (digit_facts d (isDigit_lt d hd) hd).2.2.2.1.2.1
    unfold decimalNumeral
    split
    · rename_i h; simp only [List.cons.injEq] at h; exact absurd h.1 h45
    · exact hu
  apply key
  unfold fmtF
  split_ifs with h
  · exact unsignedNumeral_digits _ (FormatUint_ne_nil _) (FormatUint_all _)
  · refine unsignedNumeral_point _ _ (FormatUint_ne_nil _) (FormatUint_all _) ?_ (padDigits_all _ _)
    intro hnil
    have := padDigits_length down (c * 10 ^ up % 10 ^ down)
    rw [hnil] at this
    simp at this
    omega

/-- `ParseFloat` reads the form of `%f` as the decimal it writes. -/
theorem ParseFloat_fmtF (c up down : Nat) :
    ParseFloat (fmtF c up down) =
      if (roundRat false (c * 10 ^ up) (10 ^ down)).2
      then ((roundRat false (c * 10 ^ up) (10 ^ down)).1, some .ErrRange)
      else ((roundRat false (c * 10 ^ up) (10 ^ down)).1, none) := by
  by_cases h : down = 0
  · subst h
    have e : fmtF c up 0 = FormatUint (c * 10 ^ up) := by simp [fmtF]
    rw [e, ParseFloat_digits _ (FormatUint_ne_nil _) (FormatUint_all _), FormatUint_val, pow_zero]
  · have e : fmtF c up down =
        FormatUint (c * 10 ^ up / 10 ^ down) ++ 46 :: padDigits down (c * 10 ^ up % 10 ^ down) := by
      simp [fmtF, h]
    have hfne : padDigits down (c * 10 ^ up % 10 ^ down) ≠ [] := by
      intro hnil
      have := padDigits_length down (c * 10 ^ up % 10 ^ down)
      rw [hnil] at this
      simp at this
      omega
    rw [e, ParseFloat_point _ _ (FormatUint_ne_nil _) (FormatUint_all _) hfne (padDigits_all _ _),
      FormatUint_val, padDigits_val, padDigits_length, Nat.mod_mod, Nat.div_add_mod']

/-- No decimal of value zero identifies a float64 that is not zero. -/
theorem decRounds_zero (m : Nat) (e : Int) (hm : m ≠ 0) (up down : Nat) :
    decRounds (.finite false m e) 0 up down = false := by
  unfold decRounds roundRat
  simp only [zero_mul, if_true]
  simp only [beq_eq_false_iff_ne, ne_eq, Prod.mk.injEq, F64.finite.injEq, and_true, true_and,
    not_and]
  intro h
  exact absurd h.symm hm

/-- The decimals next to a value from 1 to below 1024, at a position from
four places before the point on, are from `10^-4` to below `10^6`. -/
theorem cand_bounds (P Q off j c : Nat) (hQ : 0 < Q) (hP1 : Q ≤ P) (hP2 : P < 1024 * Q)
    (hoff : off ≤ 4) (hc0 : 0 < c)
    (hc : c ≤ (P * 10 ^ (j - off)) / (Q * 10 ^ (off - j)) + 1)
    (hc1 : (P * 10 ^ (j - off)) / (Q * 10 ^ (off - j)) ≤ c) :
    c * 10 ^ (off - j) < 10 ^ 6 * 10 ^ (j - off) ∧
      10 ^ (j - off) ≤ c * 10 ^ (off - j) * 10 ^ 4 := by
  by_cases hj : j ≤ off
  · have hd : j - off = 0 := by omega
    rw [hd] at hc hc1 ⊢
    simp only [pow_zero, mul_one] at hc hc1 ⊢
    have hup : 10 ^ (off - j) ≤ 10 ^ 4 := Nat.pow_le_pow_right (by norm_num) (by omega)
    have hpos : 0 < 10 ^ (off - j) := by positivity
    have h1 : P / (Q * 10 ^ (off - j)) * (Q * 10 ^ (off - j)) ≤ P := Nat.div_mul_le_self _ _
    have h2 : P / (Q * 10 ^ (off - j)) * 10 ^ (off - j) < 1024 := by
      have : P / (Q * 10 ^ (off - j)) * 10 ^ (off - j) * Q < 1024 * Q := by
        calc P / (Q * 10 ^ (off - j)) * 10 ^ (off - j) * Q
            = P / (Q * 10 ^ (off - j)) * (Q * 10 ^ (off - j)) := by ring
          _ ≤ P := h1
          _ < 1024 * Q := hP2
      exact Nat.lt_of_mul_lt_mul_right this
    constructor
    · calc c * 10 ^ (off - j) ≤ (P / (Q * 10 ^ (off - j)) + 1) * 10 ^ (off - j) :=
            Nat.mul_le_mul_right _ hc
        _ = P / (Q * 10 ^ (off - j)) * 10 ^ (off - j) + 10 ^ (off - j) := by ring
        _ < 10 ^ 6 := by omega
    · have : 1 ≤ c * 10 ^ (off - j) := Nat.mul_pos hc0 hpos
      omega
  · have hu : off - j = 0 := by omega
    rw [hu] at hc hc1 ⊢
    simp only [pow_zero, mul_one] at hc hc1 ⊢
    have hpos : 0 < 10 ^ (j - off) := by positivity
    have h1 : P * 10 ^ (j - off) / Q * Q ≤ P * 10 ^ (j - off) := Nat.div_mul_le_self _ _
    have h2 : P * 10 ^ (j - off) / Q < 1024 * 10 ^ (j - off) := by
      have : P * 10 ^ (j - off) / Q * Q < 1024 * 10 ^ (j - off) * Q := by
        calc P * 10 ^ (j - off) / Q * Q ≤ P * 10 ^ (j - off) := h1
          _ < 1024 * Q * 10 ^ (j - off) := Nat.mul_lt_mul_of_pos_right hP2 hpos
          _ = 1024 * 10 ^ (j - off) * Q := by ring
      exact Nat.lt_of_mul_lt_mul_right this
    have h3 : 10 ^ (j - off) ≤ P * 10 ^ (j - off) / Q := by
      rw [Nat.le_div_iff_mul_le hQ]
      calc 10 ^ (j - off) * Q = Q * 10 ^ (j - off) := by ring
        _ ≤ P * 10 ^ (j - off) := Nat.mul_le_mul_right _ hP1
    constructor
    · omega
    · omega

/-- The search of the shortest digits for a value from 1 to below 1024 ends
with a decimal that identifies the value and is from `10^-4` to below
`10^6`. -/
theorem shortestLoop_good (x : F64) (P Q off : Nat) (exact : Nat × Nat × Nat)
    (h0 : ∀ up down, decRounds x 0 up down = false)
    (hQ : 0 < Q) (hP1 : Q ≤ P) (hP2 : P < 1024 * Q) (hoff : off ≤ 4)
    (hexact : decRounds x exact.1 exact.2.1 exact.2.2 = true ∧
      exact.1 * 10 ^ exact.2.1 < 10 ^ 6 * 10 ^ exact.2.2 ∧
      10 ^ exact.2.2 ≤ exact.1 * 10 ^ exact.2.1 * 10 ^ 4) :
    ∀ fuel j,
      decRounds x (shortestLoop x P Q off exact fuel j).1
          (shortestLoop x P Q off exact fuel j).2.1
          (shortestLoop x P Q off exact fuel j).2.2 = true ∧
        (shortestLoop x P Q off exact fuel j).1 * 10 ^ (shortestLoop x P Q off exact fuel j).2.1 <
          10 ^ 6 * 10 ^ (shortestLoop x P Q off exact fuel j).2.2 ∧
        10 ^ (shortestLoop x P Q off exact fuel j).2.2 ≤
          (shortestLoop x P Q off exact fuel j).1 *
            10 ^ (shortestLoop x P Q off exact fuel j).2.1 * 10 ^ 4 := by
  intro fuel
  induction fuel with
  | zero => intro j; exact hexact
  | succ fuel ih =>
    intro j
    have hlo : decRounds x ((P * 10 ^ (j - off)) / (Q * 10 ^ (off - j))) (off - j) (j - off) = true →
        0 < (P * 10 ^ (j - off)) / (Q * 10 ^ (off - j)) := by
      intro h
      by_contra hc
      have hz : (P * 10 ^ (j - off)) / (Q * 10 ^ (off - j)) = 0 := Nat.eq_zero_of_not_pos hc
      rw [hz, h0] at h
      exact absurd h (by simp)
    have blo := fun h => cand_bounds P Q off j _ hQ hP1 hP2 hoff (hlo h)
      (Nat.le_succ _) (le_refl _)
    have bhi := cand_bounds P Q off j ((P * 10 ^ (j - off)) / (Q * 10 ^ (off - j)) + 1)
      hQ hP1 hP2 hoff (Nat.succ_pos _) (le_refl _) (Nat.le_succ _)
    unfold shortestLoop
    simp only
    split_ifs with h1 h2 h3 h4
    · simp only [Bool.and_eq_true] at h1
      exact ⟨h1.1, blo h1.1⟩
    · simp only [Bool.and_eq_true] at h1
      exact ⟨h1.2, bhi⟩
    · exact ⟨h3, blo h3⟩
    · exact ⟨h4, bhi⟩
    · exact ih (j + 1)

/-- For a float64 from 1 to below 1024, `FormatFloatG` writes a decimal
numeral that `ParseFloat` reads back as the same float64. -/
theorem FormatFloatG_parses (m : Nat) (e : Int) (hm1 : 2 ^ 52 ≤ m) (hm2 : m < 2 ^ 53)
    (he1 : -52 ≤ e) (he2 : e ≤ -43) :
    decimalNumeral (FormatFloatG (.finite false m e)) = true ∧
      ParseFloat (FormatFloatG (.finite false m e)) = (.finite false m e, none) := by
  obtain ⟨k, rfl⟩ : ∃ k : Nat, e = -(k : Int) := ⟨(-e).toNat, by omega⟩
  have hk1 : 43 ≤ k := by omega
  have hk2 : k ≤ 52 := by omega
  have hm0 : m ≠ 0 := by omega
  have e1 : (-(k : Int)).toNat = 0 := by omega
  have e2 : (-(-(k : Int))).toNat = k := by omega
  have hneg : ¬ (0 : Int) ≤ -(k : Int) := by omega
  have hQ : 0 < 2 ^ k := by positivity
  have hP1 : 2 ^ k ≤ m :=
    le_trans (Nat.pow_le_pow_right (by norm_num) hk2) hm1
  have h43 : 2 ^ 53 ≤ 1024 * 2 ^ k := by
    calc 2 ^ 53 = 1024 * 2 ^ 43 := by norm_num
      _ ≤ 1024 * 2 ^ k := Nat.mul_le_mul_left _ (Nat.pow_le_pow_right (by norm_num) hk1)
  have hP2 : m < 1024 * 2 ^ k := lt_of_lt_of_le hm2 h43
  have hdiv : m / 2 ^ k < 10 ^ 4 := by
    have : m / 2 ^ k < 1024 := Nat.div_lt_of_lt_mul (by rw [mul_comm]; exact hP2)
    omega
  have hoff : (if m / 2 ^ k = 0 then 0 else (FormatUint (m / 2 ^ k)).length) ≤ 4 := by
    split_ifs
    · omega
    · exact formatDigits_length _ _ 4 (by omega) hdiv (by norm_num)
  have h10 : 10 ^ k = 2 ^ k * 5 ^ k := by rw [← Nat.mul_pow]
  have h5 : 0 < 5 ^ k := by positivity
  have hexact : decRounds (.finite false m (-(k : Int))) (m * 5 ^ k) 0 k = true ∧
      m * 5 ^ k * 10 ^ 0 < 10 ^ 6 * 10 ^ k ∧ 10 ^ k ≤ m * 5 ^ k * 10 ^ 0 * 10 ^ 4 := by
    refine ⟨?_, ?_, ?_⟩
    · unfold decRounds
      rw [pow_zero, mul_one, roundRat_exact m k hm1 hm2 (by omega) (by omega)]
      simp
    · rw [pow_zero, mul_one, h10]
      calc m * 5 ^ k < 1024 * 2 ^ k * 5 ^ k := Nat.mul_lt_mul_of_pos_right hP2 h5
        _ ≤ 10 ^ 6 * (2 ^ k * 5 ^ k) := by
          rw [mul_assoc]
          exact Nat.mul_le_mul_right _ (by norm_num)
    · rw [pow_zero, mul_one, h10]
      calc 2 ^ k * 5 ^ k ≤ m * 5 ^ k := Nat.mul_le_mul_right _ hP1
        _ ≤ m * 5 ^ k * 10 ^ 4 := Nat.le_mul_of_pos_right _ (by norm_num)
  have hgood := shortestLoop_good (.finite false m (-(k : Int))) m (2 ^ k)
    (if m / 2 ^ k = 0 then 0 else (FormatUint (m / 2 ^ k)).length) (m * 5 ^ k, 0, k)
    (decRounds_zero m _ hm0) hQ hP1 hP2 hoff hexact
    (k + (if m / 2 ^ k = 0 then 0 else (FormatUint (m / 2 ^ k)).length) + 1) 0
  have hsd : shortestDecimal m (-(k : Int)) =
      shortestLoop (.finite false m (-(k : Int))) m (2 ^ k)
        (if m / 2 ^ k = 0 then 0 else (FormatUint (m / 2 ^ k)).length) (m * 5 ^ k, 0, k)
        (k + (if m / 2 ^ k = 0 then 0 else (FormatUint (m / 2 ^ k)).length) + 1) 0 := by
    unfold shortestDecimal
    simp only [e1, e2, hneg, if_false, pow_zero, mul_one]
  rw [← hsd] at hgood
  rcases hc : shortestDecimal m (-(k : Int)) with ⟨c, up, down⟩
  rw [hc] at hgood
  obtain ⟨g1, g2, g3⟩ := hgood
  simp only at g1 g2 g3
  have hfmt : FormatFloatG (.finite false m (-(k : Int))) = fmtF c up down := by
    unfold FormatFloatG
    simp only [hm0, if_false, hc, Bool.false_eq_true, List.nil_append]
    rw [if_neg]
    intro h
    rcases h with h | h <;> omega
  rw [hfmt]
  refine ⟨fmtF_numeral c up down, ?_⟩
  rw [ParseFloat_fmtF]
  unfold decRounds at g1
  have g : roundRat false (c * 10 ^ up) (10 ^ down) = (.finite false m (-(k : Int)), false) := by
    simpa using g1
  rw [g]
  simp

set_option maxRecDepth 1000000 in
/-- The float64 zero is written as the digit 0, which `ParseFloat` reads
back as zero. -/
theorem FormatFloatG_zero :
    decimalNumeral (FormatFloatG (.finite false 0 (-1074))) = true ∧
      ParseFloat (FormatFloatG (.finite false 0 (-1074))) = (.finite false 0 (-1074), none) := by
  decide

/-! ## ToByteString and back through ToBytes -/

/-- The example `Sprintf` writes the default format as assumed. -/
theorem sampleEnv_sprintf : SprintfDefault sampleEnv := by
  intro x s
  have e : bytes "%g%sB" = [37, 103, 37, 115, 66] := by decide
  have e2 : bytes "B" = [66] := by decide
  show sampleSprintf (bytes "%g%sB") [.float x, .string s] = FormatFloatG x ++ s ++ bytes "B"
  rw [e, e2]
  simp [sampleSprintf]

set_option maxRecDepth 1000000 in
/-- The mantissa of the byte count zero is zero. -/
theorem chosenMantissa_zero : chosenMantissa 0 = .finite false 0 (-1074) := by
  decide

/-- The mantissa `ToByteString` renders for a byte count from 0 to below
`2^63` is written by `FormatFloatG` as a decimal numeral that `ParseFloat`
reads back as the mantissa. -/
theorem chosenMantissa_parses (b : Int) (h0 : 0 ≤ b) (h2 : b < 2 ^ 63) :
    decimalNumeral (FormatFloatG (chosenMantissa b)) = true ∧
      ParseFloat (FormatFloatG (chosenMantissa b)) = (chosenMantissa b, none) := by
  by_cases hb : b = 0
  · subst hb
    rw [chosenMantissa_zero]
    exact FormatFloatG_zero
  · obtain ⟨m, e, -, hm, hm2, he1, -, -, -, hcm, hlt, hleast⟩ := chosen_pos b (by omega) h2
    rw [hcm]
    refine FormatFloatG_parses m _ hm hm2 ?_ (by omega)
    by_cases hi : chosenIndex b = 0
    · rw [hi]; simpa using he1
    · have := hleast (chosenIndex b - 1) (by omega)
      have hc : ((chosenIndex b - 1 : Nat) : Int) = (chosenIndex b : Int) - 1 := by omega
      rw [hc] at this
      omega

/-- C12 (as amended): for every input that coerces to a byte count `b` with
`0 <= b` (so `b < 2^63`), when `fmt.Sprintf` writes the default format as
`SprintfDefault` says, `ToByteString` with the default format returns the
shortest decimal of the mantissa followed by the prefix letter and B, with
no error; `ToBytes` of that string returns `float64(b)` with no error; and
`float64(b)` is `b` itself up to `2^53`. -/
theorem ToByteString_roundtrip (env : Env) (v : Value) (b : Int)
    (hs : SprintfDefault env) (hv : ConvertToInteger env v = .ret b none) (hb : 0 ≤ b) :
    ToByteString env v [] =
        .ret (FormatFloatG (chosenMantissa b) ++ SiPrefix.String (chosenIndex b : Int) ++
          bytes "B") none ∧
      ToBytes (FormatFloatG (chosenMantissa b) ++ SiPrefix.String (chosenIndex b : Int) ++
          bytes "B") = .ret (F64.ofInt b) none ∧
      (b ≤ 2 ^ 53 → F64.exactly (F64.ofInt b) b = true) := by
  obtain ⟨r1, r2⟩ := ConvertToInteger_range env v b hv
  obtain ⟨hloop, h6⟩ := chosen_total b r1 r2
  obtain ⟨hg, hy⟩ := chosenMantissa_parses b hb r2
  have hB : bytes "B" ∈ byteSuffixes := by decide
  have hmul : F64.mul (chosenMantissa b) (pow1024 (chosenIndex b)) = F64.ofInt b := by
    by_cases hn : 1 ≤ b
    · exact ToByteString_least_index_aux b hn r2
    · have hb0 : b = 0 := by omega
      subst hb0
      exact chosen_zero
  refine ⟨?_, ?_, fun h => ofInt_exact_le b (by omega)⟩
  · rw [ToByteString_eq env v [] b _ _ hv hloop]
    have e : numericFormat [] ++ bytes "%sB" = bytes "%g%sB" := by decide
    rw [e, hs]
  · by_cases h0 : chosenIndex b = 0
    · rw [h0] at hmul ⊢
      have e : SiPrefix.String ((0 : Nat) : Int) = [] := by decide
      rw [e, List.append_nil, ToBytes_unscaled_aux _ (bytes "B") _ hg hB hy, ← hmul,
        F64.mul_pow1024_zero _ (ParseFloat_WF _ _ hy)]
    · obtain ⟨k, hk⟩ : ∃ k : Fin 8, chosenIndex b = k.val + 1 :=
        ⟨⟨chosenIndex b - 1, by omega⟩, by simp; omega⟩
      rw [hk] at hmul ⊢
      rw [SiPrefix_String_letter k, ToBytes_prefixed_aux _ (bytes "B") k true _ hg hB hy, hmul]

set_option maxRecDepth 1000000 in
/-- Witness for C12: 1536 bytes are written as 1.5KB, which `ToBytes` reads
back as 1536, and the largest int64 as 8EB, read back as `2^63`. -/
theorem ToByteString_roundtrip_witness :
    SprintfDefault sampleEnv ∧
      ToByteString sampleEnv (.int64 1536) [] = .ret (bytes "1.5KB") none ∧
      ToBytes (bytes "1.5KB") = .ret (F64.ofInt 1536) none ∧
      F64.exactly (F64.ofInt 1536) 1536 = true ∧
      ToByteString sampleEnv (.int64 9223372036854775807) [] = .ret (bytes "8EB") none ∧
      ToBytes (bytes "8EB") = .ret (F64.ofInt 9223372036854775807) none :=
  have h := ToByteString_roundtrip sampleEnv (.int64 1536) 1536 sampleEnv_sprintf
    (by decide) (by decide)
  have h2 := ToByteString_roundtrip sampleEnv (.int64 9223372036854775807) 9223372036854775807
    sampleEnv_sprintf (by decide) (by decide)
  have e : FormatFloatG (chosenMantissa 1536) ++ SiPrefix.String (chosenIndex 1536 : Int) ++
      bytes "B" = bytes "1.5KB" := by decide
  have e2 : FormatFloatG (chosenMantissa 9223372036854775807) ++
      SiPrefix.String (chosenIndex 9223372036854775807 : Int) ++ bytes "B" = bytes "8EB" := by
    decide
  ⟨sampleEnv_sprintf, e ▸ h.1, e ▸ h.2.1, h.2.2 (by decide), e2 ▸ h2.1, e2 ▸ h2.2.1⟩

end Stringutil
